import Mathlib

/-!
# Kilo text editor (`kilo.cpp`): a shallow embedding and its verified properties

Bytes are natural numbers (`'\t'` is 9, `'\n'` is 10, `'\r'` is 13, ESC is 27,
`' '` is 32).  A C buffer is the list of the bytes it holds, its length being
the allocated capacity; an access outside the capacity makes the embedded
function return `none`.  Allocation always succeeds.  Bytes that
`malloc`/`realloc` hand out uninitialised are read from an arbitrary function
`junk`, which every allocating operation takes as its first argument.  An `erow *` into `E.row` is the row's index;
where the code keeps such a pointer across a `realloc` of the row array, the
embedded function takes a flag telling whether the block moved.
-/

namespace Kilo

/-! ## Definitions -/

/-- The constant `KILO_TAB_STOP`. -/
def KILO_TAB_STOP : Nat := 8

/-- The constant `KILO_QUIT_TIMES`. -/
def KILO_QUIT_TIMES : Nat := 3

/-- The `struct erow`: `chars` and `render` are the two heap buffers. -/
structure erow where
  size : Nat
  rsize : Nat
  chars : List Nat
  render : List Nat
deriving DecidableEq

/-- The `struct editorConfig`, restricted to the fields the editing, search and
scrolling code reads or writes; `numrows` is the length of `row`. -/
structure editorConfig where
  cx : Int
  cy : Int
  rx : Int
  rowoff : Int
  coloff : Int
  screenrows : Int
  screencols : Int
  row : List erow
  dirty : Int
deriving DecidableEq

/-- The field `E.numrows`: the number of rows of the array `E.row`. -/
def editorConfig.numrows (E : editorConfig) : Int := (E.row.length : Int)

/-! ### Memory primitives of the C library -/

/-- A fresh block of `n` bytes from `malloc`: its contents are whatever the heap held. -/
def malloc (junk : Nat → Nat) (n : Nat) : List Nat :=
  (List.range n).map junk

/-- The block after `realloc(buf, n)`: the old bytes up to `n` are kept, bytes
beyond the old capacity are whatever the heap held. -/
def realloc (junk : Nat → Nat) (buf : List Nat) (n : Nat) : List Nat :=
  buf.take n ++ (List.range (n - buf.length)).map (fun i => junk (buf.length + i))

/-- The buffer after `memmove(&buf[d], &buf[s], n)`. -/
def memmove (buf : List Nat) (d s n : Nat) : Option (List Nat) :=
  if d + n ≤ buf.length ∧ s + n ≤ buf.length then
    some (buf.take d ++ (buf.drop s).take n ++ buf.drop (d + n))
  else none

/-- The buffer `dst` after `memcpy(&dst[d], src, n)`, `src` being the bytes
readable from the source pointer on. -/
def memcpy (dst : List Nat) (d : Nat) (src : List Nat) (n : Nat) : Option (List Nat) :=
  if d + n ≤ dst.length ∧ n ≤ src.length then
    some (dst.take d ++ src.take n ++ dst.drop (d + n))
  else none

/-- The buffer after the store `buf[i] = v`. -/
def poke (buf : List Nat) (i v : Nat) : Option (List Nat) :=
  if i < buf.length then some (buf.set i v) else none

/-- The bytes a C-string read of `buf` sees: those before the first NUL; `none`
when the buffer holds no NUL, so that the read runs off its end. -/
def cstr (buf : List Nat) : Option (List Nat) :=
  if 0 ∈ buf then some (buf.takeWhile (fun b => b ≠ 0)) else none

/-- The search of `strstr` over the text `hay`, `i` being the offset of `hay`
in the whole string: the offset of the first position where `needle` starts. -/
def strstrFrom (needle : List Nat) : List Nat → Nat → Option Nat
  | [], i => if needle = [] then some i else none
  | h :: hs, i =>
    if needle.isPrefixOf (h :: hs) then some i else strstrFrom needle hs (i + 1)

/-- The call `strstr(hay, needle.c_str())` on a buffer `hay` and a `std::string`
`needle`: `none` when `hay` is not NUL-terminated, else `some r` where `r` is
the offset of the match, `none` for a NULL result. -/
def strstr (hay needle : List Nat) : Option (Option Nat) :=
  (cstr hay).map (fun h => strstrFrom (needle.takeWhile (fun b => b ≠ 0)) h 0)

/-! ### Row operations -/

/-- The loop of `editorRowCxToRx`, with `n` iterations left at index `j`. -/
def editorRowCxToRxLoop (chars : List Nat) : Nat → Nat → Nat → Option Nat
  | 0, _, rx => some rx
  | n + 1, j, rx =>
    match chars[j]? with
    | none => none
    | some c =>
      let rx := if c = 9 then rx + ((KILO_TAB_STOP - 1) - rx % KILO_TAB_STOP) else rx
      editorRowCxToRxLoop chars n (j + 1) (rx + 1)

/-- The function `editorRowCxToRx(row, cx)`. -/
def editorRowCxToRx (row : erow) (cx : Int) : Option Nat :=
  editorRowCxToRxLoop row.chars cx.toNat 0 0

/-- The loop of `editorRowRxToCx`, with `n` iterations left at index `cx`. -/
def editorRowRxToCxLoop (chars : List Nat) (rx : Int) : Nat → Nat → Nat → Option Nat
  | 0, cx, _ => some cx
  | n + 1, cx, cur_rx =>
    match chars[cx]? with
    | none => none
    | some c =>
      let cur_rx := if c = 9 then cur_rx + ((KILO_TAB_STOP - 1) - cur_rx % KILO_TAB_STOP) else cur_rx
      let cur_rx := cur_rx + 1
      if (cur_rx : Int) > rx then some cx
      else editorRowRxToCxLoop chars rx n (cx + 1) cur_rx

/-- The function `editorRowRxToCx(row, rx)`. -/
def editorRowRxToCx (row : erow) (rx : Int) : Option Nat :=
  editorRowRxToCxLoop row.chars rx row.size 0 0

/-- The first loop of `editorUpdateRow`, counting the tabs, with `n` iterations
left at index `j`. -/
def editorUpdateRowTabs (chars : List Nat) : Nat → Nat → Nat → Option Nat
  | 0, _, tabs => some tabs
  | n + 1, j, tabs =>
    match chars[j]? with
    | none => none
    | some c => editorUpdateRowTabs chars n (j + 1) (if c = 9 then tabs + 1 else tabs)

/-- The inner loop `while (idx % KILO_TAB_STOP != 0) render[idx++] = ' '` of
`editorUpdateRow`; `none` also when the fuel runs out before the loop exits. -/
def editorUpdateRowPad : Nat → List Nat → Nat → Option (List Nat × Nat)
  | 0, render, idx => if idx % KILO_TAB_STOP ≠ 0 then none else some (render, idx)
  | fuel + 1, render, idx =>
    if idx % KILO_TAB_STOP ≠ 0 then
      (poke render idx 32).bind (fun r => editorUpdateRowPad fuel r (idx + 1))
    else some (render, idx)

/-- The second loop of `editorUpdateRow`, filling `render`, with `n` iterations
left at index `j` and write index `idx`. -/
def editorUpdateRowFill (chars : List Nat) : Nat → Nat → List Nat → Nat → Option (List Nat × Nat)
  | 0, _, render, idx => some (render, idx)
  | n + 1, j, render, idx =>
    match chars[j]? with
    | none => none
    | some c =>
      if c = 9 then
        (poke render idx 32).bind (fun r =>
          (editorUpdateRowPad KILO_TAB_STOP r (idx + 1)).bind (fun p =>
            editorUpdateRowFill chars n (j + 1) p.1 p.2))
      else
        (poke render idx c).bind (fun r => editorUpdateRowFill chars n (j + 1) r (idx + 1))

/-- The function `editorUpdateRow(row)`, its `int` quantities taken as unbounded
numbers; `editorUpdateRowInt` adds the range of `int`. -/
def editorUpdateRow (junk : Nat → Nat) (row : erow) : Option erow :=
  (editorUpdateRowTabs row.chars row.size 0 0).bind (fun tabs =>
    let render := malloc junk (row.size + tabs * (KILO_TAB_STOP - 1) + 1)
    (editorUpdateRowFill row.chars row.size 0 render 0).bind (fun p =>
      (poke p.1 p.2 0).map (fun render => { row with render := render, rsize := p.2 })))

/-- The raw content of a row: the first `size` bytes of `chars`. -/
def erow.raw (row : erow) : List Nat := row.chars.take row.size

/-- The rendered content of a row: the first `rsize` bytes of `render`. -/
def erow.rendered (row : erow) : List Nat := row.render.take row.rsize

/-- Reference tab expansion, continuing a rendered prefix `acc`: a tab met when
the rendered length is `k` becomes `8 - k % 8` spaces, any other byte is copied. -/
def expandTabsFrom : List Nat → List Nat → List Nat
  | acc, [] => acc
  | acc, b :: bs =>
    if b = 9 then expandTabsFrom (acc ++ List.replicate (8 - acc.length % 8) 32) bs
    else expandTabsFrom (acc ++ [b]) bs

/-- Reference tab expansion of a raw line with tab stop 8. -/
def expandTabs (raw : List Nat) : List Nat := expandTabsFrom [] raw

/-- The row behind the pointer `&E.row[i]`, when `i` is an index of the array. -/
def editorConfig.rowAt (E : editorConfig) (i : Int) : Option erow :=
  if i < 0 then none else E.row[i.toNat]?

/-- The state with the row array replaced by `rows`. -/
def editorConfig.withRows (E : editorConfig) (rows : List erow) : editorConfig :=
  { E with row := rows }

/-- The state with the row at index `i` replaced: a store through the pointer `&E.row[i]`. -/
def editorConfig.setRow (E : editorConfig) (i : Int) (row : erow) : editorConfig :=
  E.withRows (E.row.set i.toNat row)

/-- The state after `E.dirty++`. -/
def editorConfig.dirtyInc (E : editorConfig) : editorConfig :=
  { E with dirty := E.dirty + 1 }

/-- The conversion of an `int` key to the `char` stored in a buffer. -/
def toChar (c : Int) : Nat := (c % 256).toNat

/-- The function `editorRowInsertChar(row, at, c)`, `row` being `&E.row[r]`. -/
def editorRowInsertChar (junk : Nat → Nat) (E : editorConfig) (r : Int) (at_ : Int) (c : Nat) :
    Option editorConfig :=
  (E.rowAt r).bind (fun row =>
    let at_ := if at_ < 0 ∨ at_ > row.size then (row.size : Int) else at_
    let chars := realloc junk row.chars (row.size + 2)
    (memmove chars (at_.toNat + 1) at_.toNat (row.size - at_.toNat)).bind (fun chars =>
      (poke chars at_.toNat c).bind (fun chars =>
        (editorUpdateRow junk { row with chars := chars, size := row.size + 1 }).map (fun row =>
          (E.setRow r row).dirtyInc))))

/-- The function `editorInsertRow(at, s, len)`, `s` being the bytes readable
from the pointer `s` on. -/
def editorInsertRow (junk : Nat → Nat) (E : editorConfig) (at_ : Int) (s : List Nat) (len : Nat) :
    Option editorConfig :=
  if at_ < 0 ∨ at_ > E.numrows then some E
  else
    (memcpy (malloc junk (len + 1)) 0 s len).bind (fun chars =>
      (poke chars len 0).bind (fun chars =>
        (editorUpdateRow junk { size := len, chars := chars, rsize := 0, render := [] }).map
          (fun row =>
            (E.withRows (E.row.take at_.toNat ++ row :: E.row.drop at_.toNat)).dirtyInc)))

/-- The function `editorRowDelChar(row, at)`, `row` being `&E.row[r]`. -/
def editorRowDelChar (junk : Nat → Nat) (E : editorConfig) (r : Int) (at_ : Int) :
    Option editorConfig :=
  (E.rowAt r).bind (fun row =>
    if at_ < 0 ∨ at_ ≥ row.size then some E
    else
      (memmove row.chars at_.toNat (at_.toNat + 1) (row.size - at_.toNat)).bind (fun chars =>
        (editorUpdateRow junk { row with chars := chars, size := row.size - 1 }).map (fun row =>
          (E.setRow r row).dirtyInc)))

/-- The function `editorDelRow(at)`. -/
def editorDelRow (E : editorConfig) (at_ : Int) : editorConfig :=
  if at_ < 0 ∨ at_ ≥ E.numrows then E
  else (E.withRows (E.row.eraseIdx at_.toNat)).dirtyInc

/-- The function `editorRowAppendString(row, s, len)`, `row` being `&E.row[r]`. -/
def editorRowAppendString (junk : Nat → Nat) (E : editorConfig) (r : Int) (s : List Nat)
    (len : Nat) : Option editorConfig :=
  (E.rowAt r).bind (fun row =>
    let chars := realloc junk row.chars (row.size + len + 1)
    (memcpy chars row.size s len).bind (fun chars =>
      (poke chars (row.size + len) 0).bind (fun chars =>
        (editorUpdateRow junk { row with chars := chars, size := row.size + len }).map (fun row =>
          (E.setRow r row).dirtyInc))))

/-! ### Editor operations -/

/-- The function `editorInsertChar(c)`. -/
def editorInsertChar (junk : Nat → Nat) (E : editorConfig) (c : Int) : Option editorConfig :=
  (if E.cy = E.numrows then editorInsertRow junk E E.numrows [0] 0 else some E).bind (fun E =>
    (editorRowInsertChar junk E E.cy E.cx (toChar c)).map (fun E =>
      { E with cx := E.cx + 1 }))

/-- The function `editorDelChar()`. -/
def editorDelChar (junk : Nat → Nat) (E : editorConfig) : Option editorConfig :=
  if E.cy = E.numrows then some E
  else if E.cx = 0 ∧ E.cy = 0 then some E
  else if E.cx > 0 then
    (editorRowDelChar junk E E.cy (E.cx - 1)).map (fun E => { E with cx := E.cx - 1 })
  else
    (E.rowAt E.cy).bind (fun row =>
      (E.rowAt (E.cy - 1)).bind (fun prev =>
        (editorRowAppendString junk { E with cx := prev.size } (E.cy - 1) row.chars row.size).map
          (fun E =>
            let E := editorDelRow E E.cy
            { E with cy := E.cy - 1 })))

/-- The function `editorInsertNewline()`.  In the branch `cx != 0` the pointer
`row = &E.row[E.cy]` is taken before `editorInsertRow` reallocates the row
array and is used after it: `moved` tells whether that `realloc` handed out a
new block, in which case `row` dangles and the stores through it are
undefined; otherwise `row` still addresses row `E.cy`.  A pointer
`&row->chars[E.cx]` before the buffer or a negative length (huge once
converted to `size_t`) is a fault as well. -/
def editorInsertNewline (junk : Nat → Nat) (moved : Bool) (E : editorConfig) :
    Option editorConfig :=
  (if E.cx = 0 then editorInsertRow junk E E.cy [0] 0
   else
    (E.rowAt E.cy).bind (fun row =>
      if E.cx < 0 ∨ (row.size : Int) - E.cx < 0 then none
      else
        (editorInsertRow junk E (E.cy + 1) (row.chars.drop E.cx.toNat)
            ((row.size : Int) - E.cx).toNat).bind (fun E1 =>
          if moved then none
          else
            (E1.rowAt E.cy).bind (fun row =>
              (poke row.chars E.cx.toNat 0).bind (fun chars =>
                (editorUpdateRow junk { row with size := E.cx.toNat, chars := chars }).map
                  (fun row => E1.setRow E.cy row)))))).map
    (fun E => { E with cy := E.cy + 1, cx := 0 }.dirtyInc)

/-- The function `initEditor()`, `rows` and `cols` being the window size that
`getWindowSize` reports. -/
def initEditor (rows cols : Int) : editorConfig :=
  { cx := 0, cy := 0, rx := 0, rowoff := 0, coloff := 0, screenrows := rows - 2,
    screencols := cols, row := [], dirty := 0 }

/-- Calling `editorInsertChar` once for each byte of `s`, in order; the call
for the `k`-th byte sees the heap contents `junk k`. -/
def insertChars (junk : Nat → Nat → Nat) : Nat → List Nat → editorConfig → Option editorConfig
  | _, [], E => some E
  | k, c :: cs, E => (editorInsertChar (junk k) E (c : Int)).bind (insertChars junk (k + 1) cs)

/-! ### File i/o -/

/-- The first loop of `editorRowsToString`: `buflen` summed over the rows. -/
def editorRowsToStringLen : List erow → Int → Int
  | [], buflen => buflen
  | row :: rows, buflen => editorRowsToStringLen rows (buflen + ((row.size : Int) + 1))

/-- The second loop of `editorRowsToString`: `buffer.append(E.row[j].chars)`
appends the C string at `chars`, then a newline is appended. -/
def editorRowsToStringBuf : List erow → List Nat → Option (List Nat)
  | [], buffer => some buffer
  | row :: rows, buffer =>
    (cstr row.chars).bind (fun s => editorRowsToStringBuf rows (buffer ++ s ++ [10]))

/-- The function `editorRowsToString(buflen)`: the returned string and `buflen`. -/
def editorRowsToString (E : editorConfig) : Option (List Nat × Int) :=
  (editorRowsToStringBuf E.row []).map (fun buffer => (buffer, editorRowsToStringLen E.row 0))

/-- The call `getline(&line, &linecap, fp)` of the C library on the unread bytes
of the file: `none` at end of file (the result -1), else the line read, its
newline included when there is one, and the bytes left unread. -/
def getline : List Nat → Option (List Nat × List Nat)
  | [] => none
  | b :: bs =>
    if b = 10 then some ([b], bs)
    else
      match getline bs with
      | none => some ([b], [])
      | some (line, rest) => some (b :: line, rest)

/-- The inner loop of `editorOpen`, which lowers `linelen` past trailing
newlines and carriage returns. -/
def editorOpenStrip (line : List Nat) : Nat → Nat
  | 0 => 0
  | linelen + 1 =>
    if line.getD linelen 0 = 10 ∨ line.getD linelen 0 = 13 then editorOpenStrip line linelen
    else linelen + 1

/-- The `while` loop of `editorOpen` over the unread bytes `fp` of the file;
`none` also when the fuel runs out before the end of the file. -/
def editorOpenLoop (junk : Nat → Nat) : Nat → List Nat → editorConfig → Option editorConfig
  | 0, _, _ => none
  | fuel + 1, fp, E =>
    match getline fp with
    | none => some E
    | some (line, rest) =>
      (editorInsertRow junk E E.numrows (line ++ [0]) (editorOpenStrip line line.length)).bind
        (editorOpenLoop junk fuel rest)

/-- The function `editorOpen(filename)`, `file` being the bytes of the file
that `fopen` opened. -/
def editorOpen (junk : Nat → Nat) (E : editorConfig) (file : List Nat) : Option editorConfig :=
  (editorOpenLoop junk (file.length + 1) file E).map (fun E => { E with dirty := 0 })

/-- The newline-joined text the spec asks of `serialize()`: every line's raw
content followed by one newline. -/
def serialize (lines : List (List Nat)) : List Nat :=
  (lines.map (fun l => l ++ [10])).flatten

/-! ### Find -/

/-- The key codes of `enum editorKey`. -/
def BACKSPACE : Int := 127
/-- The key code `ARROW_LEFT`. -/
def ARROW_LEFT : Int := 1000
/-- The key code `ARROW_RIGHT`. -/
def ARROW_RIGHT : Int := 1001
/-- The key code `ARROW_UP`. -/
def ARROW_UP : Int := 1002
/-- The key code `ARROW_DOWN`. -/
def ARROW_DOWN : Int := 1003
/-- The key code `DEL_KEY`. -/
def DEL_KEY : Int := 1004

/-- The static variables `last_match` and `direction` of `editorFindCallback`. -/
structure findState where
  last_match : Int
  direction : Int
deriving DecidableEq

/-- The `for` loop of `editorFindCallback`, with `n` iterations left; `probes`
logs every index `current` whose row the loop body reads. -/
def editorFindCallbackLoop (query : List Nat) (direction : Int) :
    Nat → Int → Int → editorConfig → List Int → Option (Int × editorConfig × List Int)
  | 0, _, last_match, E, probes => some (last_match, E, probes)
  | n + 1, current, last_match, E, probes =>
    let current := current + direction
    let current :=
      if current = -1 then E.numrows - 1 else if current = E.numrows then 0 else current
    (E.rowAt current).bind (fun row =>
      (strstr row.render query).bind (fun m =>
        match m with
        | some off =>
          (editorRowRxToCx row (off : Int)).map (fun cx =>
            (current, { E with cy := current, cx := (cx : Int), rowoff := E.numrows },
              probes ++ [current]))
        | none =>
          editorFindCallbackLoop query direction n current last_match E (probes ++ [current])))

/-- The statics of `editorFindCallback` when the scan starts, for a key other
than Enter and ESC: the direction an arrow sets, or the reset any other key
causes, then `if (last_match == -1) direction = 1`. -/
def editorFindCallbackKey (S : findState) (key : Int) : findState :=
  let S : findState :=
    if key = ARROW_RIGHT ∨ key = ARROW_DOWN then { S with direction := 1 }
    else if key = ARROW_LEFT ∨ key = ARROW_UP then { S with direction := -1 }
    else { last_match := -1, direction := 1 }
  if S.last_match = -1 then { S with direction := 1 } else S

/-- The function `editorFindCallback(query, key)` with the log of the rows it
probed. -/
def editorFindCallbackProbes (S : findState) (E : editorConfig) (query : List Nat) (key : Int) :
    Option (findState × editorConfig × List Int) :=
  if key = 13 ∨ key = 27 then some ({ last_match := -1, direction := 1 }, E, [])
  else
    let S := editorFindCallbackKey S key
    (editorFindCallbackLoop query S.direction E.row.length S.last_match S.last_match E []).map
      (fun r => ({ S with last_match := r.1 }, r.2.1, r.2.2))

/-- The function `editorFindCallback(query, key)`. -/
def editorFindCallback (S : findState) (E : editorConfig) (query : List Nat) (key : Int) :
    Option (findState × editorConfig) :=
  (editorFindCallbackProbes S E query key).map (fun r => (r.1, r.2.1))

/-- The function `editorScroll()`. -/
def editorScroll (E : editorConfig) : Option editorConfig :=
  (if E.cy < E.numrows then
    (E.rowAt E.cy).bind (fun row => (editorRowCxToRx row E.cx).map (fun rx => (rx : Int)))
   else some 0).map (fun rx =>
    let E := { E with rx := rx }
    let E := if E.cy < E.rowoff then { E with rowoff := E.cy } else E
    let E := if E.cy ≥ E.rowoff + E.screenrows then
      { E with rowoff := E.cy - E.screenrows + 1 } else E
    let E := if E.rx < E.coloff then { E with coloff := E.rx } else E
    let E := if E.rx ≥ E.coloff + E.screencols then
      { E with coloff := E.rx - E.screencols + 1 } else E
    E)

/-- The test `iscntrl(c)` of the C library in the "C" locale. -/
def iscntrl (c : Int) : Bool := (0 ≤ c ∧ c < 32) ∨ c = 127

/-- The call `callback(buf, c)` of `editorPrompt`, skipped for a null callback. -/
def editorPromptCall {σ : Type}
    (callback : Option (σ → editorConfig → List Nat → Int → Option (σ × editorConfig)))
    (S : σ) (E : editorConfig) (buf : List Nat) (c : Int) : Option (σ × editorConfig) :=
  match callback with
  | none => some (S, E)
  | some f => f S E buf c

/-- The function `editorPrompt(prompt, callback)`, entered with the input
buffer `buf`: `keys` are the keys that `editorReadKey` returns one after the
other, `S` is the state the callback keeps.  Each round redraws the screen,
which runs `editorScroll`; the status message and the terminal output are not
part of the state.  The result is the returned string, the states and the
keys left unread; `none` also when the keys run out, where `editorReadKey`
blocks. -/
def editorPrompt {σ : Type}
    (callback : Option (σ → editorConfig → List Nat → Int → Option (σ × editorConfig))) :
    List Int → List Nat → σ → editorConfig → Option (List Nat × σ × editorConfig × List Int)
  | [], _, _, _ => none
  | c :: keys, buf, S, E =>
    (editorScroll E).bind (fun E =>
      if c = 27 then
        (editorPromptCall callback S E buf c).map (fun r => ([], r.1, r.2, keys))
      else if c = 13 ∧ buf ≠ [] then
        (editorPromptCall callback S E buf c).map (fun r => (buf, r.1, r.2, keys))
      else
        let buf :=
          if c = 13 then buf
          else if c = DEL_KEY ∨ c = 8 ∨ c = BACKSPACE then buf.dropLast
          else if ¬ iscntrl c ∧ c < 128 then buf ++ [toChar c]
          else buf
        (editorPromptCall callback S E buf c).bind (fun r => editorPrompt callback keys buf r.1 r.2))

/-- The function `editorFind()`, `keys` being the keys typed into the prompt. -/
def editorFind (S : findState) (E : editorConfig) (keys : List Int) :
    Option (findState × editorConfig × List Int) :=
  let saved_cx := E.cx
  let saved_cy := E.cy
  let saved_coloff := E.coloff
  let saved_rowoff := E.rowoff
  (editorPrompt (some editorFindCallback) keys [] S E).map (fun r =>
    if r.1 = [] then (r.2.1, r.2.2.1, r.2.2.2)
    else
      (r.2.1, { r.2.2.1 with cx := saved_cx, cy := saved_cy, coloff := saved_coloff,
                              rowoff := saved_rowoff }, r.2.2.2))

/-! ### Input -/

/-- The key code `HOME_KEY`. -/
def HOME_KEY : Int := 1005
/-- The key code `END_KEY`. -/
def END_KEY : Int := 1006
/-- The key code `PAGE_UP`. -/
def PAGE_UP : Int := 1007
/-- The key code `PAGE_DOWN`. -/
def PAGE_DOWN : Int := 1008

/-- The pointer `(E.cy >= E.numrows) ? nullptr : &E.row[E.cy]`: `some none` is
the null pointer, `none` a pointer outside the row array. -/
def editorConfig.rowPtr (E : editorConfig) : Option (Option erow) :=
  if E.cy ≥ E.numrows then some none else (E.rowAt E.cy).map some

/-- The `switch` of `editorMoveCursor(key)`, `row` being the row under the cursor. -/
def editorMoveCursorSwitch (E : editorConfig) (row : Option erow) (key : Int) :
    Option editorConfig :=
  if key = ARROW_LEFT then
    if E.cx ≠ 0 then some { E with cx := E.cx - 1 }
    else if E.cy > 0 then
      (E.rowAt (E.cy - 1)).map (fun prev => { E with cy := E.cy - 1, cx := prev.size })
    else some E
  else if key = ARROW_RIGHT then
    match row with
    | some r =>
      if E.cx < r.size then some { E with cx := E.cx + 1 }
      else if E.cx = r.size then some { E with cy := E.cy + 1, cx := 0 }
      else some E
    | none => some E
  else if key = ARROW_UP then
    if E.cy ≠ 0 then some { E with cy := E.cy - 1 } else some E
  else if key = ARROW_DOWN then
    if E.cy < E.numrows then some { E with cy := E.cy + 1 } else some E
  else some E

/-- The function `editorMoveCursor(key)`. -/
def editorMoveCursor (E : editorConfig) (key : Int) : Option editorConfig :=
  E.rowPtr.bind (fun row =>
    (editorMoveCursorSwitch E row key).bind (fun E =>
      E.rowPtr.map (fun row =>
        let rowlen : Int :=
          match row with
          | some r => r.size
          | none => 0
        if E.cx > rowlen then { E with cx := rowlen } else E)))

/-- The cursor invariant: `0 <= cy <= numrows`, `0 <= cx <= size` of line `cy`
when `cy < numrows`, and `cx = 0` when `cy = numrows`. -/
def cursorInv (E : editorConfig) : Prop :=
  0 ≤ E.cy ∧ E.cy ≤ E.numrows ∧
    (∀ row, E.rowAt E.cy = some row → 0 ≤ E.cx ∧ E.cx ≤ row.size) ∧
    (E.cy = E.numrows → E.cx = 0)

/-- The cursor position `editorRefreshScreen` sends to the terminal:
`(E.cy - E.rowoff) + 1` and `(E.rx - E.coloff) + 1`. -/
def cursorPos (E : editorConfig) : Int × Int :=
  ((E.cy - E.rowoff) + 1, (E.rx - E.coloff) + 1)

/-- A row holding the tab-free text `s`, as `editorInsertRow` builds it. -/
def textRow (s : List Nat) : erow :=
  { size := s.length, rsize := s.length, chars := s ++ [0], render := s ++ [0] }

/-- The raw line contents of the document, in line order. -/
def editorConfig.lines (E : editorConfig) : List (List Nat) := E.row.map erow.raw

/-- The allocation invariant of a row: the buffer has room for the `size`
bytes and the terminator behind them. -/
def erow.alloc (row : erow) : Prop := row.size < row.chars.length

instance (row : erow) : Decidable row.alloc := by unfold erow.alloc; infer_instance

/-- The allocation invariant of the document: every row has room for its
bytes and the terminator. -/
def allocInv (E : editorConfig) : Prop := ∀ row ∈ E.row, row.alloc

/-- The render invariant of a row: the rendered bytes are the tab expansion of
the raw bytes and the NUL terminator stands at index `rsize`. -/
def erow.renderOK (row : erow) : Prop :=
  row.rendered = expandTabs row.raw ∧ row.render[row.rsize]? = some 0

instance (E : editorConfig) : Decidable (cursorInv E) :=
  decidable_of_iff
    (0 ≤ E.cy ∧ E.cy ≤ E.numrows ∧
      (E.rowAt E.cy).all (fun row => decide (0 ≤ E.cx ∧ E.cx ≤ (row.size : Int))) = true ∧
      (E.cy = E.numrows → E.cx = 0))
    (by
      unfold cursorInv
      cases h : E.rowAt E.cy <;> simp [Option.all])

instance (E : editorConfig) : Decidable (allocInv E) := by
  unfold allocInv; infer_instance

/-- The row `editorUpdateRow` builds for the line `"a\tb"` when the heap holds
the byte 170. -/
def tabRow : erow :=
  ⟨3, 9, [97, 9, 98, 0], [97, 32, 32, 32, 32, 32, 32, 32, 98, 0, 170]⟩

/-- A sample state: the document `["a\tb", "xyz"]` on a 3 x 4 screen, the
cursor behind the tab of line 0, `rowoff = numrows` as after a search match. -/
def sampleScroll : editorConfig :=
  { (initEditor 5 4).withRows [tabRow, textRow [120, 121, 122]] with cx := 2, rowoff := 2 }

/-- A sample state: the document `["abc", "de"]` with the cursor at the end
of line 0. -/
def sampleEdit : editorConfig :=
  { (initEditor 24 80).withRows [textRow [97, 98, 99], textRow [100, 101]] with cx := 3 }

/-- The rendered column reached from column `rx` by one raw byte `c`: the body
shared by the loops of `editorRowCxToRx` and `editorRowRxToCx`. -/
def rxStep (rx c : Nat) : Nat :=
  (if c = 9 then rx + ((KILO_TAB_STOP - 1) - rx % KILO_TAB_STOP) else rx) + 1

/-! ### Keyboard input -/

/-- Outcome of one `read(STDIN_FILENO, &c, 1)`: one byte was stored (`byte c`,
`c` the value of the `char`), nothing was read (the call returned 0, or -1 with
`EAGAIN`), or the call failed. The terminal is the list of the outcomes of the
successive reads. -/
inductive readResult where
  | byte (c : Int)
  | nothing
  | error
  deriving DecidableEq

/-- The loop of `editorReadKey` waiting for the first byte: a read that yields
nothing is repeated, a failed read ends the process (`die`). The result is the
byte and the outcomes not yet consumed. -/
def editorReadKeyWait : List readResult → Option (Int × List readResult)
  | [] => none
  | readResult.byte c :: t => some (c, t)
  | readResult.nothing :: t => editorReadKeyWait t
  | readResult.error :: _ => none

/-- One `read(STDIN_FILENO, &seq[i], 1)` of `editorReadKey`: `some c` when the
call returned 1, `none` when it returned anything else. -/
def readSeq : List readResult → Option (Option Int × List readResult)
  | [] => none
  | readResult.byte c :: t => some (some c, t)
  | _ :: t => some (none, t)

/-- The `switch (seq[1])` after `ESC [ digit ~`, falling through to `return '\x1b'`. -/
def editorReadKeyTilde (seq1 : Int) : Int :=
  if seq1 = 49 then HOME_KEY
  else if seq1 = 51 then DEL_KEY
  else if seq1 = 52 then END_KEY
  else if seq1 = 53 then PAGE_UP
  else if seq1 = 54 then PAGE_DOWN
  else if seq1 = 55 then HOME_KEY
  else if seq1 = 56 then END_KEY
  else 27

/-- The `switch (seq[1])` after `ESC [`, falling through to `return '\x1b'`. -/
def editorReadKeyBracket (seq1 : Int) : Int :=
  if seq1 = 65 then ARROW_UP
  else if seq1 = 66 then ARROW_DOWN
  else if seq1 = 67 then ARROW_RIGHT
  else if seq1 = 68 then ARROW_LEFT
  else if seq1 = 72 then HOME_KEY
  else if seq1 = 70 then END_KEY
  else 27

/-- The `switch (seq[1])` after `ESC O`, falling through to `return '\x1b'`. -/
def editorReadKeyO (seq1 : Int) : Int :=
  if seq1 = 72 then HOME_KEY
  else if seq1 = 70 then END_KEY
  else 27

/-- The branch `if (c == '\x1b')` of `editorReadKey`. -/
def editorReadKeyEsc (inp : List readResult) : Option (Int × List readResult) :=
  match readSeq inp with
  | none => none
  | some (none, inp) => some (27, inp)
  | some (some seq0, inp) =>
    match readSeq inp with
    | none => none
    | some (none, inp) => some (27, inp)
    | some (some seq1, inp) =>
      if seq0 = 91 then
        if 48 ≤ seq1 ∧ seq1 ≤ 57 then
          match readSeq inp with
          | none => none
          | some (none, inp) => some (27, inp)
          | some (some seq2, inp) =>
            if seq2 = 126 then some (editorReadKeyTilde seq1, inp) else some (27, inp)
        else some (editorReadKeyBracket seq1, inp)
      else if seq0 = 79 then some (editorReadKeyO seq1, inp)
      else some (27, inp)

/-- The function `editorReadKey()`: the key returned and the outcomes of the
terminal not yet consumed; `none` when the process ends in `die` or the
terminal has no further outcome. -/
def editorReadKey (inp : List readResult) : Option (Int × List readResult) :=
  match editorReadKeyWait inp with
  | none => none
  | some (c, inp) => if c = 27 then editorReadKeyEsc inp else some (c, inp)

/-- The recognized escape sequences as the specification lists them: the bytes
that follow ESC, and the key they stand for. -/
def recognizedSequences : List (List Int × Int) :=
  [([91, 65], ARROW_UP), ([91, 66], ARROW_DOWN), ([91, 67], ARROW_RIGHT), ([91, 68], ARROW_LEFT),
   ([91, 72], HOME_KEY), ([79, 72], HOME_KEY), ([91, 70], END_KEY), ([79, 70], END_KEY),
   ([91, 49, 126], HOME_KEY), ([91, 55, 126], HOME_KEY), ([91, 51, 126], DEL_KEY),
   ([91, 52, 126], END_KEY), ([91, 56, 126], END_KEY),
   ([91, 53, 126], PAGE_UP), ([91, 54, 126], PAGE_DOWN)]

/-- The number of reads `editorReadKey` makes after an ESC byte: one when the
first yields no byte, three when the first two bytes are `[` and a digit, two
otherwise. -/
def escReads : List readResult → Nat
  | readResult.byte seq0 :: readResult.byte seq1 :: _ =>
    if seq0 = 91 ∧ 48 ≤ seq1 ∧ seq1 ≤ 57 then 3 else 2
  | readResult.byte _ :: _ => 2
  | _ => 1

/-- The text `strstr` reads in the render buffer of a row: the rendered bytes
before the first NUL byte (all of them when the rendered text holds none). -/
def erow.renderedCStr (row : erow) : List Nat := row.rendered.takeWhile (fun b => b ≠ 0)

/-- A document for the search: the lines `"x"`, `"a"`, `"x"`, the cursor on line 1. -/
def sampleFind : editorConfig :=
  { (initEditor 24 80).withRows [textRow [120], textRow [97], textRow [120]] with cy := 1 }

/-! ### Key dispatch -/

/-- The function `editorSave()`. `filename` is `E.filename` (`none` the null
pointer), `keys` are the keys `editorReadKey` returns to the prompt, and
`fileOK name` tells whether the output stream on `name` opens. The bytes
written are not part of the state; `none` also when `file.write` reads more
bytes than the string holds. -/
def editorSave (fileOK : List Nat → Bool) (filename : Option (List Nat)) (E : editorConfig)
    (keys : List Int) : Option (Option (List Nat) × editorConfig × List Int) :=
  let write := fun (name : List Nat) (E : editorConfig) (keys : List Int) =>
    (editorRowsToString E).bind (fun r =>
      if fileOK name then
        if r.2 ≤ (r.1.length : Int) + 1 then some (some name, { E with dirty := 0 }, keys)
        else none
      else some (some name, E, keys))
  match filename with
  | some name => write name E keys
  | none =>
    (@editorPrompt Unit none keys [] () E).bind (fun r =>
      if r.1 = [] then some (some [], r.2.2.1, r.2.2.2)
      else write r.1 r.2.2.1 r.2.2.2)

/-- The loop `while (times--) editorMoveCursor(key)` of the page keys. -/
def editorProcessKeypressPage (key : Int) : Nat → editorConfig → Option editorConfig
  | 0, E => some E
  | n + 1, E => (editorMoveCursor E key).bind (editorProcessKeypressPage key n)

/-- The state `editorProcessKeypress` works on: the static `quit_times`, the
statics of `editorFindCallback`, `E.filename`, the editor state and the keys
`editorReadKey` has yet to return. -/
structure keypressState where
  quit_times : Int
  find : findState
  filename : Option (List Nat)
  E : editorConfig
  keys : List Int

/-- The outcome of one `editorProcessKeypress()`: the process has left through
`exit(0)`, or the call has returned. -/
inductive keypressResult where
  | exited
  | running (st : keypressState)

/-- The cases of the `switch (c)` of `editorProcessKeypress` that end in
`break`, that is, all keys but Ctrl-Q; `st.keys` are the keys not yet read. -/
def editorProcessKeypressSwitch (junk : Nat → Nat) (moved : Bool) (fileOK : List Nat → Bool)
    (st : keypressState) (c : Int) : Option keypressState :=
  let done : editorConfig → keypressState := fun E => { st with E := E }
  if c = 13 then (editorInsertNewline junk moved st.E).map done
  else if c = 19 then
    (editorSave fileOK st.filename st.E st.keys).map (fun r =>
      { st with filename := r.1, E := r.2.1, keys := r.2.2 })
  else if c = HOME_KEY then some (done { st.E with cx := 0 })
  else if c = END_KEY then
    if st.E.cy < st.E.numrows then
      (st.E.rowAt st.E.cy).map (fun row => done { st.E with cx := row.size })
    else some st
  else if c = BACKSPACE ∨ c = 8 ∨ c = DEL_KEY then
    ((if c = DEL_KEY then editorMoveCursor st.E ARROW_RIGHT else some st.E).bind
      (editorDelChar junk)).map done
  else if c = PAGE_UP ∨ c = PAGE_DOWN then
    let E : editorConfig :=
      if c = PAGE_UP then { st.E with cy := st.E.rowoff }
      else
        let E : editorConfig := { st.E with cy := st.E.rowoff + st.E.screenrows - 1 }
        if E.cy > E.numrows then { E with cy := E.numrows } else E
    if E.screenrows < 0 then none
    else
      (editorProcessKeypressPage (if c = PAGE_UP then ARROW_UP else ARROW_DOWN)
        E.screenrows.toNat E).map done
  else if c = ARROW_UP ∨ c = ARROW_DOWN ∨ c = ARROW_LEFT ∨ c = ARROW_RIGHT then
    (editorMoveCursor st.E c).map done
  else if c = 6 then
    (editorFind st.find st.E st.keys).map (fun r =>
      { st with find := r.1, E := r.2.1, keys := r.2.2 })
  else if c = 12 ∨ c = 27 then some st
  else (editorInsertChar junk st.E c).map done

/-- The function `editorProcessKeypress()`; `none` when `editorReadKey` blocks
or a handler has no defined result. -/
def editorProcessKeypress (junk : Nat → Nat) (moved : Bool) (fileOK : List Nat → Bool)
    (st : keypressState) : Option keypressResult :=
  match st.keys with
  | [] => none
  | c :: keys =>
    let st : keypressState := { st with keys := keys }
    if c = 17 then
      if st.E.dirty ≠ 0 ∧ st.quit_times > 0 then
        some (keypressResult.running { st with quit_times := st.quit_times - 1 })
      else some keypressResult.exited
    else
      (editorProcessKeypressSwitch junk moved fileOK st c).map (fun st =>
        keypressResult.running { st with quit_times := (KILO_QUIT_TIMES : Int) })

/-- An edited document for the quit key: `"abc"` with `dirty = 1`, the counter
at its maximum, and four Ctrl-Q presses to come. -/
def sampleQuit : keypressState :=
  { quit_times := 3, find := ⟨-1, 1⟩, filename := none,
    E := { (initEditor 24 80).withRows [textRow [97, 98, 99]] with dirty := 1 },
    keys := [17, 17, 17, 17] }

/-- The raw buffer of a row is a NUL-terminated string of length `size`:
`chars[size] == 0`. -/
def erow.terminated (row : erow) : Prop := row.chars[row.size]? = some 0

instance (row : erow) : Decidable row.terminated := by unfold erow.terminated; infer_instance

/-- A document with the one line `"ab"` and the cursor behind it. -/
def sampleType : editorConfig :=
  { (initEditor 24 80).withRows [textRow [97, 98]] with cx := 2 }

/-! ### The range of `int` -/

theorem getElem?_eq_head_drop (l : List Nat) (j : Nat) (h : j < l.length) :
    l[j]? = some (l[j]) ∧ ∀ n, (l.drop j).take (n + 1) = l[j] :: (l.drop (j + 1)).take n := by
  refine ⟨List.getElem?_eq_getElem h, fun n => ?_⟩
  rw [List.drop_eq_getElem_cons h, List.take_succ_cons]

theorem lt_rxStep (rx c : Nat) : rx < rxStep rx c := by
  unfold rxStep; split <;> omega

theorem le_foldl_rxStep (l : List Nat) (rx : Nat) : rx ≤ l.foldl rxStep rx := by
  induction l generalizing rx with
  | nil => simp
  | cons c cs ih => exact le_trans (le_of_lt (lt_rxStep rx c)) (ih _)

theorem editorRowCxToRxLoop_eq (chars : List Nat) (n j rx : Nat) (h : j + n ≤ chars.length) :
    editorRowCxToRxLoop chars n j rx = some (((chars.drop j).take n).foldl rxStep rx) := by
  induction n generalizing j rx with
  | zero => simp [editorRowCxToRxLoop]
  | succ n ih =>
    obtain ⟨h1, h2⟩ := getElem?_eq_head_drop chars j (by omega)
    rw [editorRowCxToRxLoop, h1, h2 n]
    simp only [List.foldl_cons]
    rw [ih (j + 1) _ (by omega)]
    rfl

theorem editorRowRxToCxLoop_roundtrip (chars : List Nat) (n k j cur : Nat) (hk : k ≤ n)
    (h : j + n ≤ chars.length) :
    editorRowRxToCxLoop chars ((((chars.drop j).take k).foldl rxStep cur : Nat) : Int) n j cur
      = some (j + k) := by
  induction n generalizing j cur k with
  | zero =>
    obtain rfl : k = 0 := by omega
    simp [editorRowRxToCxLoop]
  | succ n ih =>
    obtain ⟨h1, h2⟩ := getElem?_eq_head_drop chars j (by omega)
    rw [editorRowRxToCxLoop, h1]
    cases k with
    | zero =>
      have := lt_rxStep cur chars[j]
      simp only [List.take_zero, List.foldl_nil, Nat.add_zero]
      unfold rxStep at this
      simp only [gt_iff_lt, Nat.cast_lt]
      rw [if_pos (by exact_mod_cast this)]
    | succ k =>
      rw [h2 k]
      simp only [List.foldl_cons]
      have hle := le_foldl_rxStep ((chars.drop (j + 1)).take k) (rxStep cur chars[j])
      have hih := ih k (j + 1) (rxStep cur chars[j]) (by omega) (by omega)
      unfold rxStep at hle hih ⊢
      simp only [gt_iff_lt, Nat.cast_lt]
      rw [if_neg (by omega), hih]
      congr 1; omega

/-- C1: for every line whose buffer holds its `size` bytes and every raw column
`cx` with `0 <= cx <= size`, `editorRowCxToRx` returns a rendered column `rx`
and `editorRowRxToCx(row, rx)` returns `cx` again. -/
theorem editorRowRxToCx_editorRowCxToRx (row : erow) (cx : Nat)
    (hsz : row.size ≤ row.chars.length) (hcx : cx ≤ row.size) :
    (editorRowCxToRx row (cx : Int)).bind (fun rx => editorRowRxToCx row (rx : Int)) = some cx := by
  unfold editorRowCxToRx editorRowRxToCx
  rw [Int.toNat_ofNat, editorRowCxToRxLoop_eq row.chars cx 0 0 (by omega)]
  simp only [Option.some_bind, List.drop_zero]
  have := editorRowRxToCxLoop_roundtrip row.chars row.size cx 0 0 hcx (by omega)
  simpa using this

/-- C1, at the line `"a\tb"` and the column 2 behind the tab. -/
theorem editorRowRxToCx_editorRowCxToRx_witness :
    (3 : Nat) ≤ [97, 9, 98, 0].length ∧ (2 : Nat) ≤ 3 ∧
    (editorRowCxToRx ⟨3, 0, [97, 9, 98, 0], []⟩ ((2 : Nat) : Int)).bind
      (fun rx => editorRowRxToCx ⟨3, 0, [97, 9, 98, 0], []⟩ (rx : Int)) = some 2 :=
  ⟨by decide, by decide,
    editorRowRxToCx_editorRowCxToRx ⟨3, 0, [97, 9, 98, 0], []⟩ 2 (by decide) (by decide)⟩

theorem poke_append (pre post : List Nat) (x v : Nat) :
    poke (pre ++ x :: post) pre.length v = some ((pre ++ [v]) ++ post) := by
  unfold poke
  rw [if_pos (by simp)]
  simp

theorem editorUpdateRowTabs_eq (chars : List Nat) (n j t : Nat) (h : j + n ≤ chars.length) :
    editorUpdateRowTabs chars n j t = some (t + ((chars.drop j).take n).count 9) := by
  induction n generalizing j t with
  | zero => simp [editorUpdateRowTabs]
  | succ n ih =>
    obtain ⟨h1, h2⟩ := getElem?_eq_head_drop chars j (by omega)
    rw [editorUpdateRowTabs, h1, h2 n]
    simp only
    rw [ih (j + 1) _ (by omega), List.count_cons]
    congr 1
    by_cases hc : chars[j] = 9
    · simp [hc]; omega
    · simp [hc]

theorem editorUpdateRowPad_eq (fuel : Nat) (pre post : List Nat)
    (hf : (8 - pre.length % 8) % 8 ≤ fuel) (hp : (8 - pre.length % 8) % 8 ≤ post.length) :
    editorUpdateRowPad fuel (pre ++ post) pre.length
      = some ((pre ++ List.replicate ((8 - pre.length % 8) % 8) 32)
                ++ post.drop ((8 - pre.length % 8) % 8),
              pre.length + (8 - pre.length % 8) % 8) := by
  induction fuel generalizing pre post with
  | zero =>
    have h0 : pre.length % 8 = 0 := by omega
    simp [editorUpdateRowPad, KILO_TAB_STOP, h0]
  | succ fuel ih =>
    by_cases h0 : pre.length % 8 = 0
    · simp [editorUpdateRowPad, KILO_TAB_STOP, h0]
    · have hk : (8 - pre.length % 8) % 8 = (8 - (pre ++ [32]).length % 8) % 8 + 1 := by
        simp only [List.length_append, List.length_singleton]; omega
      cases post with
      | nil => simp at hp; omega
      | cons x post =>
        rw [editorUpdateRowPad, if_pos (by simpa [KILO_TAB_STOP] using h0), poke_append]
        simp only [Option.some_bind]
        have := ih (pre ++ [32]) post (by omega) (by simp only [List.length_cons] at hp; omega)
        rw [show pre.length + 1 = (pre ++ [32]).length by simp, this, hk]
        simp [List.replicate_succ, Nat.add_assoc]
        omega

theorem expandTabsFrom_length (acc l : List Nat) :
    acc.length + l.length ≤ (expandTabsFrom acc l).length ∧
    (expandTabsFrom acc l).length ≤ acc.length + l.length + 7 * l.count 9 := by
  induction l generalizing acc with
  | nil => simp [expandTabsFrom]
  | cons b bs ih =>
    by_cases hb : b = 9
    · subst hb
      have := ih (acc ++ List.replicate (8 - acc.length % 8) 32)
      simp only [expandTabsFrom, if_true, List.length_append, List.length_replicate,
        List.length_cons, List.count_cons_self] at this ⊢
      omega
    · have := ih (acc ++ [b])
      simp only [expandTabsFrom, if_neg hb, List.length_append, List.length_nil,
        List.length_cons, List.count_cons_of_ne (Ne.symm hb)] at this ⊢
      omega

theorem editorUpdateRowFill_eq (chars : List Nat) (n j : Nat) (pre post : List Nat)
    (h : j + n ≤ chars.length)
    (hp : n + 7 * ((chars.drop j).take n).count 9 ≤ post.length) :
    editorUpdateRowFill chars n j (pre ++ post) pre.length
      = some (expandTabsFrom pre ((chars.drop j).take n)
                ++ post.drop ((expandTabsFrom pre ((chars.drop j).take n)).length - pre.length),
              (expandTabsFrom pre ((chars.drop j).take n)).length) := by
  induction n generalizing j pre post with
  | zero => simp [editorUpdateRowFill, expandTabsFrom]
  | succ n ih =>
    obtain ⟨h1, h2⟩ := getElem?_eq_head_drop chars j (by omega)
    rw [editorUpdateRowFill, h1, h2 n]
    rw [h2 n] at hp
    cases post with
    | nil => simp at hp
    | cons x post =>
      simp only [List.length_cons] at hp
      by_cases hc : chars[j] = 9
      · rw [hc] at hp ⊢
        simp only [List.count_cons_self] at hp
        simp only [if_true, poke_append, Option.some_bind, expandTabsFrom]
        have hk : 8 - pre.length % 8 = (8 - (pre ++ [32]).length % 8) % 8 + 1 := by
          simp only [List.length_append, List.length_singleton]; omega
        have hpad := editorUpdateRowPad_eq KILO_TAB_STOP (pre ++ [32]) post
          (by simp only [KILO_TAB_STOP]; omega) (by omega)
        rw [show pre.length + 1 = (pre ++ [32]).length by simp, hpad]
        simp only [Option.some_bind]
        have hacc : pre ++ List.replicate (8 - pre.length % 8) 32
            = (pre ++ [32]) ++ List.replicate ((8 - (pre ++ [32]).length % 8) % 8) 32 := by
          rw [hk]; simp [List.replicate_succ]
        rw [hacc]
        generalize hacc' : (pre ++ [32]) ++ List.replicate ((8 - (pre ++ [32]).length % 8) % 8) 32
          = acc
        have hlen : acc.length = pre.length + 1 + (8 - (pre ++ [32]).length % 8) % 8 := by
          rw [← hacc']; simp; omega
        have hlb := (expandTabsFrom_length acc ((chars.drop (j + 1)).take n)).1
        have hih := ih (j + 1) acc (post.drop ((8 - (pre ++ [32]).length % 8) % 8)) (by omega)
          (by simp only [List.length_drop]; omega)
        have hlen2 : (pre ++ [32]).length + (8 - (pre ++ [32]).length % 8) % 8 = acc.length := by
          rw [hlen]; simp
        rw [hlen2, hih]
        simp only [List.drop_drop]
        congr 3
        rw [show (expandTabsFrom acc ((chars.drop (j + 1)).take n)).length - pre.length
          = ((expandTabsFrom acc ((chars.drop (j + 1)).take n)).length - pre.length - 1) + 1 by
            omega, List.drop_succ_cons]
        congr 1; omega
      · simp only [if_neg hc, poke_append, Option.some_bind, expandTabsFrom]
        rw [List.count_cons_of_ne (Ne.symm hc)] at hp
        have hlb := (expandTabsFrom_length (pre ++ [chars[j]]) ((chars.drop (j + 1)).take n)).1
        simp only [List.length_append, List.length_singleton] at hlb
        have hih := ih (j + 1) (pre ++ [chars[j]]) post (by omega) (by omega)
        rw [show pre.length + 1 = (pre ++ [chars[j]]).length by simp, hih]
        congr 3
        simp only [List.length_append, List.length_singleton]
        rw [show (expandTabsFrom (pre ++ [chars[j]]) ((chars.drop (j + 1)).take n)).length
            - pre.length
          = ((expandTabsFrom (pre ++ [chars[j]]) ((chars.drop (j + 1)).take n)).length
            - (pre.length + 1)) + 1 by omega, List.drop_succ_cons]

theorem malloc_length (junk : Nat → Nat) (n : Nat) : (malloc junk n).length = n := by
  simp [malloc]

theorem expandTabsFrom_no_tab (acc l : List Nat) (h : 9 ∉ l) : expandTabsFrom acc l = acc ++ l := by
  induction l generalizing acc with
  | nil => simp [expandTabsFrom]
  | cons b bs ih =>
    have hb : b ≠ 9 := fun e => h (by simp [e])
    have hbs : 9 ∉ bs := fun e => h (by simp [e])
    simp [expandTabsFrom, hb, ih _ hbs]

/-- The row `editorUpdateRow` leaves: the reference expansion, the terminating
NUL, and behind it the bytes of the fresh block that were never written. -/
theorem editorUpdateRow_eq (junk : Nat → Nat) (row : erow) (h : row.size ≤ row.chars.length) :
    editorUpdateRow junk row = some { row with
      rsize := (expandTabs row.raw).length
      render := expandTabs row.raw ++ 0 ::
        (malloc junk (row.size + row.raw.count 9 * (KILO_TAB_STOP - 1) + 1)).drop
          ((expandTabs row.raw).length + 1) } := by
  unfold editorUpdateRow
  rw [editorUpdateRowTabs_eq row.chars row.size 0 0 (by omega)]
  simp only [Option.some_bind, List.drop_zero, Nat.zero_add]
  have hraw : row.chars.take row.size = row.raw := rfl
  rw [hraw]
  generalize hm : malloc junk (row.size + row.raw.count 9 * (KILO_TAB_STOP - 1) + 1) = buf
  have hlen : buf.length = row.size + row.raw.count 9 * 7 + 1 := by
    rw [← hm, malloc_length]; rfl
  have hrl : row.raw.length = row.size := by
    simp only [erow.raw, List.length_take]; omega
  have hfill := editorUpdateRowFill_eq row.chars row.size 0 [] buf (by omega)
    (by rw [List.drop_zero, hraw, hlen]; omega)
  simp only [List.nil_append, List.length_nil, List.drop_zero, Nat.sub_zero] at hfill
  rw [hraw] at hfill
  rw [hfill]
  simp only [Option.some_bind]
  have hb := (expandTabsFrom_length [] row.raw).2
  simp only [List.length_nil, Nat.zero_add] at hb
  have hlt : (expandTabsFrom [] row.raw).length < buf.length := by omega
  obtain ⟨x, post, hx⟩ : ∃ x post, buf.drop (expandTabsFrom [] row.raw).length = x :: post := by
    cases hd : buf.drop (expandTabsFrom [] row.raw).length with
    | nil => simp at hd; omega
    | cons x post => exact ⟨x, post, rfl⟩
  have hpost : buf.drop ((expandTabsFrom [] row.raw).length + 1) = post := by
    rw [← List.drop_drop, hx]; rfl
  rw [hx, poke_append]
  simp [expandTabs, hpost]

theorem getElem?_append_cons_length (l r : List Nat) (x : Nat) :
    (l ++ x :: r)[l.length]? = some x := by
  rw [List.getElem?_append_right (le_refl _)]
  simp

/-- C2: on every line whose buffer holds its `size` bytes, `editorUpdateRow`
succeeds, leaves `size` and `chars` alone, and the rendered bytes it produces
are the reference tab expansion of the raw bytes with tab stop 8, followed by
a NUL at index `rsize`; a line without tabs renders to itself. -/
theorem editorUpdateRow_expandTabs (junk : Nat → Nat) (row : erow)
    (h : row.size ≤ row.chars.length) :
    ∃ row2, editorUpdateRow junk row = some row2 ∧ row2.size = row.size ∧
      row2.chars = row.chars ∧ row2.rendered = expandTabs row.raw ∧
      row2.render[row2.rsize]? = some 0 ∧ (9 ∉ row.raw → row2.rendered = row.raw) := by
  refine ⟨_, editorUpdateRow_eq junk row h, rfl, rfl, ?_, ?_, ?_⟩
  · simp [erow.rendered]
  · exact getElem?_append_cons_length _ _ _
  · intro h9
    simp [erow.rendered, expandTabs, expandTabsFrom_no_tab [] row.raw h9]

/-- C2 at the line `"a\tb"`: it renders to `a`, seven spaces, `b`. -/
theorem editorUpdateRow_expandTabs_witness :
    (3 : Nat) ≤ [97, 9, 98, 0].length ∧
    expandTabs [97, 9, 98] = [97, 32, 32, 32, 32, 32, 32, 32, 98] ∧
    ∃ row2, editorUpdateRow (fun _ => 170) ⟨3, 0, [97, 9, 98, 0], []⟩ = some row2 ∧
      row2.size = 3 ∧ row2.chars = [97, 9, 98, 0] ∧
      row2.rendered = expandTabs (erow.raw ⟨3, 0, [97, 9, 98, 0], []⟩) ∧
      row2.render[row2.rsize]? = some 0 ∧
      (9 ∉ erow.raw ⟨3, 0, [97, 9, 98, 0], []⟩ →
        row2.rendered = erow.raw ⟨3, 0, [97, 9, 98, 0], []⟩) :=
  ⟨by decide, by decide,
    editorUpdateRow_expandTabs (fun _ => 170) ⟨3, 0, [97, 9, 98, 0], []⟩ (by decide)⟩

/-! ### Buffer lemmas -/

theorem split3 (L : List Nat) (a n : Nat) (h : a ≤ n) :
    L = L.take a ++ (L.drop a).take (n - a) ++ L.drop n := by
  have h1 : (L.drop a).drop (n - a) = L.drop n := by
    rw [List.drop_drop]; congr 1; omega
  rw [List.append_assoc, ← h1, List.take_append_drop, List.take_append_drop]

theorem realloc_length (junk : Nat → Nat) (buf : List Nat) (n : Nat) :
    (realloc junk buf n).length = n := by
  simp only [realloc, List.length_append, List.length_take, List.length_map, List.length_range]
  omega

theorem realloc_take (junk : Nat → Nat) (buf : List Nat) (n m : Nat) (hm : m ≤ n)
    (hb : m ≤ buf.length) : (realloc junk buf n).take m = buf.take m := by
  unfold realloc
  rw [List.take_append_of_le_length (by simp only [List.length_take]; omega), List.take_take]
  congr 1; omega

theorem memmove_poke_insert (A B T : List Nat) (t c : Nat) :
    (memmove (A ++ B ++ t :: T) (A.length + 1) A.length B.length).bind
      (fun b => poke b A.length c) = some (A ++ c :: B ++ T) := by
  have hA : (A ++ B ++ t :: T).take (A.length + 1) = A ++ (B ++ t :: T).take 1 := by
    rw [List.append_assoc, List.take_append]
  have hB : ((A ++ B ++ t :: T).drop A.length).take B.length = B := by
    rw [List.append_assoc, List.drop_left, List.take_left]
  have hT : (A ++ B ++ t :: T).drop (A.length + 1 + B.length) = T := by
    rw [show A.length + 1 + B.length = (A ++ B).length + 1 by simp; omega, List.drop_append]
    rfl
  obtain ⟨y, hy⟩ : ∃ y, (B ++ t :: T).take 1 = [y] := by
    cases B with
    | nil => exact ⟨t, rfl⟩
    | cons b B => exact ⟨b, rfl⟩
  unfold memmove
  rw [if_pos (by simp; omega), hA, hB, hT, hy]
  simp only [Option.some_bind, List.append_assoc, List.singleton_append, List.cons_append]
  rw [poke_append]
  simp

theorem memmove_delete (A B T : List Nat) (x t : Nat) :
    memmove (A ++ x :: B ++ t :: T) A.length (A.length + 1) (B.length + 1)
      = some (A ++ B ++ t :: t :: T) := by
  have hB : ((A ++ x :: B ++ t :: T).drop (A.length + 1)).take (B.length + 1) = B ++ [t] := by
    rw [show A ++ x :: B ++ t :: T = (A ++ [x]) ++ (B ++ [t]) ++ T by simp,
      show A.length + 1 = (A ++ [x]).length by simp, List.append_assoc, List.drop_left,
      show B.length + 1 = (B ++ [t]).length by simp, List.take_left]
  have hT : (A ++ x :: B ++ t :: T).drop (A.length + (B.length + 1)) = t :: T := by
    rw [show A ++ x :: B ++ t :: T = (A ++ x :: B) ++ t :: T by simp,
      show A.length + (B.length + 1) = (A ++ x :: B).length by simp, List.drop_left]
  unfold memmove
  rw [if_pos (by simp; omega), hB, hT]
  simp

theorem memcpy_poke_append (A T s : List Nat) (n : Nat) (t : Nat) (hn : n ≤ s.length)
    (hT : T.length = n) :
    (memcpy (A ++ T ++ [t]) A.length s n).bind (fun b => poke b (A.length + n) 0)
      = some (A ++ s.take n ++ [0]) := by
  have hd : (A ++ T ++ [t]).drop (A.length + n) = [t] := by
    rw [show A.length + n = (A ++ T).length by simp [hT], List.drop_left]
  unfold memcpy
  rw [if_pos (by simp; omega), hd]
  simp only [List.append_assoc, List.take_left, Option.some_bind]
  rw [show A.length + n = (A ++ s.take n).length by simp [hn], ← List.append_assoc, poke_append]
  simp

theorem length_two (L : List Nat) (h : L.length = 2) : ∃ a b, L = [a, b] := by
  match L, h with
  | [a, b], _ => exact ⟨a, b, rfl⟩

theorem length_one (L : List Nat) (h : L.length = 1) : ∃ a, L = [a] := by
  match L, h with
  | [a], _ => exact ⟨a, rfl⟩

theorem drop_take_of_take (L M : List Nat) (a n : Nat) (h : a ≤ n) (hLM : L.take n = M.take n) :
    (L.drop a).take (n - a) = (M.take n).drop a ∧ L.take a = (M.take n).take a := by
  constructor
  · rw [List.take_drop, show a + (n - a) = n by omega, hLM]
  · rw [← hLM, List.take_take, Nat.min_eq_left h]

/-- The bytes of `chars` after the `realloc`, `memmove` and store of `editorRowInsertChar`. -/
theorem insert_buf (junk : Nat → Nat) (chars : List Nat) (size a c : Nat)
    (hal : size < chars.length) (ha : a ≤ size) :
    ∃ t, (memmove (realloc junk chars (size + 2)) (a + 1) a (size - a)).bind
          (fun b => poke b a c)
        = some ((chars.take size).take a ++ c :: (chars.take size).drop a ++ [t]) := by
  obtain ⟨t0, t1, ht⟩ := length_two ((realloc junk chars (size + 2)).drop size)
    (by rw [List.length_drop, realloc_length]; omega)
  obtain ⟨hB, hA⟩ := drop_take_of_take (realloc junk chars (size + 2)) chars a size ha
    (realloc_take junk chars (size + 2) size (by omega) (by omega))
  have hL := split3 (realloc junk chars (size + 2)) a size ha
  rw [ht, hB, hA] at hL
  have hAl : ((chars.take size).take a).length = a := by
    simp only [List.length_take]; omega
  have hBl : ((chars.take size).drop a).length = size - a := by
    simp only [List.length_drop, List.length_take]; omega
  refine ⟨t1, ?_⟩
  have := memmove_poke_insert ((chars.take size).take a) ((chars.take size).drop a) [t1] t0 c
  rw [hAl, hBl] at this
  rw [hL]
  exact this

/-- The bytes of `chars` after the `memmove` of `editorRowDelChar`: the old
terminator byte `t` moves down with the tail. -/
theorem delete_buf (chars : List Nat) (size a : Nat) (hal : size < chars.length) (ha : a < size) :
    ∃ t T, chars.drop size = t :: T ∧
      memmove chars a (a + 1) (size - a)
        = some ((chars.take size).take a ++ (chars.take size).drop (a + 1) ++ t :: t :: T) := by
  obtain ⟨t, T, ht⟩ : ∃ t T, chars.drop size = t :: T := by
    cases hd : chars.drop size with
    | nil => simp at hd; omega
    | cons t T => exact ⟨t, T, rfl⟩
  obtain ⟨x, B, hx⟩ : ∃ x B, (chars.take size).drop a = x :: B := by
    cases hd : (chars.take size).drop a with
    | nil => simp at hd; omega
    | cons x B => exact ⟨x, B, rfl⟩
  have hB : (chars.take size).drop (a + 1) = B := by
    rw [← List.drop_drop, hx]; rfl
  obtain ⟨hB2, hA⟩ := drop_take_of_take chars chars a size (le_of_lt ha) rfl
  have hL := split3 chars a size (le_of_lt ha)
  rw [ht, hB2, hA, hx] at hL
  have hAl : ((chars.take size).take a).length = a := by
    simp only [List.length_take]; omega
  have hBl : B.length + 1 = size - a := by
    have : ((chars.take size).drop a).length = size - a := by
      simp only [List.length_drop, List.length_take]; omega
    rw [hx] at this; simpa using this
  refine ⟨t, T, ht, ?_⟩
  have := memmove_delete ((chars.take size).take a) B T x t
  rw [hAl, hBl] at this
  rw [hB]
  conv_lhs => rw [hL]
  simpa using this

/-- The bytes of `chars` after the `realloc`, `memcpy` and store of `editorRowAppendString`. -/
theorem append_buf (junk : Nat → Nat) (chars s : List Nat) (size len : Nat)
    (hal : size ≤ chars.length) (hs : len ≤ s.length) :
    (memcpy (realloc junk chars (size + len + 1)) size s len).bind
        (fun b => poke b (size + len) 0)
      = some (chars.take size ++ s.take len ++ [0]) := by
  obtain ⟨t, ht⟩ := length_one ((realloc junk chars (size + len + 1)).drop (size + len))
    (by rw [List.length_drop, realloc_length]; omega)
  have hL := split3 (realloc junk chars (size + len + 1)) size (size + len) (by omega)
  rw [ht, realloc_take junk chars _ size (by omega) hal] at hL
  have hAl : (chars.take size).length = size := by
    simp only [List.length_take]; omega
  have := memcpy_poke_append (chars.take size)
    (((realloc junk chars (size + len + 1)).drop size).take (size + len - size)) s len t hs
    (by simp only [List.length_take, List.length_drop, realloc_length]; omega)
  rw [hAl] at this
  conv_lhs => rw [hL]
  exact this

/-! ### Row operations on well-allocated rows -/

theorem editorUpdateRow_spec (junk : Nat → Nat) (row : erow) (h : row.size ≤ row.chars.length) :
    ∃ row2, editorUpdateRow junk row = some row2 ∧ row2.size = row.size ∧
      row2.chars = row.chars ∧ row2.renderOK := by
  refine ⟨_, editorUpdateRow_eq junk row h, rfl, rfl, ?_, ?_⟩
  · simp [erow.rendered, erow.raw]
  · exact getElem?_append_cons_length _ _ _

theorem raw_length (row : erow) (h : row.size ≤ row.chars.length) : row.raw.length = row.size := by
  simp only [erow.raw, List.length_take]; omega

theorem editorRowInsertChar_spec (junk : Nat → Nat) (E : editorConfig) (r : Int) (row : erow)
    (at_ : Int) (c : Nat) (hr : E.rowAt r = some row) (hal : row.alloc)
    (h0 : 0 ≤ at_) (h1 : at_ ≤ row.size) :
    ∃ row2, editorRowInsertChar junk E r at_ c
        = some (E.setRow r row2).dirtyInc ∧
      row2.size = row.size + 1 ∧
      row2.raw = row.raw.take at_.toNat ++ c :: row.raw.drop at_.toNat ∧
      row2.alloc ∧ row2.renderOK := by
  unfold erow.alloc at hal
  obtain ⟨t, ht⟩ := insert_buf junk row.chars row.size at_.toNat c hal (by omega)
  obtain ⟨b1, hm, hp⟩ := Option.bind_eq_some.mp ht
  have hlen : (row.raw.take at_.toNat ++ c :: row.raw.drop at_.toNat).length = row.size + 1 := by
    have := raw_length row (le_of_lt hal)
    simp only [List.length_append, List.length_take, List.length_cons, List.length_drop, this]
    omega
  obtain ⟨row2, h2, hs, hc, hok⟩ := editorUpdateRow_spec junk
    { row with chars := (row.chars.take row.size).take at_.toNat ++
        c :: (row.chars.take row.size).drop at_.toNat ++ [t], size := row.size + 1 }
    (by
      have := hlen
      simp only [erow.raw] at this
      simp only [List.cons_append, List.length_append, List.length_cons, List.length_nil] at this ⊢
      omega)
  refine ⟨row2, ?_, hs, ?_, ?_, hok⟩
  · unfold editorRowInsertChar
    rw [hr]
    simp only [Option.some_bind]
    rw [if_neg (by omega), hm]
    simp only [Option.some_bind]
    rw [hp]
    simp only [Option.some_bind]
    rw [h2]
    rfl
  · rw [erow.raw, hc, hs]
    exact List.take_left' hlen
  · unfold erow.alloc
    rw [hc, hs]
    simp only [erow.raw] at hlen
    simp only [List.cons_append, List.length_append, List.length_cons, List.length_nil] at hlen ⊢
    omega

theorem editorRowDelChar_spec (junk : Nat → Nat) (E : editorConfig) (r : Int) (row : erow)
    (at_ : Int) (hr : E.rowAt r = some row) (hal : row.alloc)
    (h0 : 0 ≤ at_) (h1 : at_ < row.size) :
    ∃ row2, editorRowDelChar junk E r at_
        = some (E.setRow r row2).dirtyInc ∧
      row2.size = row.size - 1 ∧
      row2.raw = row.raw.take at_.toNat ++ row.raw.drop (at_.toNat + 1) ∧
      row2.alloc ∧ row2.renderOK ∧ row2.chars[row2.size]? = row.chars[row.size]? := by
  unfold erow.alloc at hal
  obtain ⟨t, T, hT, hm⟩ := delete_buf row.chars row.size at_.toNat hal (by omega)
  have hlen : (row.raw.take at_.toNat ++ row.raw.drop (at_.toNat + 1)).length = row.size - 1 := by
    have := raw_length row (le_of_lt hal)
    simp only [List.length_append, List.length_take, List.length_drop, this]
    omega
  obtain ⟨row2, h2, hs, hc, hok⟩ := editorUpdateRow_spec junk
    { row with chars := (row.chars.take row.size).take at_.toNat ++
        (row.chars.take row.size).drop (at_.toNat + 1) ++ t :: t :: T, size := row.size - 1 }
    (by
      have := hlen
      simp only [erow.raw] at this
      simp only [List.length_append, List.length_cons] at this ⊢
      omega)
  refine ⟨row2, ?_, hs, ?_, ?_, hok, ?_⟩
  · unfold editorRowDelChar
    rw [hr]
    simp only [Option.some_bind]
    rw [if_neg (by omega), hm]
    simp only [Option.some_bind]
    rw [h2]
    rfl
  · rw [erow.raw, hc, hs]
    exact List.take_left' hlen
  · unfold erow.alloc
    rw [hc, hs]
    simp only [erow.raw] at hlen
    simp only [List.length_append, List.length_cons] at hlen ⊢
    omega
  · rw [hc, hs]
    simp only
    rw [← hlen]
    simp only [erow.raw]
    rw [getElem?_append_cons_length]
    have : row.chars[row.size]? = (row.chars.drop row.size)[0]? := by
      rw [List.getElem?_drop]; rfl
    rw [this, hT]
    simp

theorem editorRowAppendString_spec (junk : Nat → Nat) (E : editorConfig) (r : Int) (row : erow)
    (s : List Nat) (len : Nat) (hr : E.rowAt r = some row) (hal : row.size ≤ row.chars.length)
    (hs : len ≤ s.length) :
    ∃ row2, editorRowAppendString junk E r s len
        = some (E.setRow r row2).dirtyInc ∧
      row2.size = row.size + len ∧ row2.chars = row.raw ++ s.take len ++ [0] ∧
      row2.raw = row.raw ++ s.take len ∧ row2.alloc ∧ row2.renderOK := by
  obtain ⟨b1, hm, hp⟩ := Option.bind_eq_some.mp (append_buf junk row.chars s row.size len hal hs)
  have hlen : (row.raw ++ s.take len).length = row.size + len := by
    have := raw_length row hal
    simp only [List.length_append, List.length_take, this]
    omega
  obtain ⟨row2, h2, hsz, hc, hok⟩ := editorUpdateRow_spec junk
    { row with chars := row.chars.take row.size ++ s.take len ++ [0], size := row.size + len }
    (by
      have := hlen
      simp only [erow.raw] at this
      simp only [List.length_append, List.length_cons, List.length_nil] at this ⊢
      omega)
  refine ⟨row2, ?_, hsz, hc, ?_, ?_, hok⟩
  · unfold editorRowAppendString
    rw [hr]
    simp only [Option.some_bind]
    rw [hm]
    simp only [Option.some_bind]
    rw [hp]
    simp only [Option.some_bind]
    rw [h2]
    rfl
  · rw [erow.raw, hc, hsz]
    exact List.take_left' hlen
  · unfold erow.alloc
    rw [hc, hsz]
    simp only [erow.raw] at hlen
    simp only [List.length_append, List.length_cons, List.length_nil] at hlen ⊢
    omega

theorem editorInsertRow_spec (junk : Nat → Nat) (E : editorConfig) (at_ : Int) (s : List Nat)
    (len : Nat) (h0 : 0 ≤ at_) (h1 : at_ ≤ E.numrows) (hs : len ≤ s.length) :
    ∃ row2, editorInsertRow junk E at_ s len
        = some (E.withRows (E.row.take at_.toNat ++ row2 :: E.row.drop at_.toNat)).dirtyInc ∧
      row2.size = len ∧ row2.chars = s.take len ++ [0] ∧ row2.raw = s.take len ∧
      row2.alloc ∧ row2.renderOK := by
  have hb := append_buf junk [] s 0 len (by simp) hs
  have hre : realloc junk [] (0 + len + 1) = malloc junk (len + 1) := by
    simp [realloc, malloc]
  rw [hre] at hb
  simp only [Nat.zero_add, List.take_nil, List.nil_append] at hb
  obtain ⟨b1, hm, hp⟩ := Option.bind_eq_some.mp hb
  obtain ⟨row2, h2, hsz, hc, hok⟩ := editorUpdateRow_spec junk
    { size := len, chars := s.take len ++ [0], rsize := 0, render := [] }
    (by simp only [List.length_append, List.length_take, List.length_cons, List.length_nil]; omega)
  have hlen : (s.take len).length = len := by
    simp only [List.length_take]; omega
  refine ⟨row2, ?_, hsz, hc, ?_, ?_, hok⟩
  · unfold editorInsertRow
    rw [if_neg (by omega), hm]
    simp only [Option.some_bind]
    rw [hp]
    simp only [Option.some_bind]
    rw [h2]
    rfl
  · rw [erow.raw, hc, hsz]
    exact List.take_left' hlen
  · unfold erow.alloc
    rw [hc, hsz]
    simp only [List.length_append, List.length_cons, List.length_nil, hlen]
    omega

/-- The row `editorInsertRow` builds from a tab-free text is `textRow`. -/
theorem editorInsertRow_textRow (junk : Nat → Nat) (E : editorConfig) (s : List Nat)
    (h9 : 9 ∉ s) :
    editorInsertRow junk E E.numrows (s ++ [0]) s.length
      = some (E.withRows (E.row ++ [textRow s])).dirtyInc := by
  have hb := append_buf junk [] (s ++ [0]) 0 s.length (by simp) (by simp)
  have hre : realloc junk [] (0 + s.length + 1) = malloc junk (s.length + 1) := by
    simp [realloc, malloc]
  rw [hre] at hb
  simp only [Nat.zero_add, List.take_nil, List.nil_append, List.take_left] at hb
  obtain ⟨b1, hm, hp⟩ := Option.bind_eq_some.mp hb
  have hraw : (⟨s.length, 0, s ++ [0], []⟩ : erow).raw = s := by
    simp [erow.raw]
  have hu : editorUpdateRow junk ⟨s.length, 0, s ++ [0], []⟩ = some (textRow s) := by
    rw [editorUpdateRow_eq junk _ (by simp), hraw]
    simp [textRow, expandTabs, expandTabsFrom_no_tab [] s h9, List.count_eq_zero_of_not_mem h9,
      malloc]
  unfold editorInsertRow
  rw [if_neg (by simp [editorConfig.numrows]), hm, Option.some_bind, hp, Option.some_bind, hu]
  simp [editorConfig.numrows]

/-! ### Rows of the document -/

theorem rowAt_append (E : editorConfig) (pre post : List erow) (a : erow) (i : Int)
    (h : E.row = pre ++ a :: post) (hi : i = pre.length) : E.rowAt i = some a := by
  unfold editorConfig.rowAt
  rw [if_neg (by omega), h, hi, Int.toNat_ofNat, List.getElem?_append_right (le_refl _)]
  simp

theorem setRow_append (E : editorConfig) (pre post : List erow) (a b : erow) (i : Int)
    (h : E.row = pre ++ a :: post) (hi : i = pre.length) :
    (E.setRow i b).row = pre ++ b :: post := by
  unfold editorConfig.setRow editorConfig.withRows
  simp only
  rw [h, hi, Int.toNat_ofNat, List.set_append_right _ _ (le_refl _)]
  simp

theorem raw_take_drop (raw : List Nat) (a c : Nat) (ha : a ≤ raw.length) :
    (raw.take a ++ c :: raw.drop a).take a ++ (raw.take a ++ c :: raw.drop a).drop (a + 1)
      = raw := by
  have hl : (raw.take a).length = a := by simp only [List.length_take]; omega
  rw [List.take_left' hl, show a + 1 = (raw.take a ++ [c]).length by simp [hl],
    show raw.take a ++ c :: raw.drop a = (raw.take a ++ [c]) ++ raw.drop a by simp,
    List.drop_left, List.take_append_drop]

/-- C5: for every line `row` of the document (standing behind the rows `pre`),
every byte `c` and every column `at` with `0 <= at <= size`,
`editorRowInsertChar(row, at, c)` followed by `editorRowDelChar(row, at)`
succeeds and leaves in the same place a line with the original size and raw
content, hence with the rendered content of the original line; the other
lines are the same. -/
theorem editorRowDelChar_editorRowInsertChar (junk1 junk2 : Nat → Nat) (E : editorConfig)
    (pre post : List erow) (row : erow) (at_ : Int) (c : Nat)
    (hrow : E.row = pre ++ row :: post) (hal : row.alloc)
    (h0 : 0 ≤ at_) (h1 : at_ ≤ row.size) :
    ∃ E2 row2, (editorRowInsertChar junk1 E pre.length at_ c).bind
          (fun E1 => editorRowDelChar junk2 E1 pre.length at_) = some E2 ∧
      E2.row = pre ++ row2 :: post ∧ row2.size = row.size ∧ row2.raw = row.raw ∧
      row2.rendered = expandTabs row.raw ∧ (row.renderOK → row2.rendered = row.rendered) := by
  obtain ⟨r1, he1, hs1, hraw1, hal1, -⟩ := editorRowInsertChar_spec junk1 E pre.length row at_ c
    (rowAt_append E pre post row _ hrow rfl) hal h0 h1
  have hrow1 := setRow_append E pre post row r1 pre.length hrow rfl
  obtain ⟨r2, he2, hs2, hraw2, -, hok2, -⟩ := editorRowDelChar_spec junk2
    (E.setRow pre.length r1).dirtyInc pre.length r1 at_
    (rowAt_append _ pre post r1 _ hrow1 rfl) hal1 h0 (by omega)
  have hraw : r2.raw = row.raw := by
    rw [hraw2, hraw1]
    exact raw_take_drop row.raw at_.toNat c (by
      rw [raw_length row (le_of_lt hal)]; omega)
  refine ⟨_, r2, (by rw [he1, Option.some_bind]; exact he2), ?_, ?_, hraw, ?_, ?_⟩
  · exact setRow_append _ pre post r1 r2 pre.length hrow1 rfl
  · omega
  · rw [hok2.1, hraw]
  · intro hok
    rw [hok2.1, hraw, hok.1]

theorem eraseIdx_append_succ (pre post : List erow) (a b : erow) :
    (pre ++ a :: b :: post).eraseIdx (pre.length + 1) = pre ++ a :: post := by
  rw [show pre ++ a :: b :: post = (pre ++ [a]) ++ b :: post by simp,
    show pre.length + 1 = (pre ++ [a]).length by simp, List.eraseIdx_append_of_length_le (le_refl _)]
  simp

theorem editorDelRow_eq (E : editorConfig) (at_ : Int) (h0 : 0 ≤ at_) (h1 : at_ < E.numrows) :
    editorDelRow E at_ = (E.withRows (E.row.eraseIdx at_.toNat)).dirtyInc := by
  unfold editorDelRow
  rw [if_neg (by omega)]

/-- Backspace at column 0 of the line behind `prev`: the two lines are joined. -/
theorem editorDelChar_merge (junk : Nat → Nat) (E : editorConfig) (pre post : List erow)
    (prev cur : erow) (hrow : E.row = pre ++ prev :: cur :: post) (hcx : E.cx = 0)
    (hcy : E.cy = pre.length + 1) (hp : prev.size ≤ prev.chars.length)
    (hc : cur.size ≤ cur.chars.length) :
    ∃ E2 merged, editorDelChar junk E = some E2 ∧ E2.row = pre ++ merged :: post ∧
      merged.raw = prev.raw ++ cur.raw ∧ merged.size = prev.size + cur.size ∧
      merged.alloc ∧ merged.renderOK ∧ E2.cy = pre.length ∧ E2.cx = prev.size ∧
      E2.dirty = E.dirty + 2 := by
  have hnum : E.numrows = pre.length + 2 + post.length := by
    simp only [editorConfig.numrows, hrow, List.length_append, List.length_cons]
    push_cast; ring
  have hcur : E.rowAt E.cy = some cur :=
    rowAt_append E (pre ++ [prev]) post cur _ (by simp [hrow]) (by simp [hcy])
  have hprev : E.rowAt (E.cy - 1) = some prev :=
    rowAt_append E pre (cur :: post) prev _ hrow (by omega)
  obtain ⟨m, hm, hms, -, hmraw, hmal, hmok⟩ := editorRowAppendString_spec junk
    { E with cx := prev.size } (E.cy - 1) prev cur.chars cur.size hprev hp hc
  have hrow2 : (({ E with cx := prev.size } : editorConfig).setRow (E.cy - 1) m).row
      = pre ++ m :: cur :: post :=
    setRow_append _ pre (cur :: post) prev m _ hrow (by omega)
  have hE : editorDelChar junk E = some
      (let E3 := editorDelRow
          (({ E with cx := prev.size } : editorConfig).setRow (E.cy - 1) m).dirtyInc E.cy
       { E3 with cy := E3.cy - 1 }) := by
    unfold editorDelChar
    rw [if_neg (by omega), if_neg (by omega), if_neg (by omega), hcur, Option.some_bind, hprev,
      Option.some_bind, hm]
    rfl
  have hdel : editorDelRow
      (({ E with cx := prev.size } : editorConfig).setRow (E.cy - 1) m).dirtyInc E.cy
      = ((({ E with cx := prev.size } : editorConfig).setRow (E.cy - 1) m).dirtyInc.withRows
          (pre ++ m :: post)).dirtyInc := by
    rw [editorDelRow_eq _ E.cy (by omega) (by
      show E.cy < ((({ E with cx := prev.size } : editorConfig).setRow (E.cy - 1) m).row.length : Int)
      rw [hrow2]; simp only [List.length_append, List.length_cons]; push_cast; omega)]
    show ((_ : editorConfig).withRows
      ((({ E with cx := prev.size } : editorConfig).setRow (E.cy - 1) m).row.eraseIdx
        E.cy.toNat)).dirtyInc = _
    rw [hrow2, hcy, show ((pre.length : Int) + 1).toNat = pre.length + 1 by omega,
      eraseIdx_append_succ]
  refine ⟨_, m, hE, ?_, hmraw, hms, hmal, hmok, ?_, ?_, ?_⟩
  · show (editorDelRow _ E.cy).row = _
    rw [hdel]; rfl
  · show (editorDelRow _ E.cy).cy - 1 = _
    rw [hdel]
    show E.cy - 1 = _
    omega
  · show (editorDelRow _ E.cy).cx = _
    rw [hdel]; rfl
  · show (editorDelRow _ E.cy).dirty = _
    rw [hdel]
    show E.dirty + 1 + 1 = _
    omega

theorem lines_append (E : editorConfig) (pre post : List erow) (a : erow)
    (h : E.row = pre ++ a :: post) :
    E.lines = pre.map erow.raw ++ a.raw :: post.map erow.raw := by
  simp [editorConfig.lines, h]

/-- C4: with the cursor at column 0 of line `k = pre.length + 1`, the line
behind `prev`, `editorDelChar` replaces line `k - 1` by the concatenation of
the old lines `k - 1` and `k` and removes line `k`, the other rows staying as
they are and `numrows` dropping by one; the cursor ends at `cy = k - 1`,
`cx =` old size of line `k - 1`.  With the cursor at `(0, 0)` `editorDelChar`
changes nothing. -/
theorem editorDelChar_join (junk : Nat → Nat) (E : editorConfig) (pre post : List erow)
    (prev cur : erow) (hrow : E.row = pre ++ prev :: cur :: post) (hcx : E.cx = 0)
    (hcy : E.cy = pre.length + 1) (hp : prev.alloc) (hc : cur.alloc) :
    (∃ E2 merged, editorDelChar junk E = some E2 ∧ E2.row = pre ++ merged :: post ∧
      E2.lines = pre.map erow.raw ++ (prev.raw ++ cur.raw) :: post.map erow.raw ∧
      E2.numrows = E.numrows - 1 ∧ E2.cy = E.cy - 1 ∧ E2.cx = prev.size) ∧
    (∀ E0 : editorConfig, E0.cx = 0 → E0.cy = 0 → editorDelChar junk E0 = some E0) := by
  constructor
  · obtain ⟨E2, m, hE, hr, hraw, -, -, -, hy, hx, -⟩ :=
      editorDelChar_merge junk E pre post prev cur hrow hcx hcy (le_of_lt hp) (le_of_lt hc)
    refine ⟨E2, m, hE, hr, ?_, ?_, ?_, hx⟩
    · rw [lines_append E2 pre post m hr, hraw]
    · simp only [editorConfig.numrows, hr, hrow, List.length_append, List.length_cons]
      push_cast; ring
    · omega
  · intro E0 hx hy
    unfold editorDelChar
    by_cases h : E0.cy = E0.numrows
    · rw [if_pos h]
    · rw [if_neg h, if_pos ⟨hx, hy⟩]

/-- C4 at the document `["abc", "def"]` with the cursor at column 0 of line 1:
it becomes `["abcdef"]` with the cursor on line 0 at column 3. -/
theorem editorDelChar_join_witness :
    (textRow [97, 98, 99]).alloc ∧ (textRow [100, 101, 102]).alloc ∧
    ∃ E2, editorDelChar (fun _ => 170)
        { cx := 0, cy := 1, rx := 0, rowoff := 0, coloff := 0, screenrows := 22, screencols := 80,
          row := [textRow [97, 98, 99], textRow [100, 101, 102]], dirty := 0 } = some E2 ∧
      E2.lines = [[97, 98, 99, 100, 101, 102]] ∧ E2.cy = 0 ∧ E2.cx = 3 := by
  obtain ⟨⟨E2, m, hE, -, hl, -, hy, hx⟩, -⟩ := editorDelChar_join (fun _ => 170)
    { cx := 0, cy := 1, rx := 0, rowoff := 0, coloff := 0, screenrows := 22, screencols := 80,
      row := [textRow [97, 98, 99], textRow [100, 101, 102]], dirty := 0 }
    [] [] (textRow [97, 98, 99]) (textRow [100, 101, 102]) rfl rfl rfl (by decide) (by decide)
  exact ⟨by decide, by decide, E2, hE, hl, hy, hx⟩

theorem take_set_self (l : List Nat) (n v : Nat) : (l.set n v).take n = l.take n := by
  induction l generalizing n with
  | nil => simp
  | cons a l ih =>
    cases n with
    | zero => simp
    | succ n => simp [ih]

theorem insert_rows (pre post : List erow) (n : erow) (i : Int) (hi : i = pre.length) :
    (pre ++ post).take i.toNat ++ n :: (pre ++ post).drop i.toNat = pre ++ n :: post := by
  rw [hi, Int.toNat_ofNat, List.take_left, List.drop_left]

/-- Enter at column 0 of line `cur`: an empty line is inserted in front of it. -/
theorem editorInsertNewline_col0 (junk : Nat → Nat) (moved : Bool) (E : editorConfig)
    (pre post : List erow) (hrow : E.row = pre ++ post) (hcy : E.cy = pre.length)
    (hcx : E.cx = 0) :
    ∃ n, editorInsertNewline junk moved E
        = some ({ (E.withRows (pre ++ n :: post)).dirtyInc with
                  cy := E.cy + 1, cx := 0 } : editorConfig).dirtyInc ∧
      n.size = 0 ∧ n.raw = [] ∧ n.alloc ∧ n.renderOK := by
  obtain ⟨n, hn, hs, -, hraw, hal, hok⟩ := editorInsertRow_spec junk E E.cy [0] 0 (by omega)
    (by simp only [editorConfig.numrows, hrow, List.length_append]; push_cast; omega) (by simp)
  refine ⟨n, ?_, hs, hraw, hal, hok⟩
  unfold editorInsertNewline
  rw [if_pos hcx, hn, hrow, insert_rows pre post n E.cy hcy]
  rfl

/-- Enter inside or at the end of line `cur`, the row array staying in place:
the line is cut at `cx` and its tail becomes the next line. -/
theorem editorInsertNewline_split (junk : Nat → Nat) (E : editorConfig) (pre post : List erow)
    (cur : erow) (hrow : E.row = pre ++ cur :: post) (hcy : E.cy = pre.length)
    (h0 : 0 < E.cx) (h1 : E.cx ≤ cur.size) (hal : cur.alloc) :
    ∃ t n, editorInsertNewline junk false E
        = some ({ ((E.withRows (pre ++ cur :: n :: post)).dirtyInc.setRow E.cy t) with
                  cy := E.cy + 1, cx := 0 } : editorConfig).dirtyInc ∧
      t.size = E.cx.toNat ∧ t.raw = cur.raw.take E.cx.toNat ∧ t.alloc ∧ t.renderOK ∧
      n.size = cur.size - E.cx.toNat ∧ n.raw = cur.raw.drop E.cx.toNat ∧ n.alloc ∧
      n.renderOK := by
  unfold erow.alloc at hal
  have hcur : E.rowAt E.cy = some cur := rowAt_append E pre post cur _ hrow hcy
  have hlen : ((cur.size : Int) - E.cx).toNat = cur.size - E.cx.toNat := by omega
  obtain ⟨n, hn, hns, -, hnraw, hnal, hnok⟩ := editorInsertRow_spec junk E (E.cy + 1)
    (cur.chars.drop E.cx.toNat) (cur.size - E.cx.toNat) (by omega)
    (by simp only [editorConfig.numrows, hrow, List.length_append, List.length_cons]
        push_cast; omega)
    (by simp only [List.length_drop]; omega)
  have hrows : E.row.take (E.cy + 1).toNat ++ n :: E.row.drop (E.cy + 1).toNat
      = pre ++ cur :: n :: post := by
    have := insert_rows (pre ++ [cur]) post n (E.cy + 1) (by simp [hcy])
    simpa [hrow] using this
  rw [hrows] at hn
  have hcur1 : (E.withRows (pre ++ cur :: n :: post)).dirtyInc.rowAt E.cy = some cur :=
    rowAt_append _ pre (n :: post) cur _ rfl hcy
  have hpoke : poke cur.chars E.cx.toNat 0 = some (cur.chars.set E.cx.toNat 0) := by
    unfold poke; rw [if_pos (by omega)]
  obtain ⟨t, ht, hts, htc, htok⟩ := editorUpdateRow_spec junk
    { cur with size := E.cx.toNat, chars := cur.chars.set E.cx.toNat 0 }
    (by simp only [List.length_set]; omega)
  refine ⟨t, n, ?_, hts, ?_, ?_, htok, hns, ?_, hnal, hnok⟩
  · unfold editorInsertNewline
    rw [if_neg (by omega), hcur, Option.some_bind, if_neg (by omega), hlen, hn, Option.some_bind,
      if_neg (by simp), hcur1, Option.some_bind, hpoke, Option.some_bind, ht]
    rfl
  · rw [erow.raw, htc, hts]
    simp only [erow.raw]
    rw [take_set_self, List.take_take, Nat.min_eq_left (by omega)]
  · unfold erow.alloc
    rw [htc, hts]
    simp only [List.length_set]; omega
  · rw [hnraw]
    exact (drop_take_of_take cur.chars cur.chars E.cx.toNat cur.size (by omega) rfl).1

/-- Split and join where the pointer `row` stays valid: for every editor state
whose cursor is on an existing line `cur` (`cy < numrows`, `0 <= cx <= size`
of that line), with `cx == 0` or with the row array staying in place,
`editorInsertNewline` followed by `editorDelChar` succeeds and restores the
sequence of raw line contents and the cursor `(cx, cy)`. -/
theorem editorDelChar_editorInsertNewline_in_place (junk1 junk2 : Nat → Nat) (moved : Bool)
    (E : editorConfig) (pre post : List erow) (cur : erow) (hrow : E.row = pre ++ cur :: post)
    (hcy : E.cy = pre.length) (h0 : 0 ≤ E.cx) (h1 : E.cx ≤ cur.size) (hal : cur.alloc)
    (hm : E.cx = 0 ∨ moved = false) :
    ∃ E2, (editorInsertNewline junk1 moved E).bind (editorDelChar junk2) = some E2 ∧
      E2.lines = E.lines ∧ E2.cx = E.cx ∧ E2.cy = E.cy ∧ E2.numrows = E.numrows := by
  rw [lines_append E pre post cur hrow]
  by_cases hx : E.cx = 0
  · obtain ⟨n, hn, hns, hnraw, hnal, -⟩ :=
      editorInsertNewline_col0 junk1 moved E pre (cur :: post) hrow hcy hx
    obtain ⟨E2, m, hE, hr, hraw, -, -, -, hy, hcx, -⟩ := editorDelChar_merge junk2
      ({ (E.withRows (pre ++ n :: cur :: post)).dirtyInc with
          cy := E.cy + 1, cx := 0 } : editorConfig).dirtyInc
      pre post n cur rfl rfl (by show E.cy + 1 = _; omega) (le_of_lt hnal) (le_of_lt hal)
    refine ⟨E2, by rw [hn, Option.some_bind, hE], ?_, ?_, ?_, ?_⟩
    · rw [lines_append E2 pre post m hr, hraw, hnraw, List.nil_append]
    · rw [hcx, hns, hx]; rfl
    · omega
    · simp [editorConfig.numrows, hr, hrow]
  · obtain rfl : moved = false := hm.resolve_left hx
    obtain ⟨t, n, hn, hts, htraw, htal, -, hns, hnraw, hnal, -⟩ :=
      editorInsertNewline_split junk1 E pre post cur hrow hcy (by omega) h1 hal
    obtain ⟨E2, m, hE, hr, hraw, -, -, -, hy, hcx, -⟩ := editorDelChar_merge junk2
      ({ ((E.withRows (pre ++ cur :: n :: post)).dirtyInc.setRow E.cy t) with
          cy := E.cy + 1, cx := 0 } : editorConfig).dirtyInc
      pre post t n
      (setRow_append (E.withRows (pre ++ cur :: n :: post)).dirtyInc pre (n :: post) cur t
        E.cy rfl hcy)
      rfl (by show E.cy + 1 = _; omega) (le_of_lt htal) (le_of_lt hnal)
    refine ⟨E2, by rw [hn, Option.some_bind, hE], ?_, ?_, ?_, ?_⟩
    · rw [lines_append E2 pre post m hr, hraw, htraw, hnraw, List.take_append_drop]
    · rw [hcx, hts]; omega
    · omega
    · simp [editorConfig.numrows, hr, hrow]

/-- C3, on the document `["abcd"]` with the cursor at column 2, when the
`realloc` in `editorInsertRow` moves the row array: the stores of
`editorInsertNewline` through the dangling pointer `row` are undefined, and
no document comes back from the split and join.  With the cursor at column 0
the same document is restored. -/
theorem editorInsertNewline_stale_row :
    editorInsertNewline (fun _ => 170) true
      ({ (initEditor 24 80).withRows [textRow [97, 98, 99, 100]] with cx := 2 }) = none ∧
    (editorInsertNewline (fun _ => 170) true
      ({ (initEditor 24 80).withRows [textRow [97, 98, 99, 100]] with cx := 2 })).bind
        (editorDelChar (fun _ => 85)) = none ∧
    ((editorInsertNewline (fun _ => 170) true
      ((initEditor 24 80).withRows [textRow [97, 98, 99, 100]])).bind
        (editorDelChar (fun _ => 85))).map (fun E => (E.lines, E.cx, E.cy))
      = some ([[97, 98, 99, 100]], 0, 0) := by
  decide

/-- C5 at the line `"a\tb"`, inserting `x` at column 1 and deleting it again. -/
theorem editorRowDelChar_editorRowInsertChar_witness :
    (⟨3, 0, [97, 9, 98, 0], []⟩ : erow).alloc ∧ (0 : Int) ≤ 1 ∧ (1 : Int) ≤ 3 ∧
    ∃ E2 row2, (editorRowInsertChar (fun _ => 170)
          { cx := 0, cy := 0, rx := 0, rowoff := 0, coloff := 0, screenrows := 22,
            screencols := 80, row := [⟨3, 0, [97, 9, 98, 0], []⟩], dirty := 0 } 0 1 120).bind
          (fun E1 => editorRowDelChar (fun _ => 85) E1 0 1) = some E2 ∧
      E2.row = [row2] ∧ row2.size = 3 ∧ row2.raw = [97, 9, 98] ∧
      row2.rendered = expandTabs [97, 9, 98] ∧
      (erow.renderOK ⟨3, 0, [97, 9, 98, 0], []⟩ → row2.rendered = []) :=
  ⟨by decide, by decide, by decide,
    editorRowDelChar_editorRowInsertChar (fun _ => 170) (fun _ => 85)
      { cx := 0, cy := 0, rx := 0, rowoff := 0, coloff := 0, screenrows := 22,
        screencols := 80, row := [⟨3, 0, [97, 9, 98, 0], []⟩], dirty := 0 }
      [] [] ⟨3, 0, [97, 9, 98, 0], []⟩ 1 120 rfl (by decide) (by decide) (by decide)⟩

/-! ### Typing a text into the empty document -/

theorem toChar_byte (b : Nat) (h : b < 256) : toChar (b : Int) = b := by
  unfold toChar; omega

theorem map_toChar (s : List Nat) (h : ∀ b ∈ s, b < 256) :
    s.map (fun b : Nat => toChar (b : Int)) = s := by
  induction s with
  | nil => rfl
  | cons b bs ih =>
    simp only [List.map_cons]
    rw [toChar_byte b (h b (by simp)), ih (fun x hx => h x (by simp [hx]))]

/-- A character typed at the end of the only line of the document. -/
theorem editorInsertChar_end (junk : Nat → Nat) (E : editorConfig) (row : erow) (c : Int)
    (hrow : E.row = [row]) (hcy : E.cy = 0) (hcx : E.cx = row.size) (hal : row.alloc) :
    ∃ row2, editorInsertChar junk E c
        = some { (E.setRow 0 row2).dirtyInc with cx := E.cx + 1 } ∧
      row2.raw = row.raw ++ [toChar c] ∧ row2.size = row.size + 1 ∧ row2.alloc := by
  obtain ⟨row2, h2, hs, hraw, hal2, -⟩ := editorRowInsertChar_spec junk E E.cy row E.cx (toChar c)
    (rowAt_append E [] [] row _ hrow hcy) hal (by omega) (by omega)
  refine ⟨row2, ?_, ?_, hs, hal2⟩
  · unfold editorInsertChar
    rw [if_neg (by simp [editorConfig.numrows, hrow, hcy]), Option.some_bind, h2, hcy]
    rfl
  · rw [hraw, hcx, Int.toNat_ofNat, ← raw_length row (le_of_lt hal), List.take_length,
      List.drop_length]

theorem insertChars_end (junk : Nat → Nat → Nat) (s : List Nat) (k : Nat) (E : editorConfig)
    (row : erow) (hrow : E.row = [row]) (hcy : E.cy = 0) (hcx : E.cx = row.size)
    (hal : row.alloc) (hd : 0 < E.dirty) :
    ∃ E2 row2, insertChars junk k s E = some E2 ∧ E2.row = [row2] ∧
      row2.raw = row.raw ++ s.map (fun b : Nat => toChar (b : Int)) ∧
      row2.size = row.size + s.length ∧ E2.cy = 0 ∧ E2.cx = row2.size ∧ 0 < E2.dirty := by
  induction s generalizing k E row with
  | nil => exact ⟨E, row, rfl, hrow, by simp, by simp, hcy, hcx, hd⟩
  | cons c cs ih =>
    obtain ⟨r1, h1, hraw1, hs1, hal1⟩ := editorInsertChar_end (junk k) E row c hrow hcy hcx hal
    obtain ⟨E2, r2, hE, hr, hraw, hs, hy, hx, hd2⟩ := ih (k + 1)
      { (E.setRow 0 r1).dirtyInc with cx := E.cx + 1 } r1
      (setRow_append E [] [] row r1 0 hrow rfl) hcy
      (by show E.cx + 1 = _; rw [hs1, hcx]; push_cast; rfl) hal1
      (by show 0 < E.dirty + 1; omega)
    refine ⟨E2, r2, ?_, hr, ?_, ?_, hy, hx, hd2⟩
    · rw [insertChars, h1, Option.some_bind, hE]
    · rw [hraw, hraw1]; simp
    · rw [hs, hs1, List.length_cons]; omega

/-- C6: for every non-empty byte string `s`, starting from an empty document
with the cursor at `(0, 0)` and `dirty = 0`, calling `editorInsertChar` once
for each byte of `s` in order succeeds and yields a document with exactly one
line, whose raw content is `s`, the cursor at `cy = 0`, `cx = ` length of `s`,
and a non-zero dirty counter. -/
theorem insertChars_empty (junk : Nat → Nat → Nat) (E : editorConfig) (s : List Nat)
    (hs : s ≠ []) (hb : ∀ b ∈ s, b < 256) (hrow : E.row = []) (hcx : E.cx = 0)
    (hcy : E.cy = 0) (hd : E.dirty = 0) :
    ∃ E2, insertChars junk 0 s E = some E2 ∧ E2.lines = [s] ∧ E2.numrows = 1 ∧
      E2.cy = 0 ∧ E2.cx = s.length ∧ E2.dirty ≠ 0 := by
  cases s with
  | nil => exact absurd rfl hs
  | cons c cs =>
    obtain ⟨n, hn, hns, -, hnraw, hnal, -⟩ := editorInsertRow_spec (junk 0) E E.numrows [0] 0
      (by simp [editorConfig.numrows]) (le_refl _) (by simp)
    have hrows : E.row.take E.numrows.toNat ++ n :: E.row.drop E.numrows.toNat = [n] := by
      simp [hrow]
    rw [hrows] at hn
    obtain ⟨r1, h1, hraw1, hs1, hal1⟩ := editorInsertChar_end (junk 0)
      (E.withRows [n]).dirtyInc n c rfl hcy (by show E.cx = _; rw [hcx, hns]; rfl) hnal
    have hfirst : editorInsertChar (junk 0) E c
        = some { ((E.withRows [n]).dirtyInc.setRow 0 r1).dirtyInc with cx := E.cx + 1 } := by
      have h1b := h1
      unfold editorInsertChar at h1b ⊢
      rw [if_pos (by simp [editorConfig.numrows, hrow, hcy]), hn, Option.some_bind]
      rw [if_neg (by
        show E.cy ≠ (([n] : List erow).length : Int)
        rw [hcy]; simp), Option.some_bind] at h1b
      exact h1b
    obtain ⟨E2, r2, hE, hr, hraw, hsz, hy, hx, hd2⟩ := insertChars_end junk cs 1
      { ((E.withRows [n]).dirtyInc.setRow 0 r1).dirtyInc with cx := E.cx + 1 } r1 rfl hcy
      (by show E.cx + 1 = _; rw [hs1, hcx, hns]; rfl) hal1
      (by show 0 < E.dirty + 1 + 1; omega)
    refine ⟨E2, ?_, ?_, ?_, hy, ?_, by omega⟩
    · rw [insertChars, hfirst, Option.some_bind]; exact hE
    · have hm := map_toChar (c :: cs) hb
      rw [List.map_cons] at hm
      rw [editorConfig.lines, hr, List.map_singleton, hraw, hraw1, hnraw, List.take_zero,
        List.nil_append, List.singleton_append, hm]
    · simp [editorConfig.numrows, hr]
    · rw [hx, hsz, hs1, hns]; simp; omega

/-- C6 at the text `"xyz"`: the document becomes `["xyz"]` with `cx = 3`. -/
theorem insertChars_empty_witness :
    ([120, 121, 122] : List Nat) ≠ [] ∧ (∀ b ∈ ([120, 121, 122] : List Nat), b < 256) ∧
    ∃ E2, insertChars (fun _ _ => 170) 0 [120, 121, 122] (initEditor 24 80) = some E2 ∧
      E2.lines = [[120, 121, 122]] ∧ E2.numrows = 1 ∧ E2.cy = 0 ∧
      E2.cx = (([120, 121, 122] : List Nat).length : Int) ∧ E2.dirty ≠ 0 :=
  ⟨by decide, by decide,
    insertChars_empty (fun _ _ => 170) (initEditor 24 80) [120, 121, 122] (by decide)
      (by decide) rfl rfl rfl rfl⟩

/-! ### Saving and reading back -/

theorem takeWhile_ne_zero (l rest : List Nat) (h : 0 ∉ l) :
    (l ++ 0 :: rest).takeWhile (fun b => b ≠ 0) = l := by
  induction l with
  | nil => simp
  | cons b bs ih =>
    have hb : b ≠ 0 := fun e => h (by simp [e])
    have hbs : 0 ∉ bs := fun e => h (by simp [e])
    have := ih hbs
    simp only [List.cons_append, List.takeWhile_cons, hb, ne_eq, not_false_eq_true,
      decide_True, if_true]
    rw [this]

theorem chars_split (row : erow) (ht : row.chars[row.size]? = some 0) :
    ∃ rest, row.chars = row.raw ++ 0 :: rest := by
  have hlt : row.size < row.chars.length := by
    by_contra hge
    rw [List.getElem?_eq_none (by omega)] at ht
    exact absurd ht (by simp)
  refine ⟨row.chars.drop (row.size + 1), ?_⟩
  have h0 : row.chars[row.size] = 0 := by
    rw [List.getElem?_eq_getElem hlt] at ht
    exact Option.some.inj ht
  rw [← h0, ← List.drop_eq_getElem_cons hlt]
  exact (List.take_append_drop _ _).symm

/-- The C string at `chars` is the raw content when the buffer is terminated
at `chars[size]` and the content holds no NUL. -/
theorem cstr_chars (row : erow) (ht : row.chars[row.size]? = some 0) (h0 : 0 ∉ row.raw) :
    cstr row.chars = some row.raw := by
  obtain ⟨rest, hr⟩ := chars_split row ht
  unfold cstr
  rw [hr, if_pos (by simp), takeWhile_ne_zero _ _ h0]

theorem serialize_cons (l : List Nat) (ls : List (List Nat)) :
    serialize (l :: ls) = l ++ 10 :: serialize ls := by
  simp [serialize]

theorem editorRowsToStringBuf_eq (rows : List erow) (buffer : List Nat)
    (h : ∀ row ∈ rows, row.chars[row.size]? = some 0 ∧ 0 ∉ row.raw) :
    editorRowsToStringBuf rows buffer = some (buffer ++ serialize (rows.map erow.raw)) := by
  induction rows generalizing buffer with
  | nil => simp [editorRowsToStringBuf, serialize]
  | cons row rows ih =>
    obtain ⟨ht, h0⟩ := h row (by simp)
    rw [editorRowsToStringBuf, cstr_chars row ht h0, Option.some_bind,
      ih _ (fun r hr => h r (by simp [hr])), List.map_cons, serialize_cons]
    simp

theorem editorRowsToStringLen_eq (rows : List erow) (buflen : Int)
    (h : ∀ row ∈ rows, row.size ≤ row.chars.length) :
    editorRowsToStringLen rows buflen = buflen + (serialize (rows.map erow.raw)).length := by
  induction rows generalizing buflen with
  | nil => simp [editorRowsToStringLen, serialize]
  | cons row rows ih =>
    rw [editorRowsToStringLen, ih _ (fun r hr => h r (by simp [hr])), List.map_cons,
      serialize_cons]
    simp only [List.length_append, List.length_cons, raw_length row (h row (by simp))]
    push_cast; ring

/-- On a document whose rows are NUL-terminated and hold no NUL byte,
`editorRowsToString` returns the newline-joined text and its length. -/
theorem editorRowsToString_eq (E : editorConfig)
    (h : ∀ row ∈ E.row, row.chars[row.size]? = some 0 ∧ 0 ∉ row.raw) :
    editorRowsToString E = some (serialize E.lines, ((serialize E.lines).length : Int)) := by
  unfold editorRowsToString
  rw [editorRowsToStringBuf_eq E.row [] h, editorRowsToStringLen_eq E.row 0 (fun row hr => by
    have := (h row hr).1
    by_contra hge
    rw [List.getElem?_eq_none (by omega)] at this
    exact absurd this (by simp))]
  simp [editorConfig.lines]

theorem getline_line (l rest : List Nat) (h : 10 ∉ l) :
    getline (l ++ 10 :: rest) = some (l ++ [10], rest) := by
  induction l with
  | nil => simp [getline]
  | cons b bs ih =>
    have hb : b ≠ 10 := fun e => h (by simp [e])
    have hbs : 10 ∉ bs := fun e => h (by simp [e])
    rw [List.cons_append, getline, if_neg hb, ih hbs]
    rfl

theorem editorOpenStrip_line (l : List Nat) (h10 : 10 ∉ l) (h13 : l.getLast? ≠ some 13) :
    editorOpenStrip (l ++ [10]) (l ++ [10]).length = l.length := by
  rw [List.length_append, List.length_singleton, editorOpenStrip,
    if_pos (Or.inl (by simp [List.getD_eq_getElem?_getD]))]
  rcases List.eq_nil_or_concat l with rfl | ⟨l2, x, rfl⟩
  · rfl
  · rw [List.concat_eq_append] at h10 h13 ⊢
    have hx10 : x ≠ 10 := fun e => h10 (by simp [e])
    have hx13 : x ≠ 13 := fun e => h13 (by simp [e])
    rw [List.length_append, List.length_singleton, editorOpenStrip]
    have hget : (l2 ++ [x] ++ [10]).getD l2.length 0 = x := by
      rw [List.getD_eq_getElem?_getD, List.append_assoc,
        List.getElem?_append_right (le_refl _)]
      simp
    rw [hget, if_neg (by simp [hx10, hx13])]

theorem take_numrows (E : editorConfig) (row : erow) :
    E.row.take E.numrows.toNat ++ row :: E.row.drop E.numrows.toNat = E.row ++ [row] := by
  simp [editorConfig.numrows]

theorem editorOpenLoop_serialize (junk : Nat → Nat) (lines : List (List Nat)) (fuel : Nat)
    (E : editorConfig) (hf : lines.length < fuel)
    (h : ∀ l ∈ lines, 10 ∉ l ∧ l.getLast? ≠ some 13) :
    ∃ E2, editorOpenLoop junk fuel (serialize lines) E = some E2 ∧
      E2.lines = E.lines ++ lines := by
  induction lines generalizing fuel E with
  | nil =>
    cases fuel with
    | zero => exact absurd hf (by simp)
    | succ fuel => exact ⟨E, by simp [editorOpenLoop, serialize, getline], by simp⟩
  | cons l ls ih =>
    cases fuel with
    | zero => exact absurd hf (by simp)
    | succ fuel =>
      obtain ⟨h10, h13⟩ := h l (by simp)
      obtain ⟨n, hn, -, -, hraw, -, -⟩ := editorInsertRow_spec junk E E.numrows (l ++ [10] ++ [0])
        l.length (by simp [editorConfig.numrows]) (le_refl _) (by simp)
      rw [take_numrows] at hn
      obtain ⟨E2, hE2, hl2⟩ := ih fuel (E.withRows (E.row ++ [n])).dirtyInc
        (by simp only [List.length_cons] at hf; omega) (fun x hx => h x (by simp [hx]))
      refine ⟨E2, ?_, ?_⟩
      · rw [serialize_cons, editorOpenLoop, getline_line l _ h10]
        simp only
        rw [editorOpenStrip_line l h10 h13, hn, Option.some_bind, hE2]
      · rw [hl2]
        have : (l ++ [10] ++ [0]).take l.length = l := by
          rw [List.append_assoc, List.take_left]
        simp [editorConfig.lines, editorConfig.withRows, editorConfig.dirtyInc, hraw, this]

theorem length_le_serialize (lines : List (List Nat)) :
    lines.length ≤ (serialize lines).length := by
  induction lines with
  | nil => simp
  | cons l ls ih =>
    rw [serialize_cons]
    simp only [List.length_append, List.length_cons]
    omega

/-- C7, on the document read from the file `"a\0b\n"`: its only line holds
the three bytes `a`, NUL, `b`, and `editorRowsToString` returns the two bytes
`"a\n"` while reporting `buflen = 4`; the newline-joined text of the
document is the four bytes `"a\0b\n"`. -/
theorem editorRowsToString_nul_line :
    ∃ E, editorOpen (fun _ => 170) (initEditor 24 80) [97, 0, 98, 10] = some E ∧
      E.lines = [[97, 0, 98]] ∧ editorRowsToString E = some ([97, 10], 4) ∧
      serialize E.lines = [97, 0, 98, 10] :=
  ⟨_, rfl, by decide, by decide, by decide⟩

/-- C8 fails on the document `["a\r"]`: it is saved as `"a\r\n"`, and
reading that back strips the carriage return with the newline, giving `["a"]`.
It fails as well on the document `["a\nb"]`, saved as `"a\nb\n"` and read
back as the two lines `["a", "b"]`. -/
theorem editorOpen_editorRowsToString_cr :
    (((initEditor 24 80).withRows [textRow [97, 13]]).lines = [[97, 13]] ∧
      editorRowsToString ((initEditor 24 80).withRows [textRow [97, 13]])
        = some ([97, 13, 10], 3) ∧
      (editorOpen (fun _ => 170) (initEditor 24 80) [97, 13, 10]).map editorConfig.lines
        = some [[97]] ∧
      ([[97]] : List (List Nat)) ≠ [[97, 13]]) ∧
    (((initEditor 24 80).withRows [textRow [97, 10, 98]]).lines = [[97, 10, 98]] ∧
      editorRowsToString ((initEditor 24 80).withRows [textRow [97, 10, 98]])
        = some ([97, 10, 98, 10], 4) ∧
      (editorOpen (fun _ => 170) (initEditor 24 80) [97, 10, 98, 10]).map editorConfig.lines
        = some [[97], [98]] ∧
      ([[97], [98]] : List (List Nat)) ≠ [[97, 10, 98]]) := by
  decide

/-- C8, amended: for every document whose rows are NUL-terminated at
`chars[size]` and whose lines hold no NUL and no newline byte and do not end
in a carriage return, `editorRowsToString` returns the newline-joined text
with its length, and `editorOpen`, reading these bytes into an empty document,
succeeds and reproduces the sequence of raw line contents. -/
theorem editorOpen_editorRowsToString (junk : Nat → Nat) (E E0 : editorConfig)
    (h : ∀ row ∈ E.row, row.chars[row.size]? = some 0 ∧ 0 ∉ row.raw ∧ 10 ∉ row.raw ∧
      row.raw.getLast? ≠ some 13)
    (h0 : E0.row = []) :
    ∃ out E2, editorRowsToString E = some (out, (out.length : Int)) ∧
      out = serialize E.lines ∧ editorOpen junk E0 out = some E2 ∧ E2.lines = E.lines := by
  obtain ⟨E2, hE2, hl⟩ := editorOpenLoop_serialize junk E.lines ((serialize E.lines).length + 1)
    E0 (Nat.lt_succ_of_le (length_le_serialize _)) (fun l hl => by
      simp only [editorConfig.lines, List.mem_map] at hl
      obtain ⟨row, hr, rfl⟩ := hl
      exact ⟨(h row hr).2.2.1, (h row hr).2.2.2⟩)
  refine ⟨serialize E.lines, { E2 with dirty := 0 },
    editorRowsToString_eq E (fun row hr => ⟨(h row hr).1, (h row hr).2.1⟩), rfl, ?_, ?_⟩
  · unfold editorOpen
    rw [hE2]; rfl
  · show E2.lines = _
    rw [hl]
    simp [editorConfig.lines, h0]

/-- C8, amended, at the document `["ab", ""]`. -/
theorem editorOpen_editorRowsToString_witness :
    (∀ row ∈ ((initEditor 24 80).withRows [textRow [97, 98], textRow []]).row,
      row.chars[row.size]? = some 0 ∧ 0 ∉ row.raw ∧ 10 ∉ row.raw ∧
        row.raw.getLast? ≠ some 13) ∧
    (initEditor 24 80).row = [] ∧
    ∃ out E2, editorRowsToString ((initEditor 24 80).withRows [textRow [97, 98], textRow []])
        = some (out, (out.length : Int)) ∧
      out = serialize ((initEditor 24 80).withRows [textRow [97, 98], textRow []]).lines ∧
      editorOpen (fun _ => 170) (initEditor 24 80) out = some E2 ∧
      E2.lines = ((initEditor 24 80).withRows [textRow [97, 98], textRow []]).lines :=
  ⟨by decide, rfl,
    editorOpen_editorRowsToString (fun _ => 170)
      ((initEditor 24 80).withRows [textRow [97, 98], textRow []]) (initEditor 24 80)
      (by decide) rfl⟩

/-! ### Search without a match -/

theorem strstrFrom_none (needle hay : List Nat) (i : Nat) (h : ¬ needle <:+: hay) :
    strstrFrom needle hay i = none := by
  induction hay generalizing i with
  | nil =>
    rw [strstrFrom, if_neg]
    rintro rfl
    exact h List.nil_infix
  | cons x xs ih =>
    rw [strstrFrom, if_neg, ih]
    · exact fun hx => h (hx.trans (List.infix_cons (List.infix_refl xs)))
    · intro hp
      exact h (List.IsPrefix.isInfix (List.isPrefixOf_iff_prefix.mp hp))

theorem takeWhile_prefix_take (A B : List Nat) :
    (A ++ 0 :: B).takeWhile (fun b => b ≠ 0) <+: A := by
  induction A with
  | nil => simp
  | cons a A ih =>
    by_cases ha : a = 0
    · simp [List.takeWhile_cons, ha]
    · simp only [List.cons_append, List.takeWhile_cons, ha, ne_eq, not_false_eq_true,
        decide_True, if_true]
      exact (List.prefix_cons_inj a).mpr ih

theorem render_split (render : List Nat) (rsize : Nat) (ht : render[rsize]? = some 0) :
    ∃ B, render = render.take rsize ++ 0 :: B := by
  have hlt : rsize < render.length := by
    by_contra hge
    rw [List.getElem?_eq_none (by omega)] at ht
    exact absurd ht (by simp)
  refine ⟨render.drop (rsize + 1), ?_⟩
  have h0 : render[rsize] = 0 := by
    rw [List.getElem?_eq_getElem hlt] at ht
    exact Option.some.inj ht
  rw [← h0, ← List.drop_eq_getElem_cons hlt]
  exact (List.take_append_drop _ _).symm

/-- The match test of `editorFindCallback` fails on a row whose rendered text
does not contain the query. -/
theorem strstr_none (row : erow) (query : List Nat) (ht : row.render[row.rsize]? = some 0)
    (hq : 0 ∉ query) (h : ¬ query <:+: row.rendered) : strstr row.render query = some none := by
  obtain ⟨B, hB⟩ := render_split row.render row.rsize ht
  have hqq : query.takeWhile (fun b => b ≠ 0) = query := by
    rw [List.takeWhile_eq_self_iff]
    intro x hx
    have : x ≠ 0 := fun e => hq (e ▸ hx)
    simpa using this
  have hpre := takeWhile_prefix_take (row.render.take row.rsize) B
  rw [← hB] at hpre
  unfold strstr cstr
  rw [if_pos (by rw [hB]; simp), hqq]
  simp only [Option.map_some']
  rw [strstrFrom_none]
  exact fun hi => h (hi.trans hpre.isInfix)

theorem wrap_eq_emod (n c d : Int) (hn : 0 < n) (hc : c < n)
    (hd : (d = 1 ∧ -1 ≤ c) ∨ (d = -1 ∧ 0 ≤ c)) :
    (if c + d = -1 then n - 1 else if c + d = n then 0 else c + d) = (c + d) % n := by
  rcases hd with ⟨rfl, h⟩ | ⟨rfl, h⟩
  · rw [if_neg (by omega)]
    by_cases h2 : c + 1 = n
    · rw [if_pos h2, h2, Int.emod_self]
    · rw [if_neg h2, Int.emod_eq_of_lt (by omega) (by omega)]
  · by_cases h2 : c + -1 = -1
    · rw [if_pos h2, h2, ← Int.add_emod_self, Int.emod_eq_of_lt (by omega) (by omega)]
      ring
    · rw [if_neg h2, if_neg (by omega), Int.emod_eq_of_lt (by omega) (by omega)]

theorem rowAt_mem (E : editorConfig) (i : Int) (h0 : 0 ≤ i) (h1 : i < E.numrows) :
    ∃ row, E.rowAt i = some row ∧ row ∈ E.row := by
  have hlt : i.toNat < E.row.length := by
    simp only [editorConfig.numrows] at h1; omega
  refine ⟨E.row[i.toNat], ?_, List.getElem_mem hlt⟩
  unfold editorConfig.rowAt
  rw [if_neg (by omega), List.getElem?_eq_getElem hlt]

/-- The scan of `editorFindCallback` when the match test fails on every row:
it probes the rows `(c + d) % n`, `(c + 2 d) % n`, ... and changes nothing. -/
theorem editorFindCallbackLoop_no_match (query : List Nat) (d : Int) (E : editorConfig)
    (hrows : ∀ row ∈ E.row, strstr row.render query = some none) (k : Nat) (c lm : Int)
    (probes : List Int) (hk : k ≤ E.row.length) (hc : c < E.numrows)
    (hd : (d = 1 ∧ -1 ≤ c) ∨ (d = -1 ∧ 0 ≤ c)) :
    editorFindCallbackLoop query d k c lm E probes
      = some (lm, E, probes ++ (List.range k).map
          (fun j : Nat => (c + d * ((j : Int) + 1)) % E.numrows)) := by
  induction k generalizing c probes with
  | zero => simp [editorFindCallbackLoop]
  | succ k ih =>
    have hn : 0 < E.numrows := by
      simp only [editorConfig.numrows]; omega
    have hw := wrap_eq_emod E.numrows c d hn hc hd
    have hlo : 0 ≤ (c + d) % E.numrows := Int.emod_nonneg _ (by omega)
    have hhi : (c + d) % E.numrows < E.numrows := Int.emod_lt_of_pos _ hn
    obtain ⟨row, hrow, hmem⟩ := rowAt_mem E _ hlo hhi
    have hd2 : d = 1 ∨ d = -1 := by
      rcases hd with ⟨h, -⟩ | ⟨h, -⟩
      · exact Or.inl h
      · exact Or.inr h
    have hl : (List.range (k + 1)).map (fun j : Nat => (c + d * ((j : Int) + 1)) % E.numrows)
        = (c + d) % E.numrows :: (List.range k).map
            (fun j : Nat => ((c + d) % E.numrows + d * ((j : Int) + 1)) % E.numrows) := by
      rw [List.range_succ_eq_map, List.map_cons, List.map_map]
      congr 1
      · simp
      · apply List.map_congr_left
        intro j _
        simp only [Function.comp, Nat.succ_eq_add_one, Int.emod_add_emod]
        congr 1
        push_cast; ring
    rw [editorFindCallbackLoop]
    simp only [hw, hrow, Option.some_bind, hrows row hmem]
    rw [ih ((c + d) % E.numrows) _ (by omega) hhi (by
      rcases hd2 with h | h
      · exact Or.inl ⟨h, by omega⟩
      · exact Or.inr ⟨h, hlo⟩), hl]
    simp

theorem probes_count (n : Nat) (m d : Int) (hd : d = 1 ∨ d = -1) (i : Int) (h0 : 0 ≤ i)
    (h1 : i < n) :
    ((List.range n).map (fun j : Nat => (m + d * ((j : Int) + 1)) % (n : Int))).count i = 1 := by
  have hn : (0 : Int) < n := by omega
  have hdd : d * d = 1 := by rcases hd with rfl | rfl <;> rfl
  apply List.count_eq_one_of_mem
  · apply List.Nodup.map_on _ (List.nodup_range n)
    intro x hx y hy hxy
    rw [List.mem_range] at hx hy
    rw [Int.emod_eq_emod_iff_emod_sub_eq_zero] at hxy
    have hdvd : (n : Int) ∣ d * ((x : Int) - y) := by
      have := Int.dvd_of_emod_eq_zero hxy
      have he : m + d * ((x : Int) + 1) - (m + d * ((y : Int) + 1)) = d * ((x : Int) - y) := by
        ring
      rwa [he] at this
    have hz : d * ((x : Int) - y) = 0 := by
      apply Int.eq_zero_of_abs_lt_dvd hdvd
      rcases hd with rfl | rfl
      · rw [one_mul, abs_lt]; constructor <;> omega
      · rw [abs_lt]; constructor <;> omega
    rcases hd with rfl | rfl <;> omega
  · rw [List.mem_map]
    have hlo : 0 ≤ (d * (i - m) - 1) % (n : Int) := Int.emod_nonneg _ (by omega)
    have hhi : (d * (i - m) - 1) % (n : Int) < n := Int.emod_lt_of_pos _ hn
    refine ⟨((d * (i - m) - 1) % (n : Int)).toNat, ?_, ?_⟩
    · rw [List.mem_range]; omega
    · rw [Int.toNat_of_nonneg hlo]
      have h2 : (m + d * ((d * (i - m) - 1) % (n : Int) + 1)) % (n : Int)
          = (m + d * ((d * (i - m) - 1) + 1)) % (n : Int) :=
        (((Int.mod_modEq (d * (i - m) - 1) n).add_right 1).mul_left d).add_left m
      rw [h2, show m + d * (d * (i - m) - 1 + 1) = m + d * d * (i - m) by ring, hdd,
        one_mul, show m + (i - m) = i by ring, Int.emod_eq_of_lt h0 h1]

theorem editorFindCallbackKey_inv (S : findState) (key : Int) (n : Int)
    (hS : -1 ≤ S.last_match ∧ S.last_match < n) (hn : 0 ≤ n) :
    ((editorFindCallbackKey S key).direction = 1 ∧ -1 ≤ (editorFindCallbackKey S key).last_match
      ∨ (editorFindCallbackKey S key).direction = -1 ∧
          0 ≤ (editorFindCallbackKey S key).last_match) ∧
    (editorFindCallbackKey S key).last_match < n := by
  unfold editorFindCallbackKey
  simp only
  split_ifs <;> simp_all <;> omega

/-- C9: for every document with `numrows` lines whose render buffers are
NUL-terminated, every query (a text without a NUL byte) that occurs in no
line's rendered text, and every search state with `-1 <= last_match < numrows`,
one call of `editorFindCallback` with a key other than Enter and ESC returns
after probing exactly `numrows` rows, every row index in `[0, numrows)` exactly
once, and leaves the editor state, cursor and `rowoff` included, unchanged. -/
theorem editorFindCallback_no_match (S : findState) (E : editorConfig) (query : List Nat)
    (key : Int) (hkey : key ≠ 13 ∧ key ≠ 27)
    (hS : -1 ≤ S.last_match ∧ S.last_match < E.numrows) (hq : 0 ∉ query)
    (hrows : ∀ row ∈ E.row, row.render[row.rsize]? = some 0 ∧ ¬ query <:+: row.rendered) :
    ∃ S2 probes, editorFindCallbackProbes S E query key = some (S2, E, probes) ∧
      editorFindCallback S E query key = some (S2, E) ∧
      probes.length = E.row.length ∧
      ∀ i : Int, 0 ≤ i → i < E.numrows → probes.count i = 1 := by
  obtain ⟨hd, hlt⟩ := editorFindCallbackKey_inv S key E.numrows hS
    (by simp [editorConfig.numrows])
  have hloop := editorFindCallbackLoop_no_match query (editorFindCallbackKey S key).direction E
    (fun row hr => strstr_none row query (hrows row hr).1 hq (hrows row hr).2)
    E.row.length (editorFindCallbackKey S key).last_match (editorFindCallbackKey S key).last_match
    [] (le_refl _) hlt hd
  have hP : editorFindCallbackProbes S E query key = some
      ({ editorFindCallbackKey S key with
          last_match := (editorFindCallbackKey S key).last_match }, E,
        (List.range E.row.length).map (fun j : Nat =>
          ((editorFindCallbackKey S key).last_match
            + (editorFindCallbackKey S key).direction * ((j : Int) + 1)) % E.numrows)) := by
    unfold editorFindCallbackProbes
    rw [if_neg (by omega)]
    simp only
    rw [hloop]
    rfl
  refine ⟨_, _, hP, ?_, ?_, ?_⟩
  · unfold editorFindCallback
    rw [hP]; rfl
  · simp
  · intro i h0 h1
    exact probes_count E.row.length _ _ (by
      rcases hd with ⟨h, -⟩ | ⟨h, -⟩
      · exact Or.inl h
      · exact Or.inr h) i h0 h1

/-- C9 at the document `["abc", "a\tb"]`, the query `"x"`, arrow-up after a
match on line 0. -/
theorem editorFindCallback_no_match_witness :
    (ARROW_UP ≠ 13 ∧ ARROW_UP ≠ 27) ∧
    ((-1 : Int) ≤ 0 ∧ (0 : Int) <
      ((initEditor 24 80).withRows
        [textRow [97, 98, 99], ⟨3, 9, [97, 9, 98, 0],
          [97, 32, 32, 32, 32, 32, 32, 32, 98, 0, 170]⟩]).numrows) ∧
    (0 ∉ ([120] : List Nat)) ∧
    (∀ row ∈ ((initEditor 24 80).withRows
        [textRow [97, 98, 99], ⟨3, 9, [97, 9, 98, 0],
          [97, 32, 32, 32, 32, 32, 32, 32, 98, 0, 170]⟩]).row,
      row.render[row.rsize]? = some 0 ∧ ¬ ([120] : List Nat) <:+: row.rendered) ∧
    ∃ S2 probes, editorFindCallbackProbes ⟨0, 1⟩ ((initEditor 24 80).withRows
        [textRow [97, 98, 99], ⟨3, 9, [97, 9, 98, 0],
          [97, 32, 32, 32, 32, 32, 32, 32, 98, 0, 170]⟩]) [120] ARROW_UP
        = some (S2, (initEditor 24 80).withRows
          [textRow [97, 98, 99], ⟨3, 9, [97, 9, 98, 0],
            [97, 32, 32, 32, 32, 32, 32, 32, 98, 0, 170]⟩], probes) ∧
      editorFindCallback ⟨0, 1⟩ ((initEditor 24 80).withRows
        [textRow [97, 98, 99], ⟨3, 9, [97, 9, 98, 0],
          [97, 32, 32, 32, 32, 32, 32, 32, 98, 0, 170]⟩]) [120] ARROW_UP
        = some (S2, (initEditor 24 80).withRows
          [textRow [97, 98, 99], ⟨3, 9, [97, 9, 98, 0],
            [97, 32, 32, 32, 32, 32, 32, 32, 98, 0, 170]⟩]) ∧
      probes.length = ((initEditor 24 80).withRows
        [textRow [97, 98, 99], ⟨3, 9, [97, 9, 98, 0],
          [97, 32, 32, 32, 32, 32, 32, 32, 98, 0, 170]⟩]).row.length ∧
      ∀ i : Int, 0 ≤ i → i < ((initEditor 24 80).withRows
        [textRow [97, 98, 99], ⟨3, 9, [97, 9, 98, 0],
          [97, 32, 32, 32, 32, 32, 32, 32, 98, 0, 170]⟩]).numrows → probes.count i = 1 :=
  ⟨by decide, by decide, by decide, by decide,
    editorFindCallback_no_match ⟨0, 1⟩ ((initEditor 24 80).withRows
        [textRow [97, 98, 99], ⟨3, 9, [97, 9, 98, 0],
          [97, 32, 32, 32, 32, 32, 32, 32, 98, 0, 170]⟩]) [120] ARROW_UP
      (by decide) (by decide) (by decide) (by decide)⟩

/-! ### Cancelling a search -/

/-- C10, on the document `["abc", "xyz"]` with the cursor at `(0, 0)` and no
scrolling: after the keys `x`, ESC the search is cancelled, and `editorFind`
leaves the cursor on line 1 with `rowoff = 1`, where the search had moved it;
after the keys `x`, Enter the search is confirmed, and `editorFind` puts the
saved values `(0, 0, 0, 0)` back. -/
theorem editorFind_cancel_keeps_match :
    (((initEditor 24 80).withRows [textRow [97, 98, 99], textRow [120, 121, 122]]).cx,
      ((initEditor 24 80).withRows [textRow [97, 98, 99], textRow [120, 121, 122]]).cy,
      ((initEditor 24 80).withRows [textRow [97, 98, 99], textRow [120, 121, 122]]).coloff,
      ((initEditor 24 80).withRows [textRow [97, 98, 99], textRow [120, 121, 122]]).rowoff)
      = (0, 0, 0, 0) ∧
    (editorFind ⟨-1, 1⟩
        ((initEditor 24 80).withRows [textRow [97, 98, 99], textRow [120, 121, 122]])
        [120, 27]).map (fun r => (r.2.1.cx, r.2.1.cy, r.2.1.coloff, r.2.1.rowoff))
      = some (0, 1, 0, 1) ∧
    (editorFind ⟨-1, 1⟩
        ((initEditor 24 80).withRows [textRow [97, 98, 99], textRow [120, 121, 122]])
        [120, 13]).map (fun r => (r.2.1.cx, r.2.1.cy, r.2.1.coloff, r.2.1.rowoff))
      = some (0, 0, 0, 0) := by
  decide

/-! ### Cursor invariant and scrolling -/

theorem rowAt_some (E : editorConfig) (i : Int) (row : erow) (h : E.rowAt i = some row) :
    0 ≤ i ∧ i < E.numrows ∧ row ∈ E.row := by
  unfold editorConfig.rowAt at h
  by_cases hi : i < 0
  · rw [if_pos hi] at h; exact absurd h (by simp)
  · rw [if_neg hi] at h
    have hlt : i.toNat < E.row.length := by
      by_contra hge
      rw [List.getElem?_eq_none (by omega)] at h
      exact absurd h (by simp)
    refine ⟨by omega, by simp only [editorConfig.numrows]; omega, ?_⟩
    rw [List.getElem?_eq_getElem hlt] at h
    exact Option.some.inj h ▸ List.getElem_mem hlt

theorem row_split (E : editorConfig) (i : Int) (row : erow) (h : E.rowAt i = some row) :
    ∃ pre post, E.row = pre ++ row :: post ∧ (pre.length : Int) = i := by
  obtain ⟨h0, h1, -⟩ := rowAt_some E i row h
  have hlt : i.toNat < E.row.length := by
    simp only [editorConfig.numrows] at h1; omega
  unfold editorConfig.rowAt at h
  rw [if_neg (by omega), List.getElem?_eq_getElem hlt] at h
  refine ⟨E.row.take i.toNat, E.row.drop (i.toNat + 1), ?_, ?_⟩
  · rw [← Option.some.inj h, ← List.drop_eq_getElem_cons hlt, List.take_append_drop]
  · simp only [List.length_take]; omega

theorem cursorInv_of_row (E : editorConfig) (pre post : List erow) (row : erow)
    (hrow : E.row = pre ++ row :: post) (hcy : E.cy = pre.length) (h0 : 0 ≤ E.cx)
    (h1 : E.cx ≤ row.size) : cursorInv E := by
  refine ⟨by omega, ?_, ?_, ?_⟩
  · simp only [editorConfig.numrows, hrow, List.length_append, List.length_cons]; omega
  · intro r hr
    rw [rowAt_append E pre post row _ hrow hcy] at hr
    obtain rfl := Option.some.inj hr
    exact ⟨h0, h1⟩
  · intro h
    simp only [editorConfig.numrows, hrow, List.length_append, List.length_cons] at h
    omega

theorem cursorInv_of_end (E : editorConfig) (hcy : E.cy = E.numrows) (hcx : E.cx = 0) :
    cursorInv E := by
  refine ⟨by rw [hcy]; simp [editorConfig.numrows], by omega, ?_, fun _ => hcx⟩
  intro r hr
  have := (rowAt_some E E.cy r hr).2.1
  omega

theorem cursorInv_cases (E : editorConfig) (h : cursorInv E) :
    (E.cy = E.numrows ∧ E.cx = 0 ∧ E.rowAt E.cy = none) ∨
    ∃ pre post row, E.row = pre ++ row :: post ∧ E.cy = pre.length ∧ 0 ≤ E.cx ∧
      E.cx ≤ row.size ∧ E.rowAt E.cy = some row := by
  obtain ⟨h0, h1, hcx, hend⟩ := h
  by_cases hlt : E.cy < E.numrows
  · obtain ⟨row, hrow, -⟩ := rowAt_mem E E.cy h0 hlt
    obtain ⟨pre, post, hsplit, hlen⟩ := row_split E E.cy row hrow
    exact Or.inr ⟨pre, post, row, hsplit, hlen.symm, (hcx row hrow).1, (hcx row hrow).2, hrow⟩
  · have he : E.cy = E.numrows := by omega
    refine Or.inl ⟨he, hend he, ?_⟩
    cases hr : E.rowAt E.cy with
    | none => rfl
    | some r => exact absurd (rowAt_some E E.cy r hr).2.1 hlt

theorem editorRowCxToRx_some (row : erow) (cx : Int) (h1 : cx ≤ row.size)
    (hal : row.size ≤ row.chars.length) :
    editorRowCxToRx row cx = some ((row.chars.take cx.toNat).foldl rxStep 0) := by
  unfold editorRowCxToRx
  rw [editorRowCxToRxLoop_eq row.chars cx.toNat 0 0 (by omega)]
  simp

/-- The scroll offsets `editorScroll` computes from the cursor `(rx, cy)`. -/
theorem scroll_bounds (E : editorConfig) (rx : Int) (hr : 1 ≤ E.screenrows)
    (hc : 1 ≤ E.screencols) :
    ∃ E2, (let E := { E with rx := rx }
      let E := if E.cy < E.rowoff then { E with rowoff := E.cy } else E
      let E := if E.cy ≥ E.rowoff + E.screenrows then
        { E with rowoff := E.cy - E.screenrows + 1 } else E
      let E := if E.rx < E.coloff then { E with coloff := E.rx } else E
      let E := if E.rx ≥ E.coloff + E.screencols then
        { E with coloff := E.rx - E.screencols + 1 } else E
      E) = E2 ∧ E2.cx = E.cx ∧ E2.cy = E.cy ∧ E2.row = E.row ∧ E2.dirty = E.dirty ∧
      E2.screenrows = E.screenrows ∧ E2.screencols = E.screencols ∧ E2.rx = rx ∧
      E2.rowoff ≤ E2.cy ∧ E2.cy < E2.rowoff + E2.screenrows ∧
      E2.coloff ≤ E2.rx ∧ E2.rx < E2.coloff + E2.screencols := by
  refine ⟨_, rfl, ?_⟩
  simp only
  split_ifs <;> refine ⟨rfl, rfl, rfl, rfl, rfl, rfl, rfl, ?_, ?_, ?_, ?_⟩ <;>
    (try simp only [] at *) <;> omega

theorem editorScroll_spec (E : editorConfig) (hinv : cursorInv E) (hal : allocInv E)
    (hr : 1 ≤ E.screenrows) (hc : 1 ≤ E.screencols) :
    ∃ E2, editorScroll E = some E2 ∧ E2.cx = E.cx ∧ E2.cy = E.cy ∧ E2.row = E.row ∧
      E2.dirty = E.dirty ∧ E2.screenrows = E.screenrows ∧ E2.screencols = E.screencols ∧
      (E.cy = E.numrows → E2.rx = 0) ∧
      (∀ row, E.rowAt E.cy = some row →
        ∃ rx : Nat, editorRowCxToRx row E.cx = some rx ∧ E2.rx = rx) ∧
      E2.rowoff ≤ E2.cy ∧ E2.cy < E2.rowoff + E2.screenrows ∧
      E2.coloff ≤ E2.rx ∧ E2.rx < E2.coloff + E2.screencols := by
  obtain ⟨h0, h1, hcx, hend⟩ := hinv
  unfold editorScroll
  by_cases hlt : E.cy < E.numrows
  · obtain ⟨row, hrow, hmem⟩ := rowAt_mem E E.cy h0 hlt
    have hrx := editorRowCxToRx_some row E.cx (hcx row hrow).2 (le_of_lt (hal row hmem))
    rw [if_pos hlt, hrow, Option.some_bind, hrx]
    obtain ⟨E2, hE2, e1, e2, e3, e4, e5, e6, e7, b1, b2, b3, b4⟩ :=
      scroll_bounds E ((row.chars.take E.cx.toNat).foldl rxStep 0 : Nat) hr hc
    refine ⟨E2, by rw [← hE2]; rfl, e1, e2, e3, e4, e5, e6, fun h => absurd h (by omega), ?_,
      b1, b2, b3, b4⟩
    intro r hr2
    obtain rfl : row = r := Option.some.inj hr2
    exact ⟨_, hrx, e7⟩
  · obtain ⟨E2, hE2, e1, e2, e3, e4, e5, e6, e7, b1, b2, b3, b4⟩ := scroll_bounds E 0 hr hc
    rw [if_neg hlt]
    refine ⟨E2, by rw [← hE2]; rfl, e1, e2, e3, e4, e5, e6, fun _ => e7, ?_, b1, b2, b3, b4⟩
    intro r hr2
    exact absurd (rowAt_some E E.cy r hr2).2.1 hlt

/-- C12: for every editor state satisfying the cursor invariant (rows
allocated) with `screenrows >= 1` and `screencols >= 1`, whatever `rowoff` and
`coloff` were before, `editorScroll` returns a state with the same cursor and
document in which `rx` is `editorRowCxToRx` of line `cy` at `cx` (0 when
`cy = numrows`), `rowoff <= cy < rowoff + screenrows` and
`coloff <= rx < coloff + screencols`; the cursor position sent to the
terminal lies in `[1, screenrows] x [1, screencols]`. -/
theorem editorScroll_cursor_visible (E : editorConfig) (hinv : cursorInv E) (hal : allocInv E)
    (hr : 1 ≤ E.screenrows) (hc : 1 ≤ E.screencols) :
    ∃ E2, editorScroll E = some E2 ∧ E2.cx = E.cx ∧ E2.cy = E.cy ∧ E2.row = E.row ∧
      (E.cy = E.numrows → E2.rx = 0) ∧
      (∀ row, E.rowAt E.cy = some row →
        ∃ rx : Nat, editorRowCxToRx row E.cx = some rx ∧ E2.rx = rx) ∧
      E2.rowoff ≤ E2.cy ∧ E2.cy < E2.rowoff + E.screenrows ∧
      E2.coloff ≤ E2.rx ∧ E2.rx < E2.coloff + E.screencols ∧
      1 ≤ (cursorPos E2).1 ∧ (cursorPos E2).1 ≤ E.screenrows ∧
      1 ≤ (cursorPos E2).2 ∧ (cursorPos E2).2 ≤ E.screencols := by
  obtain ⟨E2, hE, e1, e2, e3, -, e5, e6, z, rx, b1, b2, b3, b4⟩ :=
    editorScroll_spec E hinv hal hr hc
  rw [e5] at b2
  rw [e6] at b4
  refine ⟨E2, hE, e1, e2, e3, z, rx, b1, b2, b3, b4, ?_, ?_, ?_, ?_⟩ <;>
    simp only [cursorPos] <;> omega

/-- C12 on the document `["a\tb", "xyz"]` with the cursor behind the tab, on a
3 x 4 screen, after a search match has set `rowoff = numrows`. -/
theorem editorScroll_cursor_visible_witness :
    cursorInv sampleScroll ∧ allocInv sampleScroll ∧
    1 ≤ sampleScroll.screenrows ∧ 1 ≤ sampleScroll.screencols ∧
    ∃ E2, editorScroll sampleScroll = some E2 ∧ E2.cx = sampleScroll.cx ∧
      E2.cy = sampleScroll.cy ∧ E2.row = sampleScroll.row ∧
      (sampleScroll.cy = sampleScroll.numrows → E2.rx = 0) ∧
      (∀ row, sampleScroll.rowAt sampleScroll.cy = some row →
        ∃ rx : Nat, editorRowCxToRx row sampleScroll.cx = some rx ∧ E2.rx = rx) ∧
      E2.rowoff ≤ E2.cy ∧ E2.cy < E2.rowoff + sampleScroll.screenrows ∧
      E2.coloff ≤ E2.rx ∧ E2.rx < E2.coloff + sampleScroll.screencols ∧
      1 ≤ (cursorPos E2).1 ∧ (cursorPos E2).1 ≤ sampleScroll.screenrows ∧
      1 ≤ (cursorPos E2).2 ∧ (cursorPos E2).2 ≤ sampleScroll.screencols :=
  ⟨by decide, by decide, by decide, by decide,
    editorScroll_cursor_visible sampleScroll (by decide) (by decide) (by decide) (by decide)⟩

/-! ### Edit operations and the cursor invariant -/

theorem allocInv_replace (E E2 : editorConfig) (pre post : List erow) (row : erow)
    (news : List erow) (hal : allocInv E) (hrow : E.row = pre ++ row :: post)
    (hrow2 : E2.row = pre ++ news ++ post) (hnews : ∀ r ∈ news, r.alloc) : allocInv E2 := by
  intro r hr
  rw [hrow2] at hr
  simp only [List.mem_append] at hr
  rcases hr with (h | h) | h
  · exact hal r (by rw [hrow]; simp [h])
  · exact hnews r h
  · exact hal r (by rw [hrow]; simp [h])

/-- A character typed on an existing line. -/
theorem editorInsertChar_at (junk : Nat → Nat) (E : editorConfig) (pre post : List erow)
    (row : erow) (c : Int) (hrow : E.row = pre ++ row :: post) (hcy : E.cy = pre.length)
    (h0 : 0 ≤ E.cx) (h1 : E.cx ≤ row.size) (hal : row.alloc) :
    ∃ E2 row2, editorInsertChar junk E c = some E2 ∧ E2.row = pre ++ row2 :: post ∧
      E2.cx = E.cx + 1 ∧ E2.cy = E.cy ∧ E2.dirty = E.dirty + 1 ∧
      row2.size = row.size + 1 ∧ row2.alloc ∧
      row2.raw = row.raw.take E.cx.toNat ++ toChar c :: row.raw.drop E.cx.toNat := by
  obtain ⟨row2, h2, hs, hraw, hal2, -⟩ := editorRowInsertChar_spec junk E E.cy row E.cx (toChar c)
    (rowAt_append E pre post row _ hrow hcy) hal h0 h1
  have hne : E.cy ≠ E.numrows := by
    simp only [editorConfig.numrows, hrow, List.length_append, List.length_cons]; omega
  have hE : editorInsertChar junk E c
      = some { (E.setRow E.cy row2).dirtyInc with cx := E.cx + 1 } := by
    unfold editorInsertChar
    rw [if_neg hne, Option.some_bind, h2]
    rfl
  exact ⟨_, row2, hE, setRow_append E pre post row row2 E.cy hrow hcy, rfl, rfl, rfl, hs, hal2,
    hraw⟩

/-- A character typed one past the last line: a line is appended for it. -/
theorem editorInsertChar_new (junk : Nat → Nat) (E : editorConfig) (c : Int)
    (hcy : E.cy = E.numrows) (hcx : E.cx = 0) :
    ∃ E2 row2, editorInsertChar junk E c = some E2 ∧ E2.row = E.row ++ [row2] ∧
      E2.cx = 1 ∧ E2.cy = E.cy ∧ E2.dirty = E.dirty + 2 ∧ row2.size = 1 ∧ row2.alloc ∧
      row2.raw = [toChar c] := by
  obtain ⟨n, hn, hns, -, hnraw, hnal, -⟩ := editorInsertRow_spec junk E E.numrows [0] 0
    (by simp [editorConfig.numrows]) (le_refl _) (by simp)
  rw [take_numrows] at hn
  obtain ⟨E2, row2, hE, hr, hx, hy, hd, hs, hal2, hraw⟩ := editorInsertChar_at junk
    (E.withRows (E.row ++ [n])).dirtyInc E.row [] n c rfl hcy
    (by show 0 ≤ E.cx; omega) (by show E.cx ≤ _; omega) hnal
  have hne : (E.withRows (E.row ++ [n])).dirtyInc.cy
      ≠ (E.withRows (E.row ++ [n])).dirtyInc.numrows := by
    show E.cy ≠ ((E.row ++ [n]).length : Int)
    rw [hcy]; simp [editorConfig.numrows]
  refine ⟨E2, row2, ?_, hr, ?_, hy, ?_, ?_, hal2, ?_⟩
  · unfold editorInsertChar at hE ⊢
    rw [if_neg hne, Option.some_bind] at hE
    rw [if_pos hcy, hn, Option.some_bind]
    exact hE
  · rw [hx]; show E.cx + 1 = 1; omega
  · rw [hd]; show E.dirty + 1 + 1 = _; omega
  · omega
  · rw [hraw, hnraw]
    have : (E.withRows (E.row ++ [n])).dirtyInc.cx = 0 := hcx
    rw [this]; simp

/-- Backspace behind a character of the line. -/
theorem editorDelChar_left (junk : Nat → Nat) (E : editorConfig) (pre post : List erow)
    (row : erow) (hrow : E.row = pre ++ row :: post) (hcy : E.cy = pre.length)
    (h0 : 0 < E.cx) (h1 : E.cx ≤ row.size) (hal : row.alloc) :
    ∃ E2 row2, editorDelChar junk E = some E2 ∧ E2.row = pre ++ row2 :: post ∧
      E2.cx = E.cx - 1 ∧ E2.cy = E.cy ∧ E2.dirty = E.dirty + 1 ∧
      row2.size = row.size - 1 ∧ row2.alloc ∧
      row2.raw = row.raw.take (E.cx - 1).toNat ++ row.raw.drop ((E.cx - 1).toNat + 1) := by
  obtain ⟨row2, h2, hs, hraw, hal2, -, -⟩ := editorRowDelChar_spec junk E E.cy row (E.cx - 1)
    (rowAt_append E pre post row _ hrow hcy) hal (by omega) (by omega)
  have hne : E.cy ≠ E.numrows := by
    simp only [editorConfig.numrows, hrow, List.length_append, List.length_cons]; omega
  have hE : editorDelChar junk E
      = some { (E.setRow E.cy row2).dirtyInc with cx := E.cx - 1 } := by
    unfold editorDelChar
    rw [if_neg hne, if_neg (by omega), if_pos (by omega), h2]
    rfl
  exact ⟨_, row2, hE, setRow_append E pre post row row2 E.cy hrow hcy, rfl, rfl, rfl, hs, hal2,
    hraw⟩

theorem rowPtr_eq (E : editorConfig) (h0 : 0 ≤ E.cy) (h1 : E.cy ≤ E.numrows) :
    E.rowPtr = some (E.rowAt E.cy) := by
  unfold editorConfig.rowPtr
  by_cases h : E.cy ≥ E.numrows
  · rw [if_pos h]
    cases hr : E.rowAt E.cy with
    | none => rfl
    | some r => exact absurd (rowAt_some E E.cy r hr).2.1 (by omega)
  · rw [if_neg h]
    obtain ⟨row, hrow, -⟩ := rowAt_mem E E.cy h0 (by omega)
    rw [hrow]; rfl

theorem editorMoveCursorSwitch_bounds (E : editorConfig) (key : Int) (hinv : cursorInv E) :
    ∃ E1, editorMoveCursorSwitch E (E.rowAt E.cy) key = some E1 ∧ E1.row = E.row ∧
      E1.dirty = E.dirty ∧ 0 ≤ E1.cy ∧ E1.cy ≤ E.numrows ∧ 0 ≤ E1.cx := by
  obtain ⟨h0, h1, hcx, hend⟩ := hinv
  have hx0 : 0 ≤ E.cx := by
    by_cases hlt : E.cy < E.numrows
    · obtain ⟨row, hrow, -⟩ := rowAt_mem E E.cy h0 hlt
      exact (hcx row hrow).1
    · rw [hend (by omega)]
  unfold editorMoveCursorSwitch
  by_cases hL : key = ARROW_LEFT
  · rw [if_pos hL]
    by_cases hc : E.cx ≠ 0
    · rw [if_pos hc]
      exact ⟨_, rfl, rfl, rfl, h0, h1, by show 0 ≤ E.cx - 1; omega⟩
    · rw [if_neg hc]
      by_cases hy : E.cy > 0
      · obtain ⟨prev, hprev, -⟩ := rowAt_mem E (E.cy - 1) (by omega) (by omega)
        rw [if_pos hy, hprev]
        exact ⟨_, rfl, rfl, rfl, by show 0 ≤ E.cy - 1; omega, by show E.cy - 1 ≤ _; omega,
          by show (0 : Int) ≤ (prev.size : Int); omega⟩
      · rw [if_neg hy]
        exact ⟨_, rfl, rfl, rfl, h0, h1, hx0⟩
  · rw [if_neg hL]
    by_cases hR : key = ARROW_RIGHT
    · rw [if_pos hR]
      cases hr : E.rowAt E.cy with
      | none => exact ⟨_, rfl, rfl, rfl, h0, h1, hx0⟩
      | some r =>
        have hlt := (rowAt_some E E.cy r hr).2.1
        simp only
        split_ifs
        · exact ⟨_, rfl, rfl, rfl, h0, h1, by show 0 ≤ E.cx + 1; omega⟩
        · exact ⟨_, rfl, rfl, rfl, by show 0 ≤ E.cy + 1; omega, by show E.cy + 1 ≤ _; omega,
            le_refl _⟩
        · exact ⟨_, rfl, rfl, rfl, h0, h1, hx0⟩
    · rw [if_neg hR]
      by_cases hU : key = ARROW_UP
      · rw [if_pos hU]
        split_ifs
        · exact ⟨_, rfl, rfl, rfl, by show 0 ≤ E.cy - 1; omega, by show E.cy - 1 ≤ _; omega, hx0⟩
        · exact ⟨_, rfl, rfl, rfl, h0, h1, hx0⟩
      · rw [if_neg hU]
        split_ifs
        · exact ⟨_, rfl, rfl, rfl, by show 0 ≤ E.cy + 1; omega, by show E.cy + 1 ≤ _; omega, hx0⟩
        · exact ⟨_, rfl, rfl, rfl, h0, h1, hx0⟩
        · exact ⟨_, rfl, rfl, rfl, h0, h1, hx0⟩

theorem editorMoveCursor_clamp (E : editorConfig) (h0 : 0 ≤ E.cy) (h1 : E.cy ≤ E.numrows)
    (hx : 0 ≤ E.cx) :
    ∃ E2, (E.rowPtr.map (fun row =>
        let rowlen : Int :=
          match row with
          | some r => r.size
          | none => 0
        if E.cx > rowlen then { E with cx := rowlen } else E)) = some E2 ∧
      cursorInv E2 ∧ E2.row = E.row ∧ E2.dirty = E.dirty := by
  rw [rowPtr_eq E h0 h1]
  cases hr : E.rowAt E.cy with
  | none =>
    have hend : E.cy = E.numrows := by
      by_contra hne
      obtain ⟨row, hrow, -⟩ := rowAt_mem E E.cy h0 (by omega)
      rw [hrow] at hr; exact absurd hr (by simp)
    simp only [Option.map_some']
    split_ifs with hgt
    · exact ⟨_, rfl, cursorInv_of_end _ hend rfl, rfl, rfl⟩
    · exact ⟨_, rfl, cursorInv_of_end _ hend (by omega), rfl, rfl⟩
  | some r =>
    obtain ⟨pre, post, hsplit, hlen⟩ := row_split E E.cy r hr
    simp only [Option.map_some']
    split_ifs with hgt
    · exact ⟨_, rfl, cursorInv_of_row _ pre post r hsplit hlen.symm
        (by show (0 : Int) ≤ (r.size : Int); omega) (le_refl _), rfl, rfl⟩
    · exact ⟨_, rfl, cursorInv_of_row _ pre post r hsplit hlen.symm hx (by omega), rfl, rfl⟩

/-- The cursor invariant is kept by `editorMoveCursor`, whatever the key. -/
theorem editorMoveCursor_inv (E : editorConfig) (key : Int) (hinv : cursorInv E) :
    ∃ E2, editorMoveCursor E key = some E2 ∧ cursorInv E2 ∧ E2.row = E.row ∧
      E2.dirty = E.dirty := by
  obtain ⟨E1, hE1, hr1, hd1, c0, c1, x0⟩ := editorMoveCursorSwitch_bounds E key hinv
  have hn : E1.numrows = E.numrows := by simp only [editorConfig.numrows, hr1]
  obtain ⟨E2, hE2, hinv2, hr2, hd2⟩ := editorMoveCursor_clamp E1 c0 (by omega) x0
  refine ⟨E2, ?_, hinv2, by rw [hr2, hr1], by rw [hd2, hd1]⟩
  unfold editorMoveCursor
  rw [rowPtr_eq E hinv.1 hinv.2.1, Option.some_bind, hE1, Option.some_bind]
  exact hE2

theorem allocInv_of_sub (E E2 : editorConfig) (hal : allocInv E)
    (h : ∀ r ∈ E2.row, r ∈ E.row ∨ r.alloc) : allocInv E2 := by
  intro r hr
  rcases h r hr with h1 | h1
  · exact hal r h1
  · exact h1

theorem rows_split_at (E : editorConfig) (h0 : 0 ≤ E.cy) (h1 : E.cy ≤ E.numrows) :
    ∃ pre post, E.row = pre ++ post ∧ E.cy = pre.length := by
  refine ⟨E.row.take E.cy.toNat, E.row.drop E.cy.toNat, (List.take_append_drop _ _).symm, ?_⟩
  simp only [editorConfig.numrows] at h1
  simp only [List.length_take]; omega

theorem editorInsertChar_total (junk : Nat → Nat) (E : editorConfig) (c : Int)
    (hinv : cursorInv E) (hal : allocInv E) :
    ∃ E2, editorInsertChar junk E c = some E2 ∧ cursorInv E2 ∧ allocInv E2 ∧
      E.dirty < E2.dirty := by
  rcases cursorInv_cases E hinv with ⟨hy, hx, -⟩ | ⟨pre, post, row, hrow, hy, hx0, hx1, -⟩
  · obtain ⟨E2, row2, hE, hr, hx2, hy2, hd, hs, hal2, -⟩ := editorInsertChar_new junk E c hy hx
    refine ⟨E2, hE, ?_, ?_, by omega⟩
    · exact cursorInv_of_row E2 E.row [] row2 hr (by rw [hy2, hy]; rfl) (by omega) (by omega)
    · apply allocInv_of_sub E E2 hal
      intro r hr2
      rw [hr] at hr2
      simp only [List.mem_append, List.mem_singleton] at hr2
      rcases hr2 with h | rfl
      · exact Or.inl h
      · exact Or.inr hal2
  · have hral : row.alloc := hal row (by rw [hrow]; simp)
    obtain ⟨E2, row2, hE, hr, hx2, hy2, hd, hs, hal2, -⟩ :=
      editorInsertChar_at junk E pre post row c hrow hy hx0 hx1 hral
    refine ⟨E2, hE, ?_, ?_, by omega⟩
    · exact cursorInv_of_row E2 pre post row2 hr (by omega) (by omega) (by omega)
    · apply allocInv_of_sub E E2 hal
      intro r hr2
      rw [hr] at hr2
      rw [hrow]
      simp only [List.mem_append, List.mem_cons] at hr2 ⊢
      rcases hr2 with h | rfl | h
      · exact Or.inl (Or.inl h)
      · exact Or.inr hal2
      · exact Or.inl (Or.inr (Or.inr h))

theorem editorDelChar_total (junk : Nat → Nat) (E : editorConfig)
    (hinv : cursorInv E) (hal : allocInv E) :
    ∃ E2, editorDelChar junk E = some E2 ∧ cursorInv E2 ∧ allocInv E2 ∧
      (E2 = E ∨ E.dirty < E2.dirty) ∧
      ((E.cy = E.numrows ∨ (E.cx = 0 ∧ E.cy = 0)) → E2 = E) := by
  by_cases hnoop : E.cy = E.numrows ∨ (E.cx = 0 ∧ E.cy = 0)
  · have hE : editorDelChar junk E = some E := by
      unfold editorDelChar
      rcases hnoop with h | h
      · rw [if_pos h]
      · by_cases h2 : E.cy = E.numrows
        · rw [if_pos h2]
        · rw [if_neg h2, if_pos h]
    exact ⟨E, hE, hinv, hal, Or.inl rfl, fun _ => rfl⟩
  · rcases cursorInv_cases E hinv with ⟨hy, -, -⟩ | ⟨pre, post, row, hrow, hy, hx0, hx1, -⟩
    · exact absurd (Or.inl hy) hnoop
    · have hral : row.alloc := hal row (by rw [hrow]; simp)
      by_cases hx : 0 < E.cx
      · obtain ⟨E2, row2, hE, hr, hx2, hy2, hd, hs, hal2, -⟩ :=
          editorDelChar_left junk E pre post row hrow hy hx hx1 hral
        refine ⟨E2, hE, ?_, ?_, Or.inr (by omega), fun h => absurd h hnoop⟩
        · exact cursorInv_of_row E2 pre post row2 hr (by omega) (by omega) (by omega)
        · apply allocInv_of_sub E E2 hal
          intro r hr2
          rw [hr] at hr2
          rw [hrow]
          simp only [List.mem_append, List.mem_cons] at hr2 ⊢
          rcases hr2 with h | rfl | h
          · exact Or.inl (Or.inl h)
          · exact Or.inr hal2
          · exact Or.inl (Or.inr (Or.inr h))
      · have hx0' : E.cx = 0 := by omega
        have hpos : pre ≠ [] := by
          rintro rfl
          exact hnoop (Or.inr ⟨hx0', by rw [hy]; rfl⟩)
        obtain ⟨pre2, prev, rfl⟩ : ∃ pre2 prev, pre = pre2 ++ [prev] := by
          rcases List.eq_nil_or_concat pre with h | ⟨p, a, h⟩
          · exact absurd h hpos
          · exact ⟨p, a, by rw [h, List.concat_eq_append]⟩
        have hrow2 : E.row = pre2 ++ prev :: row :: post := by
          rw [hrow]; simp
        have hpal : prev.alloc := hal prev (by rw [hrow2]; simp)
        obtain ⟨E2, m, hE, hr, -, hms, hmal, -, hy2, hx2, hd⟩ := editorDelChar_merge junk E pre2
          post prev row hrow2 hx0' (by rw [hy]; simp) (le_of_lt hpal) (le_of_lt hral)
        refine ⟨E2, hE, ?_, ?_, Or.inr (by omega), fun h => absurd h hnoop⟩
        · exact cursorInv_of_row E2 pre2 post m hr hy2 (by omega) (by omega)
        · apply allocInv_of_sub E E2 hal
          intro r hr2
          rw [hr] at hr2
          rw [hrow2]
          simp only [List.mem_append, List.mem_cons] at hr2 ⊢
          rcases hr2 with h | rfl | h
          · exact Or.inl (Or.inl h)
          · exact Or.inr hmal
          · exact Or.inl (Or.inr (Or.inr (Or.inr h)))

/-- Enter with `cx != 0` when the row array has moved: the stores through the
dangling pointer `row` are undefined. -/
theorem editorInsertNewline_stale (junk : Nat → Nat) (E : editorConfig) (hx : E.cx ≠ 0) :
    editorInsertNewline junk true E = none := by
  unfold editorInsertNewline
  rw [if_neg hx]
  cases E.rowAt E.cy with
  | none => rfl
  | some row =>
    simp only [Option.some_bind]
    split_ifs
    · rfl
    · cases editorInsertRow junk E (E.cy + 1) (row.chars.drop E.cx.toNat)
        ((row.size : Int) - E.cx).toNat with
      | none => rfl
      | some E1 => rfl

theorem editorInsertNewline_total (junk : Nat → Nat) (moved : Bool) (E : editorConfig)
    (hinv : cursorInv E) (hal : allocInv E) (hm : E.cx = 0 ∨ moved = false) :
    ∃ E2, editorInsertNewline junk moved E = some E2 ∧ cursorInv E2 ∧ allocInv E2 ∧
      E2.dirty = E.dirty + 2 ∧ E2.numrows = E.numrows + 1 := by
  by_cases hx : E.cx = 0
  · obtain ⟨pre, post, hrow, hy⟩ := rows_split_at E hinv.1 hinv.2.1
    obtain ⟨n, hn, hns, hnraw, hnal, -⟩ := editorInsertNewline_col0 junk moved E pre post hrow hy hx
    refine ⟨_, hn, ?_, ?_, ?_, ?_⟩
    · cases post with
      | nil =>
        apply cursorInv_of_end
        · show E.cy + 1 = (((pre ++ [n]).length : Nat) : Int)
          rw [hy]; simp
        · rfl
      | cons r rest =>
        exact cursorInv_of_row _ (pre ++ [n]) rest r (by show pre ++ n :: r :: rest = _; simp)
          (by show E.cy + 1 = _; rw [hy]; simp) (le_refl _)
          (by show (0 : Int) ≤ (r.size : Int); omega)
    · apply allocInv_of_sub E _ hal
      intro r hr2
      change r ∈ pre ++ n :: post at hr2
      rw [hrow]
      simp only [List.mem_append, List.mem_cons] at hr2 ⊢
      rcases hr2 with h | rfl | h
      · exact Or.inl (Or.inl h)
      · exact Or.inr hnal
      · exact Or.inl (Or.inr h)
    · show E.dirty + 1 + 1 = _; omega
    · show (((pre ++ n :: post).length : Nat) : Int) = _
      simp only [editorConfig.numrows, hrow, List.length_append, List.length_cons]
      push_cast; ring
  · obtain rfl : moved = false := hm.resolve_left hx
    rcases cursorInv_cases E hinv with ⟨-, hx0, -⟩ | ⟨pre, post, row, hrow, hy, hx0, hx1, -⟩
    · exact absurd hx0 hx
    · have hral : row.alloc := hal row (by rw [hrow]; simp)
      obtain ⟨t, n, hn, hts, -, htal, -, hns, -, hnal, -⟩ :=
        editorInsertNewline_split junk E pre post row hrow hy (by omega) hx1 hral
      have hrows : ((E.withRows (pre ++ row :: n :: post)).dirtyInc.setRow E.cy t).row
          = pre ++ t :: n :: post :=
        setRow_append (E.withRows (pre ++ row :: n :: post)).dirtyInc pre (n :: post) row t
          E.cy rfl hy
      refine ⟨_, hn, ?_, ?_, ?_, ?_⟩
      · exact cursorInv_of_row _ (pre ++ [t]) post n (by
            show ((E.withRows (pre ++ row :: n :: post)).dirtyInc.setRow E.cy t).row = _
            rw [hrows]; simp)
          (by show E.cy + 1 = _; rw [hy]; simp) (le_refl _)
          (by show (0 : Int) ≤ (n.size : Int); omega)
      · apply allocInv_of_sub E _ hal
        intro r hr2
        change r ∈ ((E.withRows (pre ++ row :: n :: post)).dirtyInc.setRow E.cy t).row at hr2
        rw [hrows] at hr2
        rw [hrow]
        simp only [List.mem_append, List.mem_cons] at hr2 ⊢
        rcases hr2 with h | rfl | rfl | h
        · exact Or.inl (Or.inl h)
        · exact Or.inr htal
        · exact Or.inr hnal
        · exact Or.inl (Or.inr (Or.inr h))
      · show E.dirty + 1 + 1 = _; omega
      · show ((((E.withRows (pre ++ row :: n :: post)).dirtyInc.setRow E.cy t).row.length : Nat)
            : Int) = _
        rw [hrows]
        simp only [editorConfig.numrows, hrow, List.length_append, List.length_cons]
        push_cast; ring

/-- Whatever the allocator does, a state `editorInsertNewline` returns comes
from the defined behaviour. -/
theorem editorInsertNewline_some (junk : Nat → Nat) (moved : Bool) (E E2 : editorConfig)
    (h : editorInsertNewline junk moved E = some E2) : E.cx = 0 ∨ moved = false := by
  by_cases hx : E.cx = 0
  · exact Or.inl hx
  · cases moved with
    | false => exact Or.inr rfl
    | true => rw [editorInsertNewline_stale junk E hx] at h; exact absurd h (by simp)

/-- The cursor invariant under the edit operations, wherever they have a
defined result: on every state satisfying the cursor invariant (`0 <= cy <= numrows`,
`0 <= cx <= size` of line `cy` when `cy < numrows`, `cx = 0` when
`cy = numrows`) whose rows are allocated, `editorMoveCursor` (for every key,
the four arrows among them), `editorInsertChar` and `editorDelChar` return a
state that satisfies the invariant again, and so does every state that
`editorInsertNewline` returns; `editorInsertNewline` returns one when `cx = 0`
or when the row array stays in place. -/
theorem cursorInv_preserved (junk : Nat → Nat) (moved : Bool) (E : editorConfig) (key c : Int)
    (hinv : cursorInv E) (hal : allocInv E) :
    (∃ E2, editorMoveCursor E key = some E2 ∧ cursorInv E2 ∧ allocInv E2) ∧
    (∃ E2, editorInsertChar junk E c = some E2 ∧ cursorInv E2 ∧ allocInv E2) ∧
    ((E.cx = 0 ∨ moved = false) → ∃ E2, editorInsertNewline junk moved E = some E2) ∧
    (∀ E2, editorInsertNewline junk moved E = some E2 → cursorInv E2 ∧ allocInv E2) ∧
    (∃ E2, editorDelChar junk E = some E2 ∧ cursorInv E2 ∧ allocInv E2) := by
  refine ⟨?_, ?_, ?_, ?_, ?_⟩
  · obtain ⟨E2, hE, hi, hr, -⟩ := editorMoveCursor_inv E key hinv
    exact ⟨E2, hE, hi, fun r h => hal r (hr ▸ h)⟩
  · obtain ⟨E2, hE, hi, ha, -⟩ := editorInsertChar_total junk E c hinv hal
    exact ⟨E2, hE, hi, ha⟩
  · intro hm
    obtain ⟨E2, hE, -⟩ := editorInsertNewline_total junk moved E hinv hal hm
    exact ⟨E2, hE⟩
  · intro E2 h
    obtain ⟨E3, hE, hi, ha, -⟩ := editorInsertNewline_total junk moved E hinv hal
      (editorInsertNewline_some junk moved E E2 h)
    rw [h] at hE
    obtain rfl := Option.some.inj hE
    exact ⟨hi, ha⟩
  · obtain ⟨E2, hE, hi, ha, -⟩ := editorDelChar_total junk E hinv hal
    exact ⟨E2, hE, hi, ha⟩

/-- The cursor invariant on the document `["abc", "de"]` with the cursor at the end of line 0,
for arrow-down and the character `x`. -/
theorem cursorInv_preserved_witness :
    cursorInv sampleEdit ∧ allocInv sampleEdit ∧
    (∃ E2, editorMoveCursor sampleEdit ARROW_DOWN = some E2 ∧ cursorInv E2 ∧ allocInv E2) ∧
    (∃ E2, editorInsertChar (fun _ => 170) sampleEdit 120 = some E2 ∧ cursorInv E2 ∧
      allocInv E2) ∧
    ((sampleEdit.cx = 0 ∨ false = false) →
      ∃ E2, editorInsertNewline (fun _ => 170) false sampleEdit = some E2) ∧
    (∀ E2, editorInsertNewline (fun _ => 170) false sampleEdit = some E2 →
      cursorInv E2 ∧ allocInv E2) ∧
    (∃ E2, editorDelChar (fun _ => 170) sampleEdit = some E2 ∧ cursorInv E2 ∧ allocInv E2) :=
  ⟨by decide, by decide,
    cursorInv_preserved (fun _ => 170) false sampleEdit ARROW_DOWN 120 (by decide) (by decide)⟩

/-- The dirty counter under the edit operations, wherever they have a defined
result: on every state satisfying the cursor invariant whose rows are
allocated, the dirty counter being an unbounded integer: `editorInsertChar`
and `editorDelChar` return a state, and so does `editorInsertNewline` when
`cx = 0` or the row array stays in place; in every state they return the dirty
counter is not smaller than before and is strictly greater when the sequence
of raw line contents has changed; it is unchanged when `editorDelChar` is a
no-op (cursor one past the last line, or at the start of the document). -/
theorem dirty_monotone (junk : Nat → Nat) (moved : Bool) (E : editorConfig) (c : Int)
    (hinv : cursorInv E) (hal : allocInv E) :
    (∃ E2, editorInsertChar junk E c = some E2 ∧ E.dirty ≤ E2.dirty ∧
      (E2.lines ≠ E.lines → E.dirty < E2.dirty)) ∧
    ((E.cx = 0 ∨ moved = false) → ∃ E2, editorInsertNewline junk moved E = some E2) ∧
    (∀ E2, editorInsertNewline junk moved E = some E2 → E.dirty ≤ E2.dirty ∧
      (E2.lines ≠ E.lines → E.dirty < E2.dirty)) ∧
    (∃ E2, editorDelChar junk E = some E2 ∧ E.dirty ≤ E2.dirty ∧
      (E2.lines ≠ E.lines → E.dirty < E2.dirty) ∧
      ((E.cy = E.numrows ∨ (E.cx = 0 ∧ E.cy = 0)) → E2.dirty = E.dirty)) := by
  refine ⟨?_, ?_, ?_, ?_⟩
  · obtain ⟨E2, hE, -, -, hd⟩ := editorInsertChar_total junk E c hinv hal
    exact ⟨E2, hE, le_of_lt hd, fun _ => hd⟩
  · intro hm
    obtain ⟨E2, hE, -⟩ := editorInsertNewline_total junk moved E hinv hal hm
    exact ⟨E2, hE⟩
  · intro E2 h
    obtain ⟨E3, hE, -, -, hd, -⟩ := editorInsertNewline_total junk moved E hinv hal
      (editorInsertNewline_some junk moved E E2 h)
    rw [h] at hE
    obtain rfl := Option.some.inj hE
    exact ⟨by omega, fun _ => by omega⟩
  · obtain ⟨E2, hE, -, -, hd, hn⟩ := editorDelChar_total junk E hinv hal
    refine ⟨E2, hE, ?_, ?_, fun h => by rw [hn h]⟩
    · rcases hd with rfl | h
      · exact le_refl _
      · exact le_of_lt h
    · intro hl
      rcases hd with rfl | h
      · exact absurd rfl hl
      · exact h

/-- The dirty counter on the document `["abc", "de"]` with the cursor at the end of line 0,
typing `x`. -/
theorem dirty_monotone_witness :
    cursorInv sampleEdit ∧ allocInv sampleEdit ∧
    (∃ E2, editorInsertChar (fun _ => 170) sampleEdit 120 = some E2 ∧
      sampleEdit.dirty ≤ E2.dirty ∧
      (E2.lines ≠ sampleEdit.lines → sampleEdit.dirty < E2.dirty)) ∧
    ((sampleEdit.cx = 0 ∨ false = false) →
      ∃ E2, editorInsertNewline (fun _ => 170) false sampleEdit = some E2) ∧
    (∀ E2, editorInsertNewline (fun _ => 170) false sampleEdit = some E2 →
      sampleEdit.dirty ≤ E2.dirty ∧
      (E2.lines ≠ sampleEdit.lines → sampleEdit.dirty < E2.dirty)) ∧
    (∃ E2, editorDelChar (fun _ => 170) sampleEdit = some E2 ∧ sampleEdit.dirty ≤ E2.dirty ∧
      (E2.lines ≠ sampleEdit.lines → sampleEdit.dirty < E2.dirty) ∧
      ((sampleEdit.cy = sampleEdit.numrows ∨ (sampleEdit.cx = 0 ∧ sampleEdit.cy = 0)) →
        E2.dirty = sampleEdit.dirty)) :=
  ⟨by decide, by decide,
    dirty_monotone (fun _ => 170) false sampleEdit 120 (by decide) (by decide)⟩

/-- C15 fails on the document `["abc", "de"]`: `editorInsertRow` at the
indices -1 and 3 returns the state as it was, two lines and `dirty` unchanged,
where the claim has the line inserted at index 0 or 2. -/
theorem editorInsertRow_no_clamp :
    sampleEdit.numrows = 2 ∧
    editorInsertRow (fun _ => 170) sampleEdit (-1) [120, 0] 1 = some sampleEdit ∧
    editorInsertRow (fun _ => 170) sampleEdit 3 [120, 0] 1 = some sampleEdit := by
  decide

/-- C15, amended: for every document with `numrows` lines and every index `at`
outside `[0, numrows]`, `editorInsertRow(at, content)` returns without
inserting, so the document, `numrows` and `dirty` stay as they are; for `at`
inside `[0, numrows]` (and `len` bytes readable at `s`) it inserts the content
as a new line at index `at`, `numrows` grows by one and `dirty` is
incremented. -/
theorem editorInsertRow_guard (junk : Nat → Nat) (E : editorConfig) (at_ : Int) (s : List Nat)
    (len : Nat) (hs : len ≤ s.length) :
    ((at_ < 0 ∨ E.numrows < at_) → editorInsertRow junk E at_ s len = some E) ∧
    ((0 ≤ at_ ∧ at_ ≤ E.numrows) →
      ∃ E2, editorInsertRow junk E at_ s len = some E2 ∧
        E2.lines = E.lines.take at_.toNat ++ s.take len :: E.lines.drop at_.toNat ∧
        E2.numrows = E.numrows + 1 ∧ E2.dirty = E.dirty + 1 ∧
        E2.cx = E.cx ∧ E2.cy = E.cy) := by
  constructor
  · intro h
    unfold editorInsertRow
    rw [if_pos (by omega)]
  · rintro ⟨h0, h1⟩
    obtain ⟨row2, hE, -, -, hraw, -, -⟩ := editorInsertRow_spec junk E at_ s len h0 h1 hs
    refine ⟨_, hE, ?_, ?_, rfl, rfl, rfl⟩
    · show (E.row.take at_.toNat ++ row2 :: E.row.drop at_.toNat).map erow.raw = _
      simp [editorConfig.lines, hraw, List.map_take, List.map_drop]
    · show (((E.row.take at_.toNat ++ row2 :: E.row.drop at_.toNat).length : Nat) : Int) = _
      simp only [editorConfig.numrows] at h1 ⊢
      simp only [List.length_append, List.length_take, List.length_cons, List.length_drop]
      omega

/-- C15, amended, on the document `["abc", "de"]` and the content `"x"`. -/
theorem editorInsertRow_guard_witness :
    (1 : Nat) ≤ ([120, 0] : List Nat).length ∧
    (((-1 : Int) < 0 ∨ sampleEdit.numrows < -1) →
      editorInsertRow (fun _ => 170) sampleEdit (-1) [120, 0] 1 = some sampleEdit) ∧
    (((0 : Int) ≤ -1 ∧ (-1 : Int) ≤ sampleEdit.numrows) →
      ∃ E2, editorInsertRow (fun _ => 170) sampleEdit (-1) [120, 0] 1 = some E2 ∧
        E2.lines = sampleEdit.lines.take (-1 : Int).toNat ++
          ([120, 0] : List Nat).take 1 :: sampleEdit.lines.drop (-1 : Int).toNat ∧
        E2.numrows = sampleEdit.numrows + 1 ∧ E2.dirty = sampleEdit.dirty + 1 ∧
        E2.cx = sampleEdit.cx ∧ E2.cy = sampleEdit.cy) :=
  ⟨by decide, editorInsertRow_guard (fun _ => 170) sampleEdit (-1) [120, 0] 1 (by decide)⟩

/-! ### Rendered length and tabs -/

theorem expandTabsFrom_append (acc p q : List Nat) :
    expandTabsFrom acc (p ++ q) = expandTabsFrom (expandTabsFrom acc p) q := by
  induction p generalizing acc with
  | nil => simp [expandTabsFrom]
  | cons b bs ih =>
    by_cases hb : b = 9
    · simp [expandTabsFrom, hb, ih]
    · simp [expandTabsFrom, hb, ih]

/-- A tab met at a rendered column `k` with `k % 8 ≠ 7` makes the expansion
strictly longer than the raw text. -/
theorem expandTabsFrom_tab_lt (acc p rest : List Nat)
    (h : (expandTabsFrom acc p).length % 8 ≠ 7) :
    acc.length + (p ++ 9 :: rest).length < (expandTabsFrom acc (p ++ 9 :: rest)).length := by
  rw [expandTabsFrom_append]
  have h1 := (expandTabsFrom_length acc p).1
  have h2 := (expandTabsFrom_length
    (expandTabsFrom acc p ++ List.replicate (8 - (expandTabsFrom acc p).length % 8) 32) rest).1
  simp only [expandTabsFrom, if_true, List.length_append, List.length_replicate,
    List.length_cons] at h2 ⊢
  omega

/-- The expansion has the length of the raw text unless some tab stands at a
rendered column `k` with `k % 8 ≠ 7`. -/
theorem expandTabsFrom_eq_or_tab (acc l : List Nat) :
    (expandTabsFrom acc l).length = acc.length + l.length ∨
    ∃ p rest, l = p ++ 9 :: rest ∧ (expandTabsFrom acc p).length % 8 ≠ 7 := by
  induction l generalizing acc with
  | nil => left; simp [expandTabsFrom]
  | cons b bs ih =>
    by_cases hb : b = 9
    · subst hb
      by_cases h7 : acc.length % 8 = 7
      · rcases ih (acc ++ List.replicate (8 - acc.length % 8) 32) with h | ⟨p, rest, hl, hp⟩
        · left
          simp only [expandTabsFrom, if_true, List.length_append, List.length_replicate,
            List.length_cons] at h ⊢
          omega
        · right
          refine ⟨9 :: p, rest, by simp [hl], ?_⟩
          simpa [expandTabsFrom] using hp
      · right
        exact ⟨[], bs, rfl, by simpa [expandTabsFrom] using h7⟩
    · rcases ih (acc ++ [b]) with h | ⟨p, rest, hl, hp⟩
      · left
        simp only [expandTabsFrom, if_neg hb, List.length_append, List.length_cons,
          List.length_nil] at h ⊢
        omega
      · right
        refine ⟨b :: p, rest, by simp [hl], ?_⟩
        simpa [expandTabsFrom, hb] using hp

/-- C16 fails on the line `"1234567\t"`: it contains a tab, the tab stands at
rendered column 7 and becomes one space, so `rsize = size = 8`. -/
theorem editorUpdateRow_tab_same_length :
    ∃ row2, editorUpdateRow (fun _ => 170) ⟨8, 0, [49, 50, 51, 52, 53, 54, 55, 9, 0], []⟩
        = some row2 ∧
      9 ∈ row2.raw ∧ row2.size = 8 ∧ row2.rsize = 8 ∧
      row2.rendered = [49, 50, 51, 52, 53, 54, 55, 32] := by
  decide

/-- C16, amended: for every line, `editorUpdateRow` leaves `rsize ≥ size`;
`rsize = size` when the line contains no tab character; and `rsize` is
strictly greater than `size` exactly when some tab of the line stands at a
rendered column `k` with `k % 8 ≠ 7` (a tab at a column `k` with `k % 8 = 7`
becomes a single space). -/
theorem editorUpdateRow_rsize (junk : Nat → Nat) (row : erow) (h : row.size ≤ row.chars.length) :
    ∃ row2, editorUpdateRow junk row = some row2 ∧ row2.size = row.size ∧ row2.raw = row.raw ∧
      row2.size ≤ row2.rsize ∧
      (9 ∉ row.raw → row2.rsize = row2.size) ∧
      (row2.size < row2.rsize ↔
        ∃ p rest, row.raw = p ++ 9 :: rest ∧ (expandTabs p).length % 8 ≠ 7) := by
  have hlen := raw_length row h
  refine ⟨_, editorUpdateRow_eq junk row h, rfl, rfl, ?_, ?_, ?_⟩
  · show row.size ≤ (expandTabs row.raw).length
    have := (expandTabsFrom_length [] row.raw).1
    simp only [List.length_nil] at this
    unfold expandTabs; omega
  · intro h9
    show (expandTabs row.raw).length = row.size
    unfold expandTabs
    rw [expandTabsFrom_no_tab [] _ h9]
    simpa using hlen
  · show row.size < (expandTabs row.raw).length ↔ _
    constructor
    · intro hlt
      rcases expandTabsFrom_eq_or_tab [] row.raw with he | hex
      · unfold expandTabs at hlt
        simp only [List.length_nil] at he
        omega
      · exact hex
    · rintro ⟨p, rest, hl, hp⟩
      have := expandTabsFrom_tab_lt [] p rest hp
      rw [← hl] at this
      simp only [List.length_nil] at this
      unfold expandTabs; omega

/-- C16, amended, on the line `"a\tb"`: size 3, rendered length 9. -/
theorem editorUpdateRow_rsize_witness :
    (3 : Nat) ≤ ([97, 9, 98, 0] : List Nat).length ∧
    ∃ row2, editorUpdateRow (fun _ => 170) ⟨3, 0, [97, 9, 98, 0], []⟩ = some row2 ∧
      row2.size = 3 ∧ row2.raw = [97, 9, 98] ∧
      row2.size ≤ row2.rsize ∧
      (9 ∉ ([97, 9, 98] : List Nat) → row2.rsize = row2.size) ∧
      (row2.size < row2.rsize ↔
        ∃ p rest, ([97, 9, 98] : List Nat) = p ++ 9 :: rest ∧ (expandTabs p).length % 8 ≠ 7) :=
  ⟨by decide, editorUpdateRow_rsize (fun _ => 170) ⟨3, 0, [97, 9, 98, 0], []⟩ (by decide)⟩

theorem editorReadKeyWait_skip (pre rest : List readResult) (c : Int)
    (hpre : ∀ r ∈ pre, r = readResult.nothing) :
    editorReadKeyWait (pre ++ readResult.byte c :: rest) = some (c, rest) := by
  induction pre with
  | nil => rfl
  | cons r t ih =>
    obtain rfl := hpre r (by simp)
    simpa [editorReadKeyWait] using ih (fun r hr => hpre r (by simp [hr]))

theorem editorReadKey_first (pre rest : List readResult) (c : Int)
    (hpre : ∀ r ∈ pre, r = readResult.nothing) :
    editorReadKey (pre ++ readResult.byte c :: rest)
      = if c = 27 then editorReadKeyEsc rest else some (c, rest) := by
  unfold editorReadKey
  rw [editorReadKeyWait_skip pre rest c hpre]

/-- After ESC the call makes `escReads` reads and returns with those outcomes consumed. -/
theorem editorReadKeyEsc_consumes (rest : List readResult) (h : escReads rest ≤ rest.length) :
    ∃ k, editorReadKeyEsc rest = some (k, rest.drop (escReads rest)) := by
  unfold editorReadKeyEsc
  rcases rest with _ | ⟨r0, rest⟩
  · simp [escReads] at h
  cases r0 with
  | nothing => exact ⟨27, by simp [readSeq, escReads]⟩
  | error => exact ⟨27, by simp [readSeq, escReads]⟩
  | byte seq0 =>
    rcases rest with _ | ⟨r1, rest⟩
    · simp [escReads] at h
    cases r1 with
    | nothing => exact ⟨27, by simp [readSeq, escReads]⟩
    | error => exact ⟨27, by simp [readSeq, escReads]⟩
    | byte seq1 =>
      by_cases h0 : seq0 = 91
      · by_cases h1 : 48 ≤ seq1 ∧ seq1 ≤ 57
        · have hn : escReads (readResult.byte seq0 :: readResult.byte seq1 :: rest) = 3 := by
            simp [escReads, h0, h1]
          rw [hn] at h ⊢
          rcases rest with _ | ⟨r2, rest⟩
          · simp at h
          cases r2 with
          | nothing => exact ⟨27, by simp [readSeq, h0, h1]⟩
          | error => exact ⟨27, by simp [readSeq, h0, h1]⟩
          | byte seq2 =>
            by_cases h2 : seq2 = 126
            · exact ⟨editorReadKeyTilde seq1, by simp [readSeq, h0, h1, h2]⟩
            · exact ⟨27, by simp [readSeq, h0, h1, h2]⟩
        · have hn : escReads (readResult.byte seq0 :: readResult.byte seq1 :: rest) = 2 := by
            simp only [escReads]; rw [if_neg (fun hh => h1 hh.2)]
          rw [hn]
          exact ⟨editorReadKeyBracket seq1, by simp only [readSeq]; rw [if_pos h0, if_neg h1]; rfl⟩
      · have hn : escReads (readResult.byte seq0 :: readResult.byte seq1 :: rest) = 2 := by
          simp only [escReads]; rw [if_neg (fun hh => h0 hh.1)]
        rw [hn]
        by_cases h79 : seq0 = 79
        · exact ⟨editorReadKeyO seq1, by simp only [readSeq]; rw [if_neg h0, if_pos h79]; rfl⟩
        · exact ⟨27, by simp only [readSeq]; rw [if_neg h0, if_neg h79]; rfl⟩

theorem editorReadKeyTilde_table (seq1 : Int) :
    editorReadKeyTilde seq1 = 27 ∨
    ([91, seq1, 126], editorReadKeyTilde seq1) ∈ recognizedSequences := by
  unfold editorReadKeyTilde
  split_ifs <;> first | (left; rfl) | (right; subst_vars; decide)

theorem editorReadKeyBracket_table (seq1 : Int) :
    editorReadKeyBracket seq1 = 27 ∨
    ([91, seq1], editorReadKeyBracket seq1) ∈ recognizedSequences := by
  unfold editorReadKeyBracket
  split_ifs <;> first | (left; rfl) | (right; subst_vars; decide)

theorem editorReadKeyO_table (seq1 : Int) :
    editorReadKeyO seq1 = 27 ∨
    ([79, seq1], editorReadKeyO seq1) ∈ recognizedSequences := by
  unfold editorReadKeyO
  split_ifs <;> first | (left; rfl) | (right; subst_vars; decide)

/-- A recognized sequence is decoded to its key, which is not the ESC code. -/
theorem editorReadKeyEsc_recognized (s : List Int) (k : Int) (tail : List readResult)
    (h : (s, k) ∈ recognizedSequences) :
    editorReadKeyEsc (s.map readResult.byte ++ tail) = some (k, tail) ∧ k ≠ 27 := by
  simp only [recognizedSequences, List.mem_cons, Prod.mk.injEq, List.mem_singleton,
    List.not_mem_nil, or_false] at h
  rcases h with h | h | h | h | h | h | h | h | h | h | h | h | h | h | h <;>
    (obtain ⟨rfl, rfl⟩ := h; exact ⟨rfl, by decide⟩)

/-- A key other than the ESC code comes from a recognized sequence. -/
theorem editorReadKeyEsc_special (rest : List readResult) (k : Int) (tail : List readResult)
    (h : editorReadKeyEsc rest = some (k, tail)) (hk : k ≠ 27) :
    ∃ s, (s, k) ∈ recognizedSequences ∧ rest = s.map readResult.byte ++ tail := by
  unfold editorReadKeyEsc at h
  rcases rest with _ | ⟨r0, rest⟩
  · simp [readSeq] at h
  cases r0 with
  | nothing => simp [readSeq] at h; exact absurd h.1.symm hk
  | error => simp [readSeq] at h; exact absurd h.1.symm hk
  | byte seq0 =>
    rcases rest with _ | ⟨r1, rest⟩
    · simp [readSeq] at h
    cases r1 with
    | nothing => simp [readSeq] at h; exact absurd h.1.symm hk
    | error => simp [readSeq] at h; exact absurd h.1.symm hk
    | byte seq1 =>
      simp only [readSeq] at h
      by_cases h0 : seq0 = 91
      · subst h0
        rw [if_pos rfl] at h
        by_cases h1 : 48 ≤ seq1 ∧ seq1 ≤ 57
        · rw [if_pos h1] at h
          rcases rest with _ | ⟨r2, rest⟩
          · simp [readSeq] at h
          cases r2 with
          | nothing => simp [readSeq] at h; exact absurd h.1.symm hk
          | error => simp [readSeq] at h; exact absurd h.1.symm hk
          | byte seq2 =>
            simp only [readSeq] at h
            by_cases h2 : seq2 = 126
            · subst h2
              rw [if_pos rfl] at h
              obtain ⟨rfl, rfl⟩ := Prod.mk.inj (Option.some.inj h)
              rcases editorReadKeyTilde_table seq1 with e | e
              · exact absurd e hk
              · exact ⟨_, e, rfl⟩
            · rw [if_neg h2] at h
              exact absurd (Prod.mk.inj (Option.some.inj h)).1.symm hk
        · rw [if_neg h1] at h
          obtain ⟨rfl, rfl⟩ := Prod.mk.inj (Option.some.inj h)
          rcases editorReadKeyBracket_table seq1 with e | e
          · exact absurd e hk
          · exact ⟨_, e, rfl⟩
      · rw [if_neg h0] at h
        by_cases h79 : seq0 = 79
        · subst h79
          rw [if_pos rfl] at h
          obtain ⟨rfl, rfl⟩ := Prod.mk.inj (Option.some.inj h)
          rcases editorReadKeyO_table seq1 with e | e
          · exact absurd e hk
          · exact ⟨_, e, rfl⟩
        · rw [if_neg h79] at h
          exact absurd (Prod.mk.inj (Option.some.inj h)).1.symm hk

theorem escReads_bounds (rest : List readResult) : 1 ≤ escReads rest ∧ escReads rest ≤ 3 := by
  unfold escReads
  split
  · split_ifs <;> omega
  · omega
  · omega

/-- C13: with the terminal a stream of read outcomes that may yield nothing,
and after any number of reads that yield nothing, `editorReadKey` returns a
first byte other than ESC as itself; after ESC it returns a special key exactly
when the bytes read form a recognized sequence (`ESC [ A/B/C/D`, `ESC [ H`,
`ESC O H`, `ESC [ F`, `ESC O F`, `ESC [ d ~`), and the bare ESC code 27 for
every other input, a read that yields nothing where a sequence byte was
expected included; it returns whenever the reads it makes have an outcome. -/
theorem editorReadKey_decodes (pre rest : List readResult)
    (hpre : ∀ r ∈ pre, r = readResult.nothing) :
    (∀ c, c ≠ 27 → editorReadKey (pre ++ readResult.byte c :: rest) = some (c, rest)) ∧
    (∀ s k tail, (s, k) ∈ recognizedSequences → rest = s.map readResult.byte ++ tail →
      editorReadKey (pre ++ readResult.byte 27 :: rest) = some (k, tail) ∧ k ≠ 27) ∧
    (∀ k tail, editorReadKey (pre ++ readResult.byte 27 :: rest) = some (k, tail) → k ≠ 27 →
      ∃ s, (s, k) ∈ recognizedSequences ∧ rest = s.map readResult.byte ++ tail) ∧
    (escReads rest ≤ rest.length →
      ∃ k tail, editorReadKey (pre ++ readResult.byte 27 :: rest) = some (k, tail)) ∧
    (∀ t, rest = readResult.nothing :: t →
      editorReadKey (pre ++ readResult.byte 27 :: rest) = some (27, t)) ∧
    (∀ a t, rest = readResult.byte a :: readResult.nothing :: t →
      editorReadKey (pre ++ readResult.byte 27 :: rest) = some (27, t)) ∧
    (∀ d t, 48 ≤ d → d ≤ 57 →
      rest = readResult.byte 91 :: readResult.byte d :: readResult.nothing :: t →
      editorReadKey (pre ++ readResult.byte 27 :: rest) = some (27, t)) := by
  have hesc := editorReadKey_first pre rest 27 hpre
  rw [if_pos rfl] at hesc
  refine ⟨?_, ?_, ?_, ?_, ?_, ?_, ?_⟩
  · intro c hc
    rw [editorReadKey_first pre rest c hpre, if_neg hc]
  · intro s k tail hs hrest
    rw [hesc, hrest]
    exact editorReadKeyEsc_recognized s k tail hs
  · intro k tail h hk
    rw [hesc] at h
    exact editorReadKeyEsc_special rest k tail h hk
  · intro h
    obtain ⟨k, hk⟩ := editorReadKeyEsc_consumes rest h
    exact ⟨k, _, hesc.trans hk⟩
  · rintro t rfl
    rw [hesc]; rfl
  · rintro a t rfl
    rw [hesc]; rfl
  · rintro d t h1 h2 rfl
    rw [hesc]
    simp [editorReadKeyEsc, readSeq, h1, h2]

/-- C13 on the terminal that yields nothing once and then the bytes of
`ESC [ 5 ~ a`: the key is `PAGE_UP` and `a` is left unread. -/
theorem editorReadKey_decodes_witness :
    (∀ r ∈ [readResult.nothing], r = readResult.nothing) ∧
    editorReadKey ([readResult.nothing] ++ readResult.byte 27 ::
        [readResult.byte 91, readResult.byte 53, readResult.byte 126, readResult.byte 97])
      = some (PAGE_UP, [readResult.byte 97]) ∧ PAGE_UP ≠ 27 :=
  ⟨by decide,
    (editorReadKey_decodes [readResult.nothing]
      [readResult.byte 91, readResult.byte 53, readResult.byte 126, readResult.byte 97]
      (by decide)).2.1 [91, 53, 126] PAGE_UP [readResult.byte 97] (by decide) rfl⟩

/-- C14 fails on the stream `ESC a b c`: the call returns the bare ESC code
with `a` and `b` consumed, and the next call returns `c`; `a` and `b` are
delivered by no call. -/
theorem editorReadKey_discards :
    editorReadKey [readResult.byte 27, readResult.byte 97, readResult.byte 98, readResult.byte 99]
      = some (27, [readResult.byte 99]) ∧
    editorReadKey [readResult.byte 99] = some (99, []) := by
  decide

/-- C14, amended: for every input stream, a call of `editorReadKey` that reads
an ESC byte consumes the outcomes of the reads it makes after it (one when the
first read yields no byte, three when the first two bytes are `[` and a digit,
two otherwise), whether or not they form a recognized sequence, so the bytes of
an unrecognized sequence are discarded with the bare ESC event and the next
call starts at the first outcome not yet read; a first byte other than ESC is
the only outcome consumed besides the reads that yielded nothing. -/
theorem editorReadKey_consumes (pre rest : List readResult)
    (hpre : ∀ r ∈ pre, r = readResult.nothing) (h : escReads rest ≤ rest.length) :
    (∃ k, editorReadKey (pre ++ readResult.byte 27 :: rest)
      = some (k, rest.drop (escReads rest))) ∧
    1 ≤ escReads rest ∧ escReads rest ≤ 3 ∧
    (∀ c, c ≠ 27 → editorReadKey (pre ++ readResult.byte c :: rest) = some (c, rest)) := by
  refine ⟨?_, (escReads_bounds rest).1, (escReads_bounds rest).2, ?_⟩
  · obtain ⟨k, hk⟩ := editorReadKeyEsc_consumes rest h
    refine ⟨k, ?_⟩
    rw [editorReadKey_first pre rest 27 hpre, if_pos rfl]
    exact hk
  · intro c hc
    rw [editorReadKey_first pre rest c hpre, if_neg hc]

/-- C14, amended, on the stream `ESC a b c`: two reads after ESC, `c` is next. -/
theorem editorReadKey_consumes_witness :
    (∀ r ∈ ([] : List readResult), r = readResult.nothing) ∧
    escReads [readResult.byte 97, readResult.byte 98, readResult.byte 99]
      ≤ [readResult.byte 97, readResult.byte 98, readResult.byte 99].length ∧
    (∃ k, editorReadKey ([] ++ readResult.byte 27 ::
        [readResult.byte 97, readResult.byte 98, readResult.byte 99])
      = some (k, [readResult.byte 97, readResult.byte 98, readResult.byte 99].drop
          (escReads [readResult.byte 97, readResult.byte 98, readResult.byte 99]))) ∧
    1 ≤ escReads [readResult.byte 97, readResult.byte 98, readResult.byte 99] ∧
    escReads [readResult.byte 97, readResult.byte 98, readResult.byte 99] ≤ 3 ∧
    (∀ c, c ≠ 27 → editorReadKey ([] ++ readResult.byte c ::
        [readResult.byte 97, readResult.byte 98, readResult.byte 99])
      = some (c, [readResult.byte 97, readResult.byte 98, readResult.byte 99])) :=
  ⟨by decide, by decide,
    editorReadKey_consumes [] [readResult.byte 97, readResult.byte 98, readResult.byte 99]
      (by decide) (by decide)⟩

/-! ### Find: the scan that meets a match -/

theorem takeWhile_append_zero (A B : List Nat) :
    (A ++ 0 :: B).takeWhile (fun b => b ≠ 0) = A.takeWhile (fun b => b ≠ 0) := by
  induction A with
  | nil => simp
  | cons a A ih =>
    by_cases ha : a = 0
    · simp [List.takeWhile_cons, ha]
    · rw [List.cons_append, List.takeWhile_cons, List.takeWhile_cons, ih]

/-- The search of `strstr` returns the first offset at which the needle starts. -/
theorem strstrFrom_first (needle hay : List Nat) (i : Nat) (h : needle <:+: hay) :
    ∃ off, strstrFrom needle hay i = some (i + off) ∧ needle <+: hay.drop off ∧
      ∀ o < off, ¬ needle <+: hay.drop o := by
  induction hay generalizing i with
  | nil =>
    have hn : needle = [] := List.eq_nil_of_infix_nil h
    subst hn
    exact ⟨0, by simp [strstrFrom], by simp, by simp⟩
  | cons x xs ih =>
    by_cases hp : needle.isPrefixOf (x :: xs) = true
    · exact ⟨0, by rw [strstrFrom, if_pos hp]; rfl, by
        simpa using List.isPrefixOf_iff_prefix.mp hp, by simp⟩
    · have hxs : needle <:+: xs := by
        rcases List.infix_cons_iff.mp h with h1 | h1
        · exact absurd (List.isPrefixOf_iff_prefix.mpr h1) hp
        · exact h1
      obtain ⟨off, h1, h2, h3⟩ := ih (i + 1) hxs
      refine ⟨off + 1, ?_, by simpa using h2, ?_⟩
      · rw [strstrFrom, if_neg hp, h1]
        congr 1; omega
      · intro o ho
        rcases o with _ | o
        · intro hpre
          exact hp (List.isPrefixOf_iff_prefix.mpr (by simpa using hpre))
        · simpa using h3 o (by omega)

theorem cstr_render (row : erow) (ht : row.render[row.rsize]? = some 0) :
    cstr row.render = some row.renderedCStr := by
  obtain ⟨B, hB⟩ := render_split row.render row.rsize ht
  unfold cstr
  rw [if_pos (by rw [hB]; simp)]
  congr 1
  rw [hB, takeWhile_append_zero]
  rfl

theorem takeWhile_query (query : List Nat) (hq : 0 ∉ query) :
    query.takeWhile (fun b => b ≠ 0) = query := by
  rw [List.takeWhile_eq_self_iff]
  intro x hx
  have : x ≠ 0 := fun e => hq (e ▸ hx)
  simpa using this

/-- The match test of `editorFindCallback` on a row whose text holds the query:
the offset returned is that of the first occurrence. -/
theorem strstr_first (row : erow) (query : List Nat) (ht : row.render[row.rsize]? = some 0)
    (hq : 0 ∉ query) (h : query <:+: row.renderedCStr) :
    ∃ off, strstr row.render query = some (some off) ∧ query <+: row.renderedCStr.drop off ∧
      ∀ o < off, ¬ query <+: row.renderedCStr.drop o := by
  obtain ⟨off, h1, h2, h3⟩ := strstrFrom_first query row.renderedCStr 0 h
  refine ⟨off, ?_, h2, h3⟩
  unfold strstr
  rw [cstr_render row ht, takeWhile_query query hq]
  simp [h1]

theorem strstr_none_cstr (row : erow) (query : List Nat) (ht : row.render[row.rsize]? = some 0)
    (hq : 0 ∉ query) (h : ¬ query <:+: row.renderedCStr) :
    strstr row.render query = some none := by
  unfold strstr
  rw [cstr_render row ht, takeWhile_query query hq]
  simp [strstrFrom_none _ _ 0 h]

theorem editorRowRxToCxLoop_some (chars : List Nat) (rx : Int) (n cx cur : Nat)
    (h : cx + n ≤ chars.length) : ∃ r, editorRowRxToCxLoop chars rx n cx cur = some r := by
  induction n generalizing cx cur with
  | zero => exact ⟨cx, rfl⟩
  | succ n ih =>
    have hlt : cx < chars.length := by omega
    rw [editorRowRxToCxLoop, List.getElem?_eq_getElem hlt]
    simp only
    split_ifs <;> first | exact ⟨cx, rfl⟩ | exact ih (cx + 1) _ (by omega)

/-- The scan of `editorFindCallback` when the match test fails on the first `j`
rows probed and succeeds on the next one. -/
theorem editorFindCallbackLoop_match (query : List Nat) (d : Int) (E : editorConfig) (j : Nat) :
    ∀ (k : Nat) (c lm : Int) (probes : List Int), j < k → k ≤ E.row.length → c < E.numrows →
      ((d = 1 ∧ -1 ≤ c) ∨ (d = -1 ∧ 0 ≤ c)) →
      (∀ i < j, ∀ r, E.rowAt ((c + d * ((i : Int) + 1)) % E.numrows) = some r →
        strstr r.render query = some none) →
      ∀ (row : erow) (off cx : Nat),
        E.rowAt ((c + d * ((j : Int) + 1)) % E.numrows) = some row →
        strstr row.render query = some (some off) →
        editorRowRxToCx row (off : Int) = some cx →
        ∃ probes2, editorFindCallbackLoop query d k c lm E probes
          = some ((c + d * ((j : Int) + 1)) % E.numrows,
              { E with cy := (c + d * ((j : Int) + 1)) % E.numrows, cx := (cx : Int),
                       rowoff := E.numrows }, probes2) := by
  induction j with
  | zero =>
    intro k c lm probes hjk hk hc hd _ row off cx hrow hm hcx
    obtain ⟨k, rfl⟩ : ∃ k2, k = k2 + 1 := ⟨k - 1, by omega⟩
    have hn : 0 < E.numrows := by
      simp only [editorConfig.numrows]; omega
    have hw := wrap_eq_emod E.numrows c d hn hc hd
    have he : c + d * (((0 : Nat) : Int) + 1) = c + d := by push_cast; ring
    rw [he] at hrow ⊢
    rw [editorFindCallbackLoop]
    simp only [hw, hrow, Option.some_bind, hm, hcx, Option.map_some']
    exact ⟨_, rfl⟩
  | succ j ih =>
    intro k c lm probes hjk hk hc hd hno row off cx hrow hm hcx
    obtain ⟨k, rfl⟩ : ∃ k2, k = k2 + 1 := ⟨k - 1, by omega⟩
    have hn : 0 < E.numrows := by
      simp only [editorConfig.numrows]; omega
    have hw := wrap_eq_emod E.numrows c d hn hc hd
    have hlo : 0 ≤ (c + d) % E.numrows := Int.emod_nonneg _ (by omega)
    have hhi : (c + d) % E.numrows < E.numrows := Int.emod_lt_of_pos _ hn
    obtain ⟨r0, hr0, -⟩ := rowAt_mem E _ hlo hhi
    have hd2 : (d = 1 ∧ -1 ≤ (c + d) % E.numrows) ∨ (d = -1 ∧ 0 ≤ (c + d) % E.numrows) := by
      rcases hd with ⟨h, -⟩ | ⟨h, -⟩
      · exact Or.inl ⟨h, by omega⟩
      · exact Or.inr ⟨h, hlo⟩
    have hshift : ∀ i : Nat, ((c + d) % E.numrows + d * ((i : Int) + 1)) % E.numrows
        = (c + d * (((i + 1 : Nat) : Int) + 1)) % E.numrows := by
      intro i
      rw [Int.emod_add_emod]
      congr 1
      push_cast; ring
    have h0 : strstr r0.render query = some none := by
      apply hno 0 (by omega) r0
      have he : c + d * (((0 : Nat) : Int) + 1) = c + d := by push_cast; ring
      rw [he]; exact hr0
    rw [← hshift j] at hrow ⊢
    obtain ⟨probes2, hp⟩ := ih k ((c + d) % E.numrows) lm (probes ++ [(c + d) % E.numrows])
      (by omega) (by omega) hhi hd2
      (fun i hi r hr => hno (i + 1) (by omega) r (by rw [← hshift i]; exact hr))
      row off cx hrow hm hcx
    rw [editorFindCallbackLoop]
    simp only [hw, hr0, Option.some_bind, h0]
    exact ⟨probes2, hp⟩

/-- The scan of `editorFindCallback` from the state `(m, d)` over a document
one of whose lines holds the query: it stops at the first line of the sequence
`(m + d) % n`, `(m + 2 d) % n`, ... that holds it. -/
theorem editorFindCallback_scan (E : editorConfig) (query : List Nat) (m d : Int)
    (hm : m < E.numrows) (hd : (d = 1 ∧ -1 ≤ m) ∨ (d = -1 ∧ 0 ≤ m)) (hq : 0 ∉ query)
    (hrows : ∀ row ∈ E.row, row.size ≤ row.chars.length ∧ row.render[row.rsize]? = some 0)
    (hex : ∃ row ∈ E.row, query <:+: row.renderedCStr) :
    ∃ (j : Nat) (row : erow) (off cx : Nat), j < E.row.length ∧
      E.rowAt ((m + d * ((j : Int) + 1)) % E.numrows) = some row ∧
      (∀ i < j, ∀ r, E.rowAt ((m + d * ((i : Int) + 1)) % E.numrows) = some r →
        ¬ query <:+: r.renderedCStr) ∧
      query <+: row.renderedCStr.drop off ∧
      (∀ o < off, ¬ query <+: row.renderedCStr.drop o) ∧
      editorRowRxToCx row (off : Int) = some cx ∧
      ∀ lm, ∃ probes, editorFindCallbackLoop query d E.row.length m lm E []
        = some ((m + d * ((j : Int) + 1)) % E.numrows,
            { E with cy := (m + d * ((j : Int) + 1)) % E.numrows, cx := (cx : Int),
                     rowoff := E.numrows }, probes) := by
  classical
  obtain ⟨row0, hmem, hin⟩ := hex
  obtain ⟨i0, hi0, hget⟩ := List.mem_iff_getElem.mp hmem
  have hd2 : d = 1 ∨ d = -1 := by
    rcases hd with ⟨h, -⟩ | ⟨h, -⟩
    · exact Or.inl h
    · exact Or.inr h
  have hcount := probes_count E.row.length m d hd2 (i0 : Int) (by omega) (by omega)
  have hmemj : (i0 : Int) ∈ (List.range E.row.length).map
      (fun j : Nat => (m + d * ((j : Int) + 1)) % (E.row.length : Int)) :=
    List.count_pos_iff.mp (by rw [hcount]; exact Nat.one_pos)
  obtain ⟨j0, hj0, hidx⟩ := List.mem_map.mp hmemj
  rw [List.mem_range] at hj0
  have hrow0 : E.rowAt (i0 : Int) = some row0 := by
    unfold editorConfig.rowAt
    rw [if_neg (by omega), Int.toNat_ofNat, List.getElem?_eq_getElem hi0, hget]
  have hP : ∃ j, j < E.row.length ∧ ∃ r,
      E.rowAt ((m + d * ((j : Int) + 1)) % E.numrows) = some r ∧ query <:+: r.renderedCStr :=
    ⟨j0, hj0, row0, by
      show E.rowAt ((m + d * ((j0 : Int) + 1)) % (E.row.length : Int)) = some row0
      rw [hidx]; exact hrow0, hin⟩
  obtain ⟨hj, row, hrow, hrin⟩ := Nat.find_spec hP
  have hmin : ∀ i < Nat.find hP, ∀ r,
      E.rowAt ((m + d * ((i : Int) + 1)) % E.numrows) = some r → ¬ query <:+: r.renderedCStr := by
    intro i hi r hr hinf
    exact Nat.find_min hP hi ⟨by omega, r, hr, hinf⟩
  obtain ⟨-, -, hrmem⟩ := rowAt_some E _ row hrow
  obtain ⟨off, hoff, hpre, hfirst⟩ := strstr_first row query (hrows row hrmem).2 hq hrin
  obtain ⟨cx, hcx⟩ := editorRowRxToCxLoop_some row.chars (off : Int) row.size 0 0
    (by have := (hrows row hrmem).1; omega)
  refine ⟨Nat.find hP, row, off, cx, hj, hrow, hmin, hpre, hfirst, hcx, ?_⟩
  intro lm
  exact editorFindCallbackLoop_match query d E (Nat.find hP) E.row.length m lm [] hj (le_refl _)
    hm hd
    (fun i hi r hr => strstr_none_cstr r query (hrows r (rowAt_some E _ r hr).2.2).2 hq
      (hmin i hi r hr))
    row off cx hrow hoff hcx

theorem editorFindCallback_of_loop (S : findState) (E E2 : editorConfig) (query : List Nat)
    (key : Int) (hkey : key ≠ 13 ∧ key ≠ 27) (line : Int) (probes : List Int)
    (h : editorFindCallbackLoop query (editorFindCallbackKey S key).direction E.row.length
      (editorFindCallbackKey S key).last_match (editorFindCallbackKey S key).last_match E []
        = some (line, E2, probes)) :
    editorFindCallback S E query key
      = some ({ last_match := line, direction := (editorFindCallbackKey S key).direction }, E2) := by
  unfold editorFindCallback editorFindCallbackProbes
  rw [if_neg (by omega)]
  simp only
  rw [h]
  rfl

/-- C19 fails on the document `["x", "a", "x"]` with the cursor on line 1: the
key `x` with the query `"x"` moves the cursor to line 0, the first match from
the top, where the circular order from the cursor line gives line 2. -/
theorem editorFindCallback_from_top :
    sampleFind.cy = 1 ∧
    (editorFindCallback ⟨-1, 1⟩ sampleFind [120] 120).map
      (fun r => (r.1.last_match, r.2.cy, r.2.cx, r.2.rowoff)) = some (0, 0, 0, 3) := by
  decide

/-- C19, amended: when `editorFindCallback` is invoked with a key that is not
Enter, ESC or an arrow, it resets the session and searches from the top of the
document, wherever the cursor is: if some line's rendered text (as `strstr`
reads it, up to its first NUL byte) contains the query, the cursor moves to the
first such line in document order from line 0, at the column of the first
occurrence, and `last_match` is that line. -/
theorem editorFindCallback_new_query (S : findState) (E : editorConfig) (query : List Nat)
    (key : Int)
    (hkey : key ≠ 13 ∧ key ≠ 27 ∧ key ≠ ARROW_LEFT ∧ key ≠ ARROW_RIGHT ∧ key ≠ ARROW_UP ∧
      key ≠ ARROW_DOWN)
    (hq : 0 ∉ query)
    (hrows : ∀ row ∈ E.row, row.size ≤ row.chars.length ∧ row.render[row.rsize]? = some 0)
    (hex : ∃ row ∈ E.row, query <:+: row.renderedCStr) :
    ∃ (j : Nat) (row : erow) (off cx : Nat), E.row[j]? = some row ∧
      query <:+: row.renderedCStr ∧
      (∀ i < j, ∀ r, E.row[i]? = some r → ¬ query <:+: r.renderedCStr) ∧
      query <+: row.renderedCStr.drop off ∧
      (∀ o < off, ¬ query <+: row.renderedCStr.drop o) ∧
      editorRowRxToCx row (off : Int) = some cx ∧
      editorFindCallback S E query key
        = some ({ last_match := (j : Int), direction := 1 },
            { E with cy := (j : Int), cx := (cx : Int), rowoff := E.numrows }) := by
  obtain ⟨h13, h27, hl, hr, hu, hdn⟩ := hkey
  have hK : editorFindCallbackKey S key = { last_match := -1, direction := 1 } := by
    unfold editorFindCallbackKey
    simp [hl, hr, hu, hdn]
  have hn : 0 < E.numrows := by
    obtain ⟨row, hmem, -⟩ := hex
    have := List.length_pos_of_mem hmem
    simp only [editorConfig.numrows]; omega
  obtain ⟨j, row, off, cx, hj, hrow, hmin, hpre, hfirst, hcx, hloop⟩ :=
    editorFindCallback_scan E query (-1) 1 (by omega) (Or.inl ⟨rfl, le_refl _⟩) hq hrows hex
  have hidx : ∀ i : Nat, i < E.row.length →
      (-1 + 1 * ((i : Int) + 1)) % E.numrows = (i : Int) := by
    intro i hi
    have : (-1 + 1 * ((i : Int) + 1)) = (i : Int) := by ring
    rw [this]
    exact Int.emod_eq_of_lt (by omega) (by simp only [editorConfig.numrows]; omega)
  have hat : ∀ i : Nat, E.rowAt (i : Int) = E.row[i]? := by
    intro i
    unfold editorConfig.rowAt
    rw [if_neg (by omega), Int.toNat_ofNat]
  rw [hidx j hj] at hrow hloop
  rw [hat] at hrow
  refine ⟨j, row, off, cx, hrow, hpre.isInfix.trans (List.drop_suffix _ _).isInfix, ?_, hpre,
    hfirst, hcx, ?_⟩
  · intro i hi r hr
    apply hmin i hi r
    rw [hidx i (by omega), hat]
    exact hr
  · obtain ⟨probes, hp⟩ := hloop (-1)
    have := editorFindCallback_of_loop S E _ query key ⟨h13, h27⟩ (j : Int) probes
      (by rw [hK]; exact hp)
    rw [this, hK]

/-- C19, amended, on the document `["x", "a", "x"]` with the cursor on line 1
and the key `x`. -/
theorem editorFindCallback_new_query_witness :
    ((120 : Int) ≠ 13 ∧ (120 : Int) ≠ 27 ∧ 120 ≠ ARROW_LEFT ∧ 120 ≠ ARROW_RIGHT ∧
      120 ≠ ARROW_UP ∧ 120 ≠ ARROW_DOWN) ∧
    (0 ∉ ([120] : List Nat)) ∧
    (∀ row ∈ sampleFind.row, row.size ≤ row.chars.length ∧ row.render[row.rsize]? = some 0) ∧
    (∃ row ∈ sampleFind.row, ([120] : List Nat) <:+: row.renderedCStr) ∧
    ∃ (j : Nat) (row : erow) (off cx : Nat), sampleFind.row[j]? = some row ∧
      ([120] : List Nat) <:+: row.renderedCStr ∧
      (∀ i < j, ∀ r, sampleFind.row[i]? = some r → ¬ ([120] : List Nat) <:+: r.renderedCStr) ∧
      ([120] : List Nat) <+: row.renderedCStr.drop off ∧
      (∀ o < off, ¬ ([120] : List Nat) <+: row.renderedCStr.drop o) ∧
      editorRowRxToCx row (off : Int) = some cx ∧
      editorFindCallback ⟨1, -1⟩ sampleFind [120] 120
        = some ({ last_match := (j : Int), direction := 1 },
            { sampleFind with cy := (j : Int), cx := (cx : Int), rowoff := sampleFind.numrows }) :=
  ⟨by decide, by decide, by decide, by decide,
    editorFindCallback_new_query ⟨1, -1⟩ sampleFind [120] 120 (by decide) (by decide) (by decide)
      (by decide)⟩

/-- C20 fails on the one-line document whose line is a NUL byte followed by
`a`: the rendered text contains the query `"a"`, but `strstr` reads the render
buffer up to the NUL and finds nothing, so the cursor, `last_match` and
`rowoff` stay as they were. -/
theorem editorFindCallback_nul_line :
    ([97] : List Nat) <:+: (⟨2, 2, [0, 97, 0], [0, 97, 0]⟩ : erow).rendered ∧
    (editorFindCallback ⟨-1, 1⟩ ((initEditor 24 80).withRows [⟨2, 2, [0, 97, 0], [0, 97, 0]⟩])
        [97] 97).map (fun r => (r.1.last_match, r.2.cy, r.2.cx, r.2.rowoff))
      = some (-1, 0, 0, 0) := by
  decide

/-- C20, amended: for every document with `numrows >= 1`, every query contained
in at least one line's rendered text as `strstr` reads it (the bytes before the
line's first NUL byte), and every session state at scan time (`last_match = m`
with `-1 <= m < numrows`, direction `d = +1` or `-1`, forced to `+1` when
`m = -1`), `editorFindCallback` moves the cursor to the first line of the
circular sequence `m + d, m + 2 d, ...` (taken modulo `numrows`) whose text
contains the query; it sets `cy` and `last_match` to that line, `cx` to
`editorRowRxToCx` of the offset of the query's first occurrence, and `rowoff`
to `numrows`. The state at scan time keeps `last_match` on an arrow key, with
`d = +1` for arrow-down/right and `d = -1` for arrow-up/left (when
`last_match` is not -1), and is `(-1, +1)` on any other key. -/
theorem editorFindCallback_match (S : findState) (E : editorConfig) (query : List Nat)
    (key : Int) (hkey : key ≠ 13 ∧ key ≠ 27)
    (hS : -1 ≤ S.last_match ∧ S.last_match < E.numrows) (hq : 0 ∉ query)
    (hrows : ∀ row ∈ E.row, row.size ≤ row.chars.length ∧ row.render[row.rsize]? = some 0)
    (hex : ∃ row ∈ E.row, query <:+: row.renderedCStr) :
    (∃ (j : Nat) (row : erow) (off cx : Nat), j < E.row.length ∧
      E.rowAt (((editorFindCallbackKey S key).last_match
        + (editorFindCallbackKey S key).direction * ((j : Int) + 1)) % E.numrows) = some row ∧
      (∀ i < j, ∀ r, E.rowAt (((editorFindCallbackKey S key).last_match
          + (editorFindCallbackKey S key).direction * ((i : Int) + 1)) % E.numrows) = some r →
        ¬ query <:+: r.renderedCStr) ∧
      query <+: row.renderedCStr.drop off ∧
      (∀ o < off, ¬ query <+: row.renderedCStr.drop o) ∧
      editorRowRxToCx row (off : Int) = some cx ∧
      editorFindCallback S E query key
        = some ({ last_match := ((editorFindCallbackKey S key).last_match
                    + (editorFindCallbackKey S key).direction * ((j : Int) + 1)) % E.numrows,
                  direction := (editorFindCallbackKey S key).direction },
            { E with cy := ((editorFindCallbackKey S key).last_match
                        + (editorFindCallbackKey S key).direction * ((j : Int) + 1)) % E.numrows,
                     cx := (cx : Int), rowoff := E.numrows })) ∧
    (key = ARROW_RIGHT ∨ key = ARROW_DOWN →
      editorFindCallbackKey S key = { last_match := S.last_match, direction := 1 }) ∧
    (key = ARROW_LEFT ∨ key = ARROW_UP →
      editorFindCallbackKey S key
        = { last_match := S.last_match, direction := if S.last_match = -1 then 1 else -1 }) ∧
    (¬ (key = ARROW_RIGHT ∨ key = ARROW_DOWN ∨ key = ARROW_LEFT ∨ key = ARROW_UP) →
      editorFindCallbackKey S key = { last_match := -1, direction := 1 }) := by
  obtain ⟨hd, hlt⟩ := editorFindCallbackKey_inv S key E.numrows hS
    (by simp [editorConfig.numrows])
  refine ⟨?_, ?_, ?_, ?_⟩
  · obtain ⟨j, row, off, cx, hj, hrow, hmin, hpre, hfirst, hcx, hloop⟩ :=
      editorFindCallback_scan E query (editorFindCallbackKey S key).last_match
        (editorFindCallbackKey S key).direction hlt hd hq hrows hex
    refine ⟨j, row, off, cx, hj, hrow, hmin, hpre, hfirst, hcx, ?_⟩
    obtain ⟨probes, hp⟩ := hloop (editorFindCallbackKey S key).last_match
    exact editorFindCallback_of_loop S E _ query key hkey _ probes hp
  · intro h
    unfold editorFindCallbackKey
    simp only [h, if_true]
    split_ifs with h1
    · simp only [h1]
    · rfl
  · intro h
    have hne : ¬ (key = ARROW_RIGHT ∨ key = ARROW_DOWN) := by
      rcases h with rfl | rfl <;> decide
    unfold editorFindCallbackKey
    simp only [h, hne, if_true, if_false]
    split_ifs with h1
    · simp only [h1]
    · rfl
  · intro h
    unfold editorFindCallbackKey
    simp only [not_or] at h
    simp [h.1, h.2.1, h.2.2.1, h.2.2.2]

/-- C20, amended, on the document `["x", "a", "x"]`: arrow-down after a match on
line 0 with the query `"x"`. -/
theorem editorFindCallback_match_witness :
    (ARROW_DOWN ≠ 13 ∧ ARROW_DOWN ≠ 27) ∧
    ((-1 : Int) ≤ (⟨0, 1⟩ : findState).last_match ∧
      (⟨0, 1⟩ : findState).last_match < sampleFind.numrows) ∧
    (0 ∉ ([120] : List Nat)) ∧
    (∀ row ∈ sampleFind.row, row.size ≤ row.chars.length ∧ row.render[row.rsize]? = some 0) ∧
    (∃ row ∈ sampleFind.row, ([120] : List Nat) <:+: row.renderedCStr) ∧
    (∃ (j : Nat) (row : erow) (off cx : Nat), j < sampleFind.row.length ∧
      sampleFind.rowAt (((editorFindCallbackKey ⟨0, 1⟩ ARROW_DOWN).last_match
        + (editorFindCallbackKey ⟨0, 1⟩ ARROW_DOWN).direction * ((j : Int) + 1))
          % sampleFind.numrows) = some row ∧
      (∀ i < j, ∀ r, sampleFind.rowAt (((editorFindCallbackKey ⟨0, 1⟩ ARROW_DOWN).last_match
          + (editorFindCallbackKey ⟨0, 1⟩ ARROW_DOWN).direction * ((i : Int) + 1))
            % sampleFind.numrows) = some r →
        ¬ ([120] : List Nat) <:+: r.renderedCStr) ∧
      ([120] : List Nat) <+: row.renderedCStr.drop off ∧
      (∀ o < off, ¬ ([120] : List Nat) <+: row.renderedCStr.drop o) ∧
      editorRowRxToCx row (off : Int) = some cx ∧
      editorFindCallback ⟨0, 1⟩ sampleFind [120] ARROW_DOWN
        = some ({ last_match := ((editorFindCallbackKey ⟨0, 1⟩ ARROW_DOWN).last_match
                    + (editorFindCallbackKey ⟨0, 1⟩ ARROW_DOWN).direction * ((j : Int) + 1))
                      % sampleFind.numrows,
                  direction := (editorFindCallbackKey ⟨0, 1⟩ ARROW_DOWN).direction },
            { sampleFind with
              cy := ((editorFindCallbackKey ⟨0, 1⟩ ARROW_DOWN).last_match
                        + (editorFindCallbackKey ⟨0, 1⟩ ARROW_DOWN).direction * ((j : Int) + 1))
                          % sampleFind.numrows,
              cx := (cx : Int), rowoff := sampleFind.numrows })) ∧
    (editorFindCallback ⟨0, 1⟩ sampleFind [120] ARROW_DOWN).map
      (fun r => (r.1.last_match, r.2.cy, r.2.cx, r.2.rowoff)) = some (2, 2, 0, 3) :=
  ⟨by decide, by decide, by decide, by decide, by decide,
    (editorFindCallback_match ⟨0, 1⟩ sampleFind [120] ARROW_DOWN (by decide) (by decide)
      (by decide) (by decide) (by decide)).1, by decide⟩

/-! ### The quit counter -/

theorem editorProcessKeypress_quit_key (junk : Nat → Nat) (moved : Bool)
    (fileOK : List Nat → Bool) (st : keypressState) (rest : List Int)
    (hk : st.keys = 17 :: rest) :
    editorProcessKeypress junk moved fileOK st
      = if st.E.dirty ≠ 0 ∧ st.quit_times > 0 then
          some (keypressResult.running { st with keys := rest, quit_times := st.quit_times - 1 })
        else some keypressResult.exited := by
  unfold editorProcessKeypress
  rw [hk]
  simp only [if_true]

theorem editorProcessKeypress_other_key (junk : Nat → Nat) (moved : Bool)
    (fileOK : List Nat → Bool) (st : keypressState) (c : Int) (rest : List Int)
    (hk : st.keys = c :: rest) (hc : c ≠ 17) :
    editorProcessKeypress junk moved fileOK st
      = (editorProcessKeypressSwitch junk moved fileOK { st with keys := rest } c).map
          (fun st => keypressResult.running { st with quit_times := 3 }) := by
  unfold editorProcessKeypress
  rw [hk]
  simp only [if_neg hc]
  rfl

/-- The handlers of the keys that edit the text or move the cursor return. -/
theorem editorProcessKeypressSwitch_total (junk : Nat → Nat) (moved : Bool)
    (fileOK : List Nat → Bool) (st : keypressState) (c : Int)
    (h19 : c ≠ 19) (h6 : c ≠ 6) (hpu : c ≠ PAGE_UP) (hpd : c ≠ PAGE_DOWN)
    (h13 : c = 13 → st.E.cx = 0 ∨ moved = false) (hinv : cursorInv st.E) (hal : allocInv st.E) :
    ∃ st2, editorProcessKeypressSwitch junk moved fileOK st c = some st2 ∧
      st2.keys = st.keys := by
  unfold editorProcessKeypressSwitch
  simp only
  by_cases c13 : c = 13
  · rw [if_pos c13]
    obtain ⟨E2, hE, -⟩ := editorInsertNewline_total junk moved st.E hinv hal (h13 c13)
    rw [hE]; exact ⟨_, rfl, rfl⟩
  rw [if_neg c13, if_neg h19]
  by_cases cH : c = HOME_KEY
  · rw [if_pos cH]; exact ⟨_, rfl, rfl⟩
  rw [if_neg cH]
  by_cases cE : c = END_KEY
  · rw [if_pos cE]
    by_cases hy : st.E.cy < st.E.numrows
    · rw [if_pos hy]
      obtain ⟨row, hrow, -⟩ := rowAt_mem st.E st.E.cy hinv.1 hy
      rw [hrow]; exact ⟨_, rfl, rfl⟩
    · rw [if_neg hy]; exact ⟨_, rfl, rfl⟩
  rw [if_neg cE]
  by_cases cB : c = BACKSPACE ∨ c = 8 ∨ c = DEL_KEY
  · rw [if_pos cB]
    by_cases cD : c = DEL_KEY
    · rw [if_pos cD]
      obtain ⟨E1, hE1, hinv1, hrow1, -⟩ := editorMoveCursor_inv st.E ARROW_RIGHT hinv
      have hal1 : allocInv E1 := by
        unfold allocInv at hal ⊢
        rw [hrow1]; exact hal
      obtain ⟨E2, hE2, -⟩ := editorDelChar_total junk E1 hinv1 hal1
      rw [hE1, Option.some_bind, hE2]; exact ⟨_, rfl, rfl⟩
    · rw [if_neg cD]
      obtain ⟨E2, hE2, -⟩ := editorDelChar_total junk st.E hinv hal
      rw [Option.some_bind, hE2]; exact ⟨_, rfl, rfl⟩
  rw [if_neg cB, if_neg (by rintro (h | h) <;> contradiction)]
  by_cases cA : c = ARROW_UP ∨ c = ARROW_DOWN ∨ c = ARROW_LEFT ∨ c = ARROW_RIGHT
  · rw [if_pos cA]
    obtain ⟨E2, hE2, -⟩ := editorMoveCursor_inv st.E c hinv
    rw [hE2]; exact ⟨_, rfl, rfl⟩
  rw [if_neg cA, if_neg h6]
  by_cases cL : c = 12 ∨ c = 27
  · rw [if_pos cL]; exact ⟨_, rfl, rfl⟩
  rw [if_neg cL]
  obtain ⟨E2, hE2, -⟩ := editorInsertChar_total junk st.E c hinv hal
  rw [hE2]; exact ⟨_, rfl, rfl⟩

theorem editorMoveCursor_vertical (E : editorConfig) (key : Int)
    (hk : key = ARROW_UP ∨ key = ARROW_DOWN) (h0 : 0 ≤ E.cy) (h1 : E.cy ≤ E.numrows)
    (hx : 0 ≤ E.cx) : ∃ E2, editorMoveCursor E key = some E2 ∧ cursorInv E2 := by
  have hsw : ∃ E1, editorMoveCursorSwitch E (E.rowAt E.cy) key = some E1 ∧ E1.row = E.row ∧
      0 ≤ E1.cy ∧ E1.cy ≤ E.numrows ∧ 0 ≤ E1.cx := by
    unfold editorMoveCursorSwitch
    rcases hk with rfl | rfl
    · rw [if_neg (by decide), if_neg (by decide), if_pos rfl]
      by_cases hc : E.cy ≠ 0
      · rw [if_pos hc]; exact ⟨_, rfl, rfl, by show 0 ≤ E.cy - 1; omega,
          by show E.cy - 1 ≤ E.numrows; omega, hx⟩
      · rw [if_neg hc]; exact ⟨_, rfl, rfl, h0, h1, hx⟩
    · rw [if_neg (by decide), if_neg (by decide), if_neg (by decide), if_pos rfl]
      by_cases hc : E.cy < E.numrows
      · rw [if_pos hc]; exact ⟨_, rfl, rfl, by show 0 ≤ E.cy + 1; omega,
          by show E.cy + 1 ≤ E.numrows; omega, hx⟩
      · rw [if_neg hc]; exact ⟨_, rfl, rfl, h0, h1, hx⟩
  obtain ⟨E1, hE1, hr1, c0, c1, x0⟩ := hsw
  have hn : E1.numrows = E.numrows := by simp only [editorConfig.numrows, hr1]
  obtain ⟨E2, hE2, hinv2, -⟩ := editorMoveCursor_clamp E1 c0 (by omega) x0
  refine ⟨E2, ?_, hinv2⟩
  unfold editorMoveCursor
  rw [rowPtr_eq E h0 h1, Option.some_bind, hE1, Option.some_bind]
  exact hE2

theorem editorProcessKeypressPage_total (key : Int) (n : Nat) (E : editorConfig)
    (hinv : cursorInv E) : ∃ E2, editorProcessKeypressPage key n E = some E2 := by
  induction n generalizing E with
  | zero => exact ⟨E, rfl⟩
  | succ n ih =>
    obtain ⟨E1, hE1, hinv1, -⟩ := editorMoveCursor_inv E key hinv
    obtain ⟨E2, hE2⟩ := ih E1 hinv1
    exact ⟨E2, by rw [editorProcessKeypressPage, hE1, Option.some_bind, hE2]⟩

/-- The page keys return when the window has a height and `rowoff` is a line
of the document or its end. -/
theorem editorProcessKeypressSwitch_page (junk : Nat → Nat) (moved : Bool)
    (fileOK : List Nat → Bool) (st : keypressState) (c : Int)
    (hc : c = PAGE_UP ∨ c = PAGE_DOWN) (hinv : cursorInv st.E)
    (h0 : 0 ≤ st.E.rowoff) (h1 : st.E.rowoff ≤ st.E.numrows) (hs : 1 ≤ st.E.screenrows) :
    ∃ st2, editorProcessKeypressSwitch junk moved fileOK st c = some st2 ∧
      st2.keys = st.keys := by
  have hx0 : 0 ≤ st.E.cx := by
    rcases cursorInv_cases st.E hinv with ⟨-, hx, -⟩ | ⟨-, -, -, -, -, hx, -⟩
    · omega
    · exact hx
  have hloop : ∀ (key : Int) (E : editorConfig), key = ARROW_UP ∨ key = ARROW_DOWN →
      0 ≤ E.cy → E.cy ≤ E.numrows → 0 ≤ E.cx → 1 ≤ E.screenrows →
      ∃ E2, editorProcessKeypressPage key E.screenrows.toNat E = some E2 := by
    intro key E hk c0 c1 x0 s1
    obtain ⟨n, hn⟩ : ∃ n, E.screenrows.toNat = n + 1 := ⟨E.screenrows.toNat - 1, by omega⟩
    obtain ⟨E1, hE1, hinv1⟩ := editorMoveCursor_vertical E key hk c0 c1 x0
    obtain ⟨E2, hE2⟩ := editorProcessKeypressPage_total key n E1 hinv1
    exact ⟨E2, by rw [hn, editorProcessKeypressPage, hE1, Option.some_bind, hE2]⟩
  unfold editorProcessKeypressSwitch
  simp only
  rcases hc with rfl | rfl
  · rw [if_neg (by decide), if_neg (by decide), if_neg (by decide), if_neg (by decide),
      if_neg (by decide), if_pos (Or.inl rfl)]
    simp only [if_true]
    rw [if_neg (by show ¬ st.E.screenrows < 0; omega)]
    obtain ⟨E2, hE2⟩ := hloop ARROW_UP { st.E with cy := st.E.rowoff } (Or.inl rfl) h0 h1 hx0 hs
    rw [hE2]; exact ⟨_, rfl, rfl⟩
  · rw [if_neg (by decide), if_neg (by decide), if_neg (by decide), if_neg (by decide),
      if_neg (by decide), if_pos (Or.inr rfl)]
    simp only [if_neg (show ¬ PAGE_DOWN = PAGE_UP by decide)]
    by_cases hgt : st.E.rowoff + st.E.screenrows - 1 >
        ({ st.E with cy := st.E.rowoff + st.E.screenrows - 1 } : editorConfig).numrows
    · rw [if_pos hgt]
      rw [if_neg (by show ¬ st.E.screenrows < 0; omega)]
      obtain ⟨E2, hE2⟩ := hloop ARROW_DOWN
        { st.E with cy := st.E.numrows } (Or.inr rfl)
        (by show 0 ≤ st.E.numrows; omega) (le_refl _) hx0 hs
      exact ⟨{ st with E := E2 },
        congrArg (Option.map (fun E => ({ st with E := E } : keypressState))) hE2, rfl⟩
    · rw [if_neg hgt]
      rw [if_neg (by show ¬ st.E.screenrows < 0; omega)]
      have hle : st.E.rowoff + st.E.screenrows - 1 ≤ st.E.numrows := not_lt.mp hgt
      obtain ⟨E2, hE2⟩ := hloop ARROW_DOWN
        { st.E with cy := st.E.rowoff + st.E.screenrows - 1 } (Or.inr rfl)
        (by show 0 ≤ st.E.rowoff + st.E.screenrows - 1; omega) hle hx0 hs
      rw [hE2]; exact ⟨_, rfl, rfl⟩

/-- Ctrl-S on a document without file name, answered by ESC, returns. -/
theorem editorProcessKeypressSwitch_save_esc (junk : Nat → Nat) (moved : Bool)
    (fileOK : List Nat → Bool) (st : keypressState) (rest : List Int)
    (hf : st.filename = none) (hk : st.keys = 27 :: rest)
    (hinv : cursorInv st.E) (hal : allocInv st.E)
    (hr : 1 ≤ st.E.screenrows) (hc : 1 ≤ st.E.screencols) :
    ∃ st2, editorProcessKeypressSwitch junk moved fileOK st 19 = some st2 ∧ st2.keys = rest := by
  obtain ⟨E2, hE2, -⟩ := editorScroll_spec st.E hinv hal hr hc
  unfold editorProcessKeypressSwitch
  rw [if_neg (by decide), if_pos rfl, hf, hk]
  unfold editorSave
  simp only
  rw [editorPrompt, hE2]
  simp only [Option.some_bind, if_true, editorPromptCall, Option.map_some']
  exact ⟨_, rfl, rfl⟩

/-- Ctrl-F answered by ESC returns. -/
theorem editorProcessKeypressSwitch_find_esc (junk : Nat → Nat) (moved : Bool)
    (fileOK : List Nat → Bool) (st : keypressState) (rest : List Int)
    (hk : st.keys = 27 :: rest) (hinv : cursorInv st.E) (hal : allocInv st.E)
    (hr : 1 ≤ st.E.screenrows) (hc : 1 ≤ st.E.screencols) :
    ∃ st2, editorProcessKeypressSwitch junk moved fileOK st 6 = some st2 ∧ st2.keys = rest := by
  obtain ⟨E2, hE2, -⟩ := editorScroll_spec st.E hinv hal hr hc
  unfold editorProcessKeypressSwitch
  rw [if_neg (by decide), if_neg (by decide), if_neg (by decide), if_neg (by decide),
    if_neg (by decide), if_neg (by decide), if_neg (by decide), if_pos rfl, hk]
  unfold editorFind
  simp only
  rw [editorPrompt, hE2]
  simp only [Option.some_bind, if_true, editorPromptCall, editorFindCallback,
    editorFindCallbackProbes, or_true, Option.map_some']
  exact ⟨_, rfl, rfl⟩

/-- C17: in `editorProcessKeypress`, with the quit counter at its maximum 3
and a dirty document, the first three consecutive Ctrl-Q presses each decrement
the counter, leave everything else as it is and do not terminate, and the
fourth terminates; any key other than Ctrl-Q whose handler returns leaves the
counter at 3 and does not terminate (the handlers of the editing and cursor
keys return on every well-formed state, Ctrl-S and Ctrl-F when their prompt is
answered, here by ESC); and when the document is not dirty a single Ctrl-Q
terminates. -/
theorem editorProcessKeypress_quit_times (junk : Nat → Nat) (moved : Bool)
    (fileOK : List Nat → Bool) (st : keypressState) (rest : List Int) :
    (st.E.dirty ≠ 0 →
      editorProcessKeypress junk moved fileOK
          { st with quit_times := 3, keys := 17 :: 17 :: 17 :: 17 :: rest }
        = some (keypressResult.running { st with quit_times := 2, keys := 17 :: 17 :: 17 :: rest }) ∧
      editorProcessKeypress junk moved fileOK
          { st with quit_times := 2, keys := 17 :: 17 :: 17 :: rest }
        = some (keypressResult.running { st with quit_times := 1, keys := 17 :: 17 :: rest }) ∧
      editorProcessKeypress junk moved fileOK
          { st with quit_times := 1, keys := 17 :: 17 :: rest }
        = some (keypressResult.running { st with quit_times := 0, keys := 17 :: rest }) ∧
      editorProcessKeypress junk moved fileOK { st with quit_times := 0, keys := 17 :: rest }
        = some keypressResult.exited) ∧
    (∀ c, c ≠ 17 → ∀ r,
      editorProcessKeypress junk moved fileOK { st with keys := c :: rest } = some r →
      ∃ st2, r = keypressResult.running st2 ∧ st2.quit_times = 3) ∧
    (∀ c, c ≠ 17 → c ≠ 19 → c ≠ 6 → (c = 13 → st.E.cx = 0 ∨ moved = false) →
      (c = PAGE_UP ∨ c = PAGE_DOWN →
        0 ≤ st.E.rowoff ∧ st.E.rowoff ≤ st.E.numrows ∧ 1 ≤ st.E.screenrows) →
      cursorInv st.E → allocInv st.E →
      ∃ st2, editorProcessKeypress junk moved fileOK { st with keys := c :: rest }
          = some (keypressResult.running st2) ∧ st2.quit_times = 3 ∧ st2.keys = rest) ∧
    (∀ c, (c = 19 ∧ st.filename = none) ∨ c = 6 → cursorInv st.E → allocInv st.E →
      1 ≤ st.E.screenrows → 1 ≤ st.E.screencols →
      ∃ st2, editorProcessKeypress junk moved fileOK { st with keys := c :: 27 :: rest }
          = some (keypressResult.running st2) ∧ st2.quit_times = 3 ∧ st2.keys = rest) ∧
    (st.E.dirty = 0 →
      editorProcessKeypress junk moved fileOK { st with keys := 17 :: rest }
        = some keypressResult.exited) := by
  refine ⟨?_, ?_, ?_, ?_, ?_⟩
  · intro hd
    refine ⟨?_, ?_, ?_, ?_⟩
    · rw [editorProcessKeypress_quit_key junk moved fileOK _ (17 :: 17 :: 17 :: rest) rfl,
        if_pos ⟨hd, show (0 : Int) < _ from by norm_num⟩]
      rfl
    · rw [editorProcessKeypress_quit_key junk moved fileOK _ (17 :: 17 :: rest) rfl,
        if_pos ⟨hd, show (0 : Int) < _ from by norm_num⟩]
      rfl
    · rw [editorProcessKeypress_quit_key junk moved fileOK _ (17 :: rest) rfl,
        if_pos ⟨hd, show (0 : Int) < _ from by norm_num⟩]
      rfl
    · rw [editorProcessKeypress_quit_key junk moved fileOK _ rest rfl,
        if_neg (fun h => absurd h.2 (lt_irrefl (0 : Int)))]
  · intro c hc r h
    rw [editorProcessKeypress_other_key junk moved fileOK _ c rest rfl hc] at h
    obtain ⟨x, -, rfl⟩ := Option.map_eq_some'.mp h
    exact ⟨_, rfl, rfl⟩
  · intro c hc h19 h6 h13 hpage hinv hal
    rw [editorProcessKeypress_other_key junk moved fileOK _ c rest rfl hc]
    by_cases hp : c = PAGE_UP ∨ c = PAGE_DOWN
    · obtain ⟨p0, p1, p2⟩ := hpage hp
      obtain ⟨st2, h2, hk2⟩ := editorProcessKeypressSwitch_page junk moved fileOK
        { st with keys := rest } c hp hinv p0 p1 p2
      rw [h2]
      exact ⟨_, rfl, rfl, hk2⟩
    · obtain ⟨st2, h2, hk2⟩ := editorProcessKeypressSwitch_total junk moved fileOK
        { st with keys := rest } c h19 h6 (fun h => hp (Or.inl h)) (fun h => hp (Or.inr h))
        h13 hinv hal
      rw [h2]
      exact ⟨_, rfl, rfl, hk2⟩
  · intro c hc hinv hal hr hcol
    rcases hc with ⟨rfl, hf⟩ | rfl
    · rw [editorProcessKeypress_other_key junk moved fileOK _ 19 (27 :: rest) rfl (by decide)]
      obtain ⟨st2, h2, hk2⟩ := editorProcessKeypressSwitch_save_esc junk moved fileOK
        { st with keys := 27 :: rest } rest hf rfl hinv hal hr hcol
      rw [h2]
      exact ⟨_, rfl, rfl, hk2⟩
    · rw [editorProcessKeypress_other_key junk moved fileOK _ 6 (27 :: rest) rfl (by decide)]
      obtain ⟨st2, h2, hk2⟩ := editorProcessKeypressSwitch_find_esc junk moved fileOK
        { st with keys := 27 :: rest } rest rfl hinv hal hr hcol
      rw [h2]
      exact ⟨_, rfl, rfl, hk2⟩
  · intro hd
    rw [editorProcessKeypress_quit_key junk moved fileOK _ rest rfl,
      if_neg (fun h => h.1 hd)]

/-- C17 on the edited document `"abc"`: three Ctrl-Q presses count 3, 2, 1
down to 0 and the fourth leaves. -/
theorem editorProcessKeypress_quit_times_witness :
    sampleQuit.E.dirty ≠ 0 ∧
    editorProcessKeypress (fun _ => 170) false (fun _ => true)
        { sampleQuit with quit_times := 3, keys := 17 :: 17 :: 17 :: 17 :: [] }
      = some (keypressResult.running
          { sampleQuit with quit_times := 2, keys := 17 :: 17 :: 17 :: [] }) ∧
    editorProcessKeypress (fun _ => 170) false (fun _ => true)
        { sampleQuit with quit_times := 2, keys := 17 :: 17 :: 17 :: [] }
      = some (keypressResult.running { sampleQuit with quit_times := 1, keys := 17 :: 17 :: [] }) ∧
    editorProcessKeypress (fun _ => 170) false (fun _ => true)
        { sampleQuit with quit_times := 1, keys := 17 :: 17 :: [] }
      = some (keypressResult.running { sampleQuit with quit_times := 0, keys := 17 :: [] }) ∧
    editorProcessKeypress (fun _ => 170) false (fun _ => true)
        { sampleQuit with quit_times := 0, keys := 17 :: [] }
      = some keypressResult.exited :=
  ⟨by decide,
    (editorProcessKeypress_quit_times (fun _ => 170) false (fun _ => true) sampleQuit []).1
      (by decide)⟩

/-! ### The two tab layouts -/

/-- The column `editorRowCxToRx` reaches over the bytes `l` is the length of
their tab expansion. -/
theorem foldl_rxStep_expandTabsFrom (acc l : List Nat) :
    l.foldl rxStep acc.length = (expandTabsFrom acc l).length := by
  induction l generalizing acc with
  | nil => simp [expandTabsFrom]
  | cons b bs ih =>
    by_cases hb : b = 9
    · subst hb
      have h := ih (acc ++ List.replicate (8 - acc.length % 8) 32)
      simp only [List.length_append, List.length_replicate] at h
      have hs : rxStep acc.length 9 = acc.length + (8 - acc.length % 8) := by
        simp only [rxStep, KILO_TAB_STOP, if_true]
        omega
      simp only [List.foldl_cons, expandTabsFrom, if_true, hs, h]
    · have h := ih (acc ++ [b])
      simp only [List.length_append, List.length_cons, List.length_nil] at h
      have hs : rxStep acc.length b = acc.length + 0 + 1 := by
        simp only [rxStep, if_neg hb]
      simp only [List.foldl_cons, expandTabsFrom, if_neg hb, hs, h]

theorem expandTabsFrom_acc (acc l : List Nat) : ∃ t, expandTabsFrom acc l = acc ++ t := by
  induction l generalizing acc with
  | nil => exact ⟨[], by simp [expandTabsFrom]⟩
  | cons b bs ih =>
    by_cases hb : b = 9
    · obtain ⟨t, ht⟩ := ih (acc ++ List.replicate (8 - acc.length % 8) 32)
      exact ⟨List.replicate (8 - acc.length % 8) 32 ++ t, by
        simp only [expandTabsFrom, if_pos hb, ht, List.append_assoc]⟩
    · obtain ⟨t, ht⟩ := ih (acc ++ [b])
      exact ⟨[b] ++ t, by simp only [expandTabsFrom, if_neg hb, ht, List.append_assoc]⟩

/-- C21: for every line and every `cx` with `0 <= cx <= size`,
`editorRowCxToRx(line, cx)` is the number of rendered bytes (`rsize`) that
`editorUpdateRow` produces for the line cut to its first `cx` raw bytes, and
those bytes are the first ones of the rendered line. In particular
`editorRowCxToRx(line, size) = rsize`, and for `cx < size` with a raw byte
other than a tab, `render[editorRowCxToRx(line, cx)] = chars[cx]`. -/
theorem editorRowCxToRx_editorUpdateRow (junk : Nat → Nat) (row : erow) (cx : Nat)
    (h : row.size ≤ row.chars.length) (hcx : cx ≤ row.size) :
    ∃ rx rowc row2, editorRowCxToRx row (cx : Int) = some rx ∧
      editorUpdateRow junk { row with size := cx } = some rowc ∧ rowc.rsize = rx ∧
      editorUpdateRow junk row = some row2 ∧
      editorRowCxToRx row2 (cx : Int) = some rx ∧
      row2.rendered.take rx = rowc.rendered ∧
      (cx = row.size → rx = row2.rsize) ∧
      (∀ c, cx < row.size → row.chars[cx]? = some c → c ≠ 9 → row2.render[rx]? = some c) := by
  have hrx := editorRowCxToRx_some row (cx : Int) (by omega) h
  rw [Int.toNat_ofNat] at hrx
  have hfold := foldl_rxStep_expandTabsFrom [] (row.chars.take cx)
  simp only [List.length_nil] at hfold
  have hc := editorUpdateRow_eq junk { row with size := cx } (by show cx ≤ row.chars.length; omega)
  have h2 := editorUpdateRow_eq junk row h
  have hrawc : ({ row with size := cx } : erow).raw = row.chars.take cx := rfl
  have htake : row.raw.take cx = row.chars.take cx := by
    simp only [erow.raw, List.take_take, min_eq_left hcx]
  have hsplit : row.raw = row.chars.take cx ++ row.raw.drop cx := by
    rw [← htake, List.take_append_drop]
  have hexp : expandTabs row.raw
      = expandTabsFrom (expandTabs (row.chars.take cx)) (row.raw.drop cx) := by
    conv_lhs => rw [hsplit]
    unfold expandTabs
    rw [expandTabsFrom_append]
  refine ⟨_, _, _, hrx, hc, ?_, h2, ?_, ?_, ?_, ?_⟩
  · show (expandTabs (row.chars.take cx)).length = _
    unfold expandTabs
    rw [hfold]
  · exact hrx
  · show ((expandTabs row.raw ++ 0 :: _).take (expandTabs row.raw).length).take _
      = (expandTabs (row.chars.take cx) ++ 0 :: _).take (expandTabs (row.chars.take cx)).length
    rw [List.take_left' rfl, List.take_left' rfl, hfold, hexp]
    obtain ⟨t, ht⟩ := expandTabsFrom_acc (expandTabs (row.chars.take cx)) (row.raw.drop cx)
    rw [ht]
    exact List.take_left' rfl
  · intro he
    show _ = (expandTabs row.raw).length
    subst he
    rw [hfold]
    rfl
  · intro c hlt hget hne
    have hdrop : row.raw.drop cx = c :: row.raw.drop (cx + 1) := by
      have hl : cx < row.raw.length := by rw [raw_length row h]; exact hlt
      rw [List.drop_eq_getElem_cons hl]
      congr 1
      have : row.raw[cx]? = some c := by
        simp only [erow.raw, List.getElem?_take, if_pos hlt, hget]
      rw [List.getElem?_eq_getElem hl] at this
      exact Option.some.inj this
    show (expandTabs row.raw ++ 0 :: _)[((row.chars.take cx).foldl rxStep 0)]? = some c
    rw [hexp, hdrop, hfold]
    simp only [expandTabsFrom, if_neg hne]
    obtain ⟨t, ht⟩ := expandTabsFrom_acc (expandTabsFrom [] (row.chars.take cx) ++ [c])
      (row.raw.drop (cx + 1))
    unfold expandTabs
    rw [ht, List.append_assoc, List.append_assoc, List.singleton_append,
      getElem?_append_cons_length]

/-- C21 on the line `"a\tb"`: `editorRowCxToRx(line, 2) = 8` and `render[8]`
is `b`. -/
theorem editorRowCxToRx_editorUpdateRow_witness :
    (3 : Nat) ≤ ([97, 9, 98, 0] : List Nat).length ∧ (2 : Nat) ≤ 3 ∧
    editorRowCxToRx ⟨3, 0, [97, 9, 98, 0], []⟩ ((2 : Nat) : Int) = some 8 ∧
    (∃ rx rowc row2, editorRowCxToRx ⟨3, 0, [97, 9, 98, 0], []⟩ ((2 : Nat) : Int) = some rx ∧
      editorUpdateRow (fun _ => 170) { (⟨3, 0, [97, 9, 98, 0], []⟩ : erow) with size := 2 }
        = some rowc ∧ rowc.rsize = rx ∧
      editorUpdateRow (fun _ => 170) ⟨3, 0, [97, 9, 98, 0], []⟩ = some row2 ∧
      editorRowCxToRx row2 ((2 : Nat) : Int) = some rx ∧
      row2.rendered.take rx = rowc.rendered ∧
      ((2 : Nat) = 3 → rx = row2.rsize) ∧
      (∀ c, (2 : Nat) < 3 → ([97, 9, 98, 0] : List Nat)[2]? = some c → c ≠ 9 →
        row2.render[rx]? = some c)) :=
  ⟨by decide, by decide, by decide,
    editorRowCxToRx_editorUpdateRow (fun _ => 170) ⟨3, 0, [97, 9, 98, 0], []⟩ 2 (by decide)
      (by decide)⟩

/-- The allocation bound with unbounded integers: for every line with `size` raw bytes of which `tabs` are tabs,
`editorUpdateRow` returns with `size <= rsize <= size + 7 * tabs`; the render
buffer has the `size + 7 * tabs + 1` bytes allocated for it, `rsize` is an
index of it, and every store into it, the terminating NUL at index `rsize`
included, was inside it (a store outside has no result). -/
theorem editorUpdateRow_in_bounds (junk : Nat → Nat) (row : erow)
    (h : row.size ≤ row.chars.length) :
    ∃ row2, editorUpdateRow junk row = some row2 ∧
      editorUpdateRowTabs row.chars row.size 0 0 = some (row.raw.count 9) ∧
      row.size ≤ row2.rsize ∧ row2.rsize ≤ row.size + 7 * row.raw.count 9 ∧
      row2.render.length = row.size + 7 * row.raw.count 9 + 1 ∧
      row2.rsize < row2.render.length ∧ row2.render[row2.rsize]? = some 0 := by
  have hlen := raw_length row h
  have hb := expandTabsFrom_length [] row.raw
  simp only [List.length_nil, Nat.zero_add, hlen] at hb
  have htabs := editorUpdateRowTabs_eq row.chars row.size 0 0 (by omega)
  simp only [List.drop_zero, Nat.zero_add] at htabs
  refine ⟨_, editorUpdateRow_eq junk row h, htabs, ?_, ?_, ?_, ?_, ?_⟩
  · show row.size ≤ (expandTabs row.raw).length
    unfold expandTabs; omega
  · show (expandTabs row.raw).length ≤ _
    unfold expandTabs; omega
  · show (expandTabs row.raw ++ 0 :: (malloc junk _).drop _).length = _
    simp only [List.length_append, List.length_cons, List.length_drop, malloc_length,
      KILO_TAB_STOP]
    unfold expandTabs; omega
  · show (expandTabs row.raw).length < (expandTabs row.raw ++ 0 :: (malloc junk _).drop _).length
    simp only [List.length_append, List.length_cons]
    omega
  · exact getElem?_append_cons_length _ _ _

/-- The allocation bound on the line `"a\tb"`: one tab, `3 <= 9 <= 10`, and 11 bytes allocated. -/
theorem editorUpdateRow_in_bounds_witness :
    (3 : Nat) ≤ ([97, 9, 98, 0] : List Nat).length ∧
    ∃ row2, editorUpdateRow (fun _ => 170) ⟨3, 0, [97, 9, 98, 0], []⟩ = some row2 ∧
      editorUpdateRowTabs [97, 9, 98, 0] 3 0 0
        = some ((erow.raw ⟨3, 0, [97, 9, 98, 0], []⟩).count 9) ∧
      3 ≤ row2.rsize ∧ row2.rsize ≤ 3 + 7 * (erow.raw ⟨3, 0, [97, 9, 98, 0], []⟩).count 9 ∧
      row2.render.length = 3 + 7 * (erow.raw ⟨3, 0, [97, 9, 98, 0], []⟩).count 9 + 1 ∧
      row2.rsize < row2.render.length ∧ row2.render[row2.rsize]? = some 0 :=
  ⟨by decide, editorUpdateRow_in_bounds (fun _ => 170) ⟨3, 0, [97, 9, 98, 0], []⟩ (by decide)⟩

/-! ### The terminator of the raw buffer -/

/-- The stores of `editorRowInsertChar` leave the last byte of the reallocated
buffer as `realloc` handed it out. -/
theorem memmove_poke_keeps (R L : List Nat) (size a c : Nat) (ha : a ≤ size)
    (hR : R.length = size + 2)
    (h : (memmove R (a + 1) a (size - a)).bind (fun b => poke b a c) = some L) :
    L[size + 1]? = R[size + 1]? := by
  obtain ⟨b1, hm, hp⟩ := Option.bind_eq_some.mp h
  unfold memmove at hm
  split_ifs at hm
  obtain rfl := Option.some.inj hm
  unfold poke at hp
  split_ifs at hp
  obtain rfl := Option.some.inj hp
  have h1 : (R.take (a + 1) ++ (R.drop a).take (size - a)).length = size + 1 := by
    simp only [List.length_append, List.length_take, List.length_drop]
    omega
  rw [List.getElem?_set_ne (by omega), List.getElem?_append_right (by omega), h1]
  simp only [Nat.sub_self, List.getElem?_drop, Nat.add_zero]
  congr 1
  omega

/-- The row `editorRowInsertChar` leaves has at `chars[size]` the byte that
`realloc` handed out at the end of the grown buffer: no store reaches it. -/
theorem editorRowInsertChar_last_byte (junk : Nat → Nat) (E : editorConfig) (r : Int) (row : erow)
    (at_ : Int) (c : Nat) (hr : E.rowAt r = some row) (hal : row.alloc)
    (h0 : 0 ≤ at_) (h1 : at_ ≤ row.size) :
    ∃ row2, editorRowInsertChar junk E r at_ c = some (E.setRow r row2).dirtyInc ∧
      row2.size = row.size + 1 ∧
      row2.chars[row2.size]? = (realloc junk row.chars (row.size + 2))[row.size + 1]? ∧
      (row.chars.length = row.size + 1 → row2.chars[row2.size]? = some (junk (row.size + 1))) := by
  unfold erow.alloc at hal
  obtain ⟨t, ht⟩ := insert_buf junk row.chars row.size at_.toNat c hal (by omega)
  have hkeep := memmove_poke_keeps (realloc junk row.chars (row.size + 2)) _ row.size at_.toNat c
    (by omega) (realloc_length junk row.chars (row.size + 2)) ht
  obtain ⟨b1, hm, hp⟩ := Option.bind_eq_some.mp ht
  have hlen : ((row.chars.take row.size).take at_.toNat ++
      c :: (row.chars.take row.size).drop at_.toNat).length = row.size + 1 := by
    simp only [List.length_append, List.length_take, List.length_cons, List.length_drop]
    omega
  obtain ⟨row2, h2, hs, hc, -⟩ := editorUpdateRow_spec junk
    { row with chars := (row.chars.take row.size).take at_.toNat ++
        c :: (row.chars.take row.size).drop at_.toNat ++ [t], size := row.size + 1 }
    (by
      simp only [List.cons_append, List.length_append, List.length_cons, List.length_nil] at hlen ⊢
      omega)
  have hlast : row2.chars[row2.size]? = (realloc junk row.chars (row.size + 2))[row.size + 1]? := by
    rw [hc, hs, ← hkeep]
  refine ⟨row2, ?_, hs, hlast, ?_⟩
  · unfold editorRowInsertChar
    rw [hr]
    simp only [Option.some_bind]
    rw [if_neg (by omega), hm]
    simp only [Option.some_bind]
    rw [hp]
    simp only [Option.some_bind]
    rw [h2]
    rfl
  · intro hcap
    rw [hlast]
    unfold realloc
    rw [List.getElem?_append_right (by simp only [List.length_take]; omega)]
    simp only [List.length_take, hcap]
    rw [show min (row.size + 2) (row.size + 1) = row.size + 1 by omega,
      show row.size + 2 - (row.size + 1) = 1 by omega]
    simp

/-- `editorRowDelChar` moves the terminator down with the bytes behind `at`. -/
theorem editorRowDelChar_terminated (junk : Nat → Nat) (E : editorConfig) (r : Int) (row : erow)
    (at_ : Int) (hr : E.rowAt r = some row) (hal : row.alloc)
    (h0 : 0 ≤ at_) (h1 : at_ < row.size) (ht : row.terminated) :
    ∃ row2, editorRowDelChar junk E r at_ = some (E.setRow r row2).dirtyInc ∧
      row2.size = row.size - 1 ∧ row2.terminated := by
  obtain ⟨row2, h2, hs, -, -, -, hlast⟩ := editorRowDelChar_spec junk E r row at_ hr hal h0 h1
  exact ⟨row2, h2, hs, by unfold erow.terminated at ht ⊢; rw [hlast, ht]⟩

/-- `editorRowAppendString` stores the terminator behind the appended bytes. -/
theorem editorRowAppendString_terminated (junk : Nat → Nat) (E : editorConfig) (r : Int)
    (row : erow) (s : List Nat) (len : Nat) (hr : E.rowAt r = some row)
    (hal : row.size ≤ row.chars.length) (hs : len ≤ s.length) :
    ∃ row2, editorRowAppendString junk E r s len = some (E.setRow r row2).dirtyInc ∧
      row2.size = row.size + len ∧ row2.terminated := by
  obtain ⟨row2, h2, hsz, hc, -⟩ := editorRowAppendString_spec junk E r row s len hr hal hs
  refine ⟨row2, h2, hsz, ?_⟩
  unfold erow.terminated
  have hl : (row.raw ++ s.take len).length = row2.size := by
    rw [hsz, List.length_append, raw_length row hal, List.length_take]; omega
  rw [hc, ← hl]
  exact getElem?_append_cons_length _ _ _

/-- The row `editorInsertRow` creates is terminated. -/
theorem editorInsertRow_terminated (junk : Nat → Nat) (E : editorConfig) (at_ : Int)
    (s : List Nat) (len : Nat) (h0 : 0 ≤ at_) (h1 : at_ ≤ E.numrows) (hs : len ≤ s.length) :
    ∃ row2, editorInsertRow junk E at_ s len
        = some (E.withRows (E.row.take at_.toNat ++ row2 :: E.row.drop at_.toNat)).dirtyInc ∧
      row2.size = len ∧ row2.terminated := by
  obtain ⟨row2, h2, hsz, hc, -⟩ := editorInsertRow_spec junk E at_ s len h0 h1 hs
  refine ⟨row2, h2, hsz, ?_⟩
  unfold erow.terminated
  have hl : (s.take len).length = row2.size := by
    rw [hsz, List.length_take]; omega
  rw [hc, ← hl]
  exact getElem?_append_cons_length _ _ _

/-- The line split of `editorInsertNewline`, the row array staying in place,
leaves both halves terminated. -/
theorem editorInsertNewline_split_terminated (junk : Nat → Nat) (E : editorConfig)
    (pre post : List erow) (cur : erow) (hrow : E.row = pre ++ cur :: post)
    (hcy : E.cy = pre.length) (h0 : 0 < E.cx) (h1 : E.cx ≤ cur.size) (hal : cur.alloc) :
    ∃ t n, editorInsertNewline junk false E
        = some ({ ((E.withRows (pre ++ cur :: n :: post)).dirtyInc.setRow E.cy t) with
                  cy := E.cy + 1, cx := 0 } : editorConfig).dirtyInc ∧
      t.size = E.cx.toNat ∧ t.terminated ∧ n.size = cur.size - E.cx.toNat ∧ n.terminated := by
  unfold erow.alloc at hal
  have hcur : E.rowAt E.cy = some cur := rowAt_append E pre post cur _ hrow hcy
  have hlen : ((cur.size : Int) - E.cx).toNat = cur.size - E.cx.toNat := by omega
  obtain ⟨n, hn, hns, hnt⟩ := editorInsertRow_terminated junk E (E.cy + 1)
    (cur.chars.drop E.cx.toNat) (cur.size - E.cx.toNat) (by omega)
    (by simp only [editorConfig.numrows, hrow, List.length_append, List.length_cons]
        push_cast; omega)
    (by simp only [List.length_drop]; omega)
  have hrows : E.row.take (E.cy + 1).toNat ++ n :: E.row.drop (E.cy + 1).toNat
      = pre ++ cur :: n :: post := by
    have := insert_rows (pre ++ [cur]) post n (E.cy + 1) (by simp [hcy])
    simpa [hrow] using this
  rw [hrows] at hn
  have hcur1 : (E.withRows (pre ++ cur :: n :: post)).dirtyInc.rowAt E.cy = some cur :=
    rowAt_append _ pre (n :: post) cur _ rfl hcy
  have hpoke : poke cur.chars E.cx.toNat 0 = some (cur.chars.set E.cx.toNat 0) := by
    unfold poke; rw [if_pos (by omega)]
  obtain ⟨t, ht, hts, htc, -⟩ := editorUpdateRow_spec junk
    { cur with size := E.cx.toNat, chars := cur.chars.set E.cx.toNat 0 }
    (by simp only [List.length_set]; omega)
  refine ⟨t, n, ?_, hts, ?_, hns, hnt⟩
  · unfold editorInsertNewline
    rw [if_neg (by omega), hcur, Option.some_bind, if_neg (by omega), hlen, hn, Option.some_bind,
      if_neg (by simp), hcur1, Option.some_bind, hpoke, Option.some_bind, ht]
    rfl
  · unfold erow.terminated
    rw [htc, hts]
    exact List.getElem?_set_self (by omega)

/-- C23: on the document `["ab"]`, whose row is terminated, typing `c` behind
the line (`editorInsertChar`, which calls `editorRowInsertChar(row, 2, 'c')`)
or inserting it in front (`editorRowInsertChar(row, 0, 'c')`) leaves a row of
size 3 whose `chars[3]` is the byte `realloc` handed out (here 170), not NUL;
`editorRowsToString` on that row then reads past the end of the buffer. -/
theorem editorRowInsertChar_unterminated :
    sampleType.row.map (fun r => (r.size, r.chars, decide r.terminated))
      = [(2, [97, 98, 0], true)] ∧
    (editorInsertChar (fun _ => 170) sampleType 99).map
        (fun E => E.row.map (fun r => (r.size, r.chars, decide r.terminated)))
      = some [(3, [97, 98, 99, 170], false)] ∧
    (editorRowInsertChar (fun _ => 170) sampleType 0 0 99).map
        (fun E => E.row.map (fun r => (r.size, r.chars, decide r.terminated)))
      = some [(3, [99, 97, 98, 170], false)] ∧
    (editorInsertChar (fun _ => 170) sampleType 99).bind editorRowsToString = none := by
  decide

/-! ### The allocation of the render buffer in `int` arithmetic -/

/-- C11: the document `["abc", "de"]` with the cursor at the end of line 0
satisfies the cursor invariant; Enter there takes the branch `cx != 0`, and
when the `realloc` of `editorInsertRow` moves the row array the stores
`row->size = E.cx; row->chars[row->size] = 0; editorUpdateRow(row)` go through
the stale pointer `row`: `editorInsertNewline` has no defined result, so there
is no state after it in which the invariant holds. -/
theorem editorInsertNewline_no_invariant :
    cursorInv sampleEdit ∧ allocInv sampleEdit ∧ sampleEdit.cx = 3 ∧ sampleEdit.cy = 0 ∧
    editorInsertNewline (fun _ => 170) true sampleEdit = none := by
  decide

/-- C18: on the document `["abc", "de"]` with the cursor inside line 0
(`cx = 1`), a state that satisfies the cursor invariant, Enter adds 2 to
`dirty` when the row array stays in place; when the `realloc` of
`editorInsertRow` moves it, the stores through the stale pointer `row` are
undefined and `editorInsertNewline` has no defined result, so no value of
`dirty` after it. -/
theorem editorInsertNewline_no_dirty :
    cursorInv { sampleEdit with cx := 1 } ∧ allocInv { sampleEdit with cx := 1 } ∧
    (editorInsertNewline (fun _ => 170) false { sampleEdit with cx := 1 }).map
      (fun E => (E.dirty, E.lines)) = some (2, [[97], [98, 99], [100, 101]]) ∧
    editorInsertNewline (fun _ => 170) true { sampleEdit with cx := 1 } = none := by
  decide

end Kilo
